import Mathlib

/-!
# katana: `DynamicBitset` and `PartialGraphView`

A shallow embedding of `libgalois/include/katana/DynamicBitset.h` and
`libgalois/include/galois/PartialGraphView.h`.

* Machine integers (`uint64_t`, `size_t`) are natural numbers; every arithmetic
  operation of the source is reduced modulo `2 ^ 64` where the C++ operation wraps.
* Behaviour that C++ leaves undefined (indexing past the end of the backing
  array, shifting a 64-bit value by 64 or more) and failed debug assertions are
  results `Except.error` of type `Fault`. The assertions are those of a debug build; a
  result `Except.ok` is the result of the release build as well.
* Code of the repository that is not among the sources (`PODResizeableArray`,
  `StandardRange`, `OutIndexView`, `tsuba::RDG`, `tsuba::GRPrefix`) is modelled from the
  specification; the storage loader `tsuba::LoadPartial` is a parameter.
-/

namespace katana

/-- Ways in which an execution leaves defined behaviour. -/
inductive Fault where
  /-- A `KATANA_LOG_DEBUG_ASSERT` does not hold. -/
  | assertion
  /-- An array is indexed (read, written or filled) past its end. -/
  | outOfBounds
  /-- A 64-bit value is shifted by 64 or more. -/
  | shift
  deriving DecidableEq, Repr

/-- The number of values of `uint64_t` / `size_t`. -/
def U64 : Nat := 2 ^ 64

/-- Addition of `uint64_t`. -/
def add64 (a b : Nat) : Nat := (a + b) % U64

/-- Subtraction of `uint64_t` (wraps below zero). -/
def sub64 (a b : Nat) : Nat := (a % U64 + U64 - b % U64) % U64

/-- Multiplication of `uint64_t`. -/
def mul64 (a b : Nat) : Nat := (a * b) % U64

/-- Bitwise complement of a `uint64_t`. -/
def not64 (a : Nat) : Nat := (U64 - 1) - a % U64

/-- Left shift of a `uint64_t`: `a << k`, undefined when `k >= 64`. -/
def shl64 (a k : Nat) : Except Fault Nat :=
  if k < 64 then .ok ((a <<< k) % U64) else .error .shift

/-- The `KATANA_LOG_DEBUG_ASSERT` of a debug build. -/
def debugAssert (p : Prop) [Decidable p] : Except Fault Unit :=
  if p then .ok () else .error .assertion

/-- The constant `bits_uint64 = sizeof(uint64_t) * CHAR_BIT`. -/
def bits_uint64 : Nat := 64

/-- Modelled from the spec: `PODResizeableArray::resize` (katana/PODResizeableArray.h
is not among the sources): "reallocates backing storage" to `k` elements; the first
`min k size` elements are kept, elements beyond the old size are not initialised and
hold `uninit`. -/
def podResize (v : List Nat) (k : Nat) (uninit : Nat) : List Nat :=
  v.take k ++ List.replicate (k - v.length) uninit

/-- Modelled from the spec: `PODResizeableArray::reserve` (katana/PODResizeableArray.h is
not among the sources) "pre-allocates capacity without changing logical size or content":
the elements of the array are the same afterwards. -/
def podReserve (v : List Nat) (_k : Nat) : List Nat := v

/-- Modelled from the spec: `PODResizeableArray::shrink_to_fit` (katana/PODResizeableArray.h
is not among the sources) is "capacity/size management" that "shrinks the allocation ... to
its current size": the elements of the array are the same afterwards. -/
def podShrinkToFit (v : List Nat) : List Nat := v

/-- Modelled from the spec: `PODResizeableArray::clear` (katana/PODResizeableArray.h is not
among the sources) "empties it back to 0" elements "and releases storage". -/
def podClear (_v : List Nat) : List Nat := []

/-- The call `std::fill(v.begin() + lo, v.begin() + hi, 0)` for `lo < hi`: the elements
at positions `lo .. hi - 1` become `0`; filling past the end of the array is undefined. -/
def fillZero (v : List Nat) (lo hi : Nat) : Except Fault (List Nat) :=
  if hi ≤ v.length then .ok (v.mapIdx (fun i w => if lo ≤ i ∧ i < hi then 0 else w))
  else .error .outOfBounds

/-- The read `v[i]` of an array element. -/
def readWord (v : List Nat) (i : Nat) : Except Fault Nat :=
  match v[i]? with
  | some w => .ok w
  | none => .error .outOfBounds

/-- The update `v[i] &= mask`. -/
def andWord (v : List Nat) (i : Nat) (mask : Nat) : Except Fault (List Nat) :=
  match v[i]? with
  | some w => .ok (v.set i (w &&& mask))
  | none => .error .outOfBounds

/-- The class `DynamicBitset`: the backing array of 64-bit words and the number of bits. -/
structure DynamicBitset where
  /-- The member `bitvec`, the backing array of 64-bit words. -/
  bitvec : List Nat
  /-- The member `num_bits`. -/
  num_bits : Nat
  deriving DecidableEq, Repr

namespace DynamicBitset

/-- The default constructor: an empty bitset. -/
def empty : DynamicBitset := { bitvec := [], num_bits := 0 }

/-- The method `size()`. -/
def size (b : DynamicBitset) : Nat := b.num_bits

/-- The method `reset()`: `std::fill(bitvec.begin(), bitvec.end(), 0)`. -/
def reset (b : DynamicBitset) : DynamicBitset :=
  { b with bitvec := b.bitvec.map (fun _ => 0) }

/-- The method `resize(n)`. The word count is `(n + bits_uint64 - 1) / bits_uint64`
in 64-bit arithmetic. -/
def resize (b : DynamicBitset) (n : Nat) (uninit : Nat) : DynamicBitset :=
  reset { num_bits := n,
          bitvec := podResize b.bitvec (sub64 (add64 n bits_uint64) 1 / bits_uint64) uninit }

/-- The method `reserve(n)`: `bitvec.reserve((n + bits_uint64 - 1) / bits_uint64)`. -/
def reserve (b : DynamicBitset) (n : Nat) : DynamicBitset :=
  { b with bitvec := podReserve b.bitvec (sub64 (add64 n bits_uint64) 1 / bits_uint64) }

/-- The method `clear()`. -/
def clear (b : DynamicBitset) : DynamicBitset :=
  { num_bits := 0, bitvec := podClear b.bitvec }

/-- The method `shrink_to_fit()`. -/
def shrink_to_fit (b : DynamicBitset) : DynamicBitset :=
  { b with bitvec := podShrinkToFit b.bitvec }

/-- The method `test(index)`. -/
def test (b : DynamicBitset) (index : Nat) : Except Fault Bool := do
  debugAssert (index < b.num_bits)
  let bit_index := index / bits_uint64
  let bit_offset ← shl64 1 (index % bits_uint64)
  let w ← readWord b.bitvec bit_index
  return (w &&& bit_offset) != 0

/-- The loop of `set`: `while ((old_val & bit_offset) == 0 && !compare_exchange_weak(old_val,
old_val | bit_offset))`, run by one thread. `w` is the word in memory and also `old_val`
(loaded from it before the loop and reloaded by every failed exchange). With no other
thread writing, `compare_exchange_weak` can only fail spuriously; `spurious` counts the
spurious failures before the exchange succeeds. The result is the word stored by the
successful exchange, if one happened, and the final `old_val`. -/
def set_loop (bit_offset : Nat) (w : Nat) : Nat → Option Nat × Nat
  | 0 => if w &&& bit_offset = 0 then (some (w ||| bit_offset), w) else (none, w)
  | spurious + 1 => if w &&& bit_offset = 0 then set_loop bit_offset w spurious else (none, w)

/-- The effect of a compare-exchange loop on the backing array: the word at `bit_index`
is replaced when an exchange succeeded, and nothing is written otherwise. -/
def storeWord (v : List Nat) (bit_index : Nat) : Option Nat → List Nat
  | some w => v.set bit_index w
  | none => v

/-- The method `set(index)`: the old value of the bit and the bitset afterwards. -/
def set (b : DynamicBitset) (index : Nat) (spurious : Nat) :
    Except Fault (Bool × DynamicBitset) := do
  let bit_index := index / bits_uint64
  let bit_offset ← shl64 1 (index % bits_uint64)
  let old_val ← readWord b.bitvec bit_index
  let r := set_loop bit_offset old_val spurious
  return ((r.2 &&& bit_offset) != 0, { b with bitvec := storeWord b.bitvec bit_index r.1 })

/-- The loop of the single-bit `reset`: `while ((old_val & bit_offset) != 0 &&
!compare_exchange_weak(old_val, old_val & ~bit_offset))`, run by one thread; see
`set_loop`. -/
def reset_loop (bit_offset : Nat) (w : Nat) : Nat → Option Nat × Nat
  | 0 => if w &&& bit_offset ≠ 0 then (some (w &&& not64 bit_offset), w) else (none, w)
  | spurious + 1 =>
    if w &&& bit_offset ≠ 0 then reset_loop bit_offset w spurious else (none, w)

/-- The method `reset(index)` on one bit: the old value of the bit and the bitset
afterwards. -/
def reset_index (b : DynamicBitset) (index : Nat) (spurious : Nat) :
    Except Fault (Bool × DynamicBitset) := do
  let bit_index := index / bits_uint64
  let bit_offset ← shl64 1 (index % bits_uint64)
  let old_val ← readWord b.bitvec bit_index
  let r := reset_loop bit_offset old_val spurious
  return ((r.2 &&& bit_offset) != 0, { b with bitvec := storeWord b.bitvec bit_index r.1 })

/-- The method `reset(begin, end)` on an inclusive range of bits. -/
def reset_range (b : DynamicBitset) (begin end_ : Nat) : Except Fault DynamicBitset := do
  if b.num_bits = 0 then
    return b
  debugAssert (begin ≤ sub64 b.num_bits 1)
  debugAssert (end_ ≤ sub64 b.num_bits 1)
  -- block which you are safe to clear
  let vec_begin := sub64 (add64 begin bits_uint64) 1 / bits_uint64
  let vec_end :=
    if end_ = sub64 b.num_bits 1 then b.bitvec.length else add64 end_ 1 / bits_uint64
  let v1 ← if vec_begin < vec_end then fillZero b.bitvec vec_begin vec_end else pure b.bitvec
  let vec_begin := mul64 vec_begin bits_uint64
  let vec_end := mul64 vec_end bits_uint64
  if vec_begin > vec_end then
    -- no fill happened
    if begin < vec_begin then
      let diff := sub64 vec_begin begin
      debugAssert (diff < 64)
      let mask := sub64 (← shl64 1 (sub64 64 diff)) 1
      let end_diff := add64 (sub64 end_ vec_end) 1
      let or_mask := sub64 (← shl64 1 end_diff) 1
      let mask := mask ||| not64 or_mask
      let bit_index := begin / bits_uint64
      let v2 ← andWord v1 bit_index mask
      return { b with bitvec := v2 }
    else
      return { b with bitvec := v1 }
  else
    let v2 ←
      if begin < vec_begin then do
        let diff := sub64 vec_begin begin
        debugAssert (diff < 64)
        let mask := sub64 (← shl64 1 (sub64 64 diff)) 1
        let bit_index := begin / bits_uint64
        andWord v1 bit_index mask
      else pure v1
    let v3 ←
      if end_ ≥ vec_end then do
        let diff := add64 (sub64 end_ vec_end) 1
        debugAssert (diff < 64)
        let mask := sub64 (← shl64 1 diff) 1
        let bit_index := end_ / bits_uint64
        andWord v2 bit_index (not64 mask)
      else pure v2
    return { b with bitvec := v3 }

/-- The data-model invariant "backing word count = ceil(num_bits / 64)", for a word count
as `resize` computes it: `(num_bits + 63) / 64`, the 64-bit sum not wrapping. These are
the states that `resize(n)` leaves for `n ≤ 2 ^ 64 - 64`. -/
def WellFormed (b : DynamicBitset) : Prop :=
  b.num_bits + 63 < U64 ∧ b.bitvec.length = (b.num_bits + 63) / 64

instance (b : DynamicBitset) : Decidable (WellFormed b) := by
  unfold WellFormed; infer_instance

/-- The states reachable from a newly constructed bitset by calls of `resize`, `reserve`,
`clear`, `shrink_to_fit`, `reset()`, `reset(begin, end)`, `set` and the single-bit `reset`
that return, with arguments that are 64-bit values. -/
inductive Reachable : DynamicBitset → Prop where
  | construct : Reachable empty
  | resize {b : DynamicBitset} (n uninit : Nat) :
      Reachable b → n < U64 → Reachable (b.resize n uninit)
  | reserve {b : DynamicBitset} (n : Nat) : Reachable b → n < U64 → Reachable (b.reserve n)
  | clear {b : DynamicBitset} : Reachable b → Reachable b.clear
  | shrink_to_fit {b : DynamicBitset} : Reachable b → Reachable b.shrink_to_fit
  | reset {b : DynamicBitset} : Reachable b → Reachable b.reset
  | reset_range {b b' : DynamicBitset} (begin end_ : Nat) :
      Reachable b → b.reset_range begin end_ = .ok b' → Reachable b'
  | set {b b' : DynamicBitset} (index spurious : Nat) (old : Bool) :
      Reachable b → b.set index spurious = .ok (old, b') → Reachable b'
  | reset_index {b b' : DynamicBitset} (index spurious : Nat) (old : Bool) :
      Reachable b → b.reset_index index spurious = .ok (old, b') → Reachable b'

/-- The number `ceil(n / 64)` of 64-bit words that hold `n` bits. -/
def ceilWords (n : Nat) : Nat := (n + 63) / 64

/-- The value of bit `j` in the backing array: bit `j % 64` of word `j / 64`. -/
def bit (b : DynamicBitset) (j : Nat) : Bool :=
  (b.bitvec.getD (j / 64) 0).testBit (j % 64)

/-- Modelled from the spec: the method `bitwise_not()`, declared in DynamicBitset.h and
defined in a file that is not among the sources, is the "whole-bitset boolean algebra"
operation NOT: every backing word is replaced by its 64-bit complement. -/
def bitwise_not (b : DynamicBitset) : DynamicBitset :=
  { b with bitvec := b.bitvec.map not64 }

/-- One iteration of the loop that the comment in `reset(begin, end)` gives as the "100%
safe implementation, but slow": `bit_index = i / bits_uint64`, `bit_offset = 1 << (i %
bits_uint64)`, `mask = ~bit_offset`, `bitvec[bit_index] &= mask`. -/
def reset_range_slow_step (v : List Nat) (i : Nat) : Except Fault (List Nat) := do
  let bit_index := i / bits_uint64
  let bit_offset ← shl64 1 (i % bits_uint64)
  let mask := not64 bit_offset
  andWord v bit_index mask

/-- The loop of the comment in `reset(begin, end)`, "100% safe implementation, but slow":
`for (unsigned long i = begin; i <= end; i++)` over `reset_range_slow_step`, for
`end < 2 ^ 64 - 1`. -/
def reset_range_slow (b : DynamicBitset) (begin end_ : Nat) : Except Fault DynamicBitset := do
  let v ← (List.range' begin (end_ + 1 - begin)).foldlM reset_range_slow_step b.bitvec
  return { b with bitvec := v }

/-- Every bit of a backing word at a position `≥ num_bits` is 0. -/
def PaddingClear (b : DynamicBitset) : Prop :=
  ∀ w k, k < 64 → b.num_bits ≤ 64 * w + k → (b.bitvec.getD w 0).testBit k = false

/-- Every backing word is a 64-bit value. -/
def Words64 (v : List Nat) : Prop := ∀ w, w ∈ v → w < U64

instance (v : List Nat) : Decidable (Words64 v) := by
  unfold Words64; infer_instance

/-- The states reachable from a newly constructed bitset by calls that respect the
contract: `resize(n)`, `reset()`, `reset(begin, end)` with `begin ≤ end < num_bits`, and
`set(i)` and the single-bit `reset(i)` with `i < num_bits`. -/
inductive ReachableValid : DynamicBitset → Prop where
  | construct : ReachableValid empty
  | resize {b : DynamicBitset} (n uninit : Nat) :
      ReachableValid b → n < U64 → ReachableValid (b.resize n uninit)
  | reset {b : DynamicBitset} : ReachableValid b → ReachableValid b.reset
  | reset_range {b b' : DynamicBitset} (begin end_ : Nat) :
      ReachableValid b → begin ≤ end_ → end_ < b.num_bits →
      b.reset_range begin end_ = .ok b' → ReachableValid b'
  | set {b b' : DynamicBitset} (index spurious : Nat) (old : Bool) :
      ReachableValid b → index < b.num_bits →
      b.set index spurious = .ok (old, b') → ReachableValid b'
  | reset_index {b b' : DynamicBitset} (index spurious : Nat) (old : Bool) :
      ReachableValid b → index < b.num_bits →
      b.reset_index index spurious = .ok (old, b') → ReachableValid b'

/-- The number of 1 bits over all backing words: the number of positions of the backing
array that hold a 1. -/
def onesInWords (b : DynamicBitset) : Nat :=
  ((List.range (64 * b.bitvec.length)).filter (fun i => b.bit i)).length

/-- Whether `test(i)` returns `true`. -/
def isSet (b : DynamicBitset) (i : Nat) : Bool :=
  match b.test i with
  | .ok r => r
  | .error _ => false

/-- The number of indices `i < num_bits` for which `test(i)` returns `true`. -/
def onesBelowNumBits (b : DynamicBitset) : Nat :=
  ((List.range b.num_bits).filter (fun i => b.isSet i)).length

/-- Modelled from the spec: the method `count()`, declared in DynamicBitset.h and defined
in a file that is not among the sources, is the "population count across all words up to
`num_bits`": the number of positions of the backing array below `num_bits` that hold a 1. -/
def count (b : DynamicBitset) : Nat :=
  ((List.range (64 * b.bitvec.length)).filter
    (fun i => decide (i < b.num_bits) && b.bit i)).length

/-- Modelled from the spec: the method `GetOffsets<integer>()`, declared in DynamicBitset.h
and defined in a file that is not among the sources, is to "produce, in strictly ascending
order, every bit index currently set": the indices `i < num_bits` with `test(i)`, from the
lowest to the highest. The indices are natural numbers, the width of `integer` is not
modelled. -/
def GetOffsets (b : DynamicBitset) : List Nat :=
  (List.range b.num_bits).filter (fun i => b.isSet i)

/-- Where one thread stands inside a call of `set(index)`: before the load `old_val =
bitvec[bit_index]`, about to evaluate the loop condition with the given `old_val`, or
returned with the given value. -/
inductive SetThread where
  | start : SetThread
  | loop (old_val : Nat) : SetThread
  | done (ret : Bool) : SetThread
  deriving DecidableEq, Repr

/-- The atomic word `bitvec[bit_index]` shared by the threads that call `set(index)`: its
value now, the values it had before (the rest of its modification order, the newest first),
and the threads. -/
structure SetRace where
  /-- The latest value of the word. -/
  word : Nat
  /-- The earlier values of the word, the newest first. -/
  past : List Nat
  /-- The threads, by thread number. -/
  threads : List SetThread
  deriving DecidableEq, Repr

/-- One atomic action of one thread: the thread `tid` moves; `pick` chooses the value that
a load returns, a position in the modification order of the word counted back from the
latest value; `fail` makes a `compare_exchange_weak` fail although the word holds the
expected value. -/
structure SetEvent where
  /-- The number of the thread that moves. -/
  tid : Nat
  /-- The position, counted back from the latest value, of the value that a load returns. -/
  pick : Nat
  /-- Whether `compare_exchange_weak` fails spuriously. -/
  fail : Bool
  deriving DecidableEq, Repr

/-- The value that a load of the word returns: one of the values of its modification order
(with relaxed ordering a load need not return the latest one). -/
def SetRace.observed (s : SetRace) (pick : Nat) : Nat :=
  (s.word :: s.past).getD pick s.word

/-- One atomic action of `set(index)` in one thread. A thread at `start` loads `old_val`.
A thread in the loop evaluates `(old_val & bit_offset) == 0`: when it is false the thread
returns `old_val & bit_offset`; when it is true the thread runs `compare_exchange_weak(
old_val, old_val | bit_offset)`, which succeeds only if the word holds `old_val` as its
latest value, then stores `old_val | bit_offset` and the thread returns `old_val &
bit_offset`; otherwise it fails, loads `old_val` again and the loop goes on. A thread that
has returned, or a thread number that does not exist, does nothing. -/
def SetRace.step (bit_offset : Nat) (s : SetRace) (e : SetEvent) : SetRace :=
  match s.threads[e.tid]? with
  | none => s
  | some .start => { s with threads := s.threads.set e.tid (.loop (s.observed e.pick)) }
  | some (.loop old_val) =>
    if old_val &&& bit_offset = 0 then
      if s.word = old_val ∧ e.fail = false then
        { word := old_val ||| bit_offset, past := s.word :: s.past,
          threads := s.threads.set e.tid (.done ((old_val &&& bit_offset) != 0)) }
      else { s with threads := s.threads.set e.tid (.loop (s.observed e.pick)) }
    else { s with threads := s.threads.set e.tid (.done ((old_val &&& bit_offset) != 0)) }
  | some (.done _) => s

/-- The calls `set(index)` of `k` threads on the same bitset, each thread calling once,
their atomic actions interleaved as `schedule` says: the threads at the end of the schedule
and the bitset then. -/
def set_concurrent (b : DynamicBitset) (index k : Nat) (schedule : List SetEvent) :
    Except Fault (List SetThread × DynamicBitset) := do
  let bit_index := index / bits_uint64
  let bit_offset ← shl64 1 (index % bits_uint64)
  let w ← readWord b.bitvec bit_index
  let s := schedule.foldl (SetRace.step bit_offset)
    { word := w, past := [], threads := List.replicate k .start }
  return (s.threads, { b with bitvec := b.bitvec.set bit_index s.word })

/-- The schedule in which the `k` threads call `set` one after the other. -/
def sequentialSchedule (k : Nat) : List SetEvent :=
  (List.range k).flatMap (fun t => [⟨t, 0, false⟩, ⟨t, 0, false⟩])

/-- Every thread has returned. -/
def AllDone (ts : List SetThread) : Prop := ∀ t, t ∈ ts → ∃ r, t = .done r

/-- The invariant of the race for a bit that only gets set: once a value with the bit on
is in the modification order of the word, the latest value has the bit on; a thread holds an
`old_val` with the bit on, or has returned `true`, only if the latest value has the bit on;
and the number of threads that have returned `false` is 1 if the latest value has the bit
on and 0 if not. -/
def SetRace.Inv (bit_offset : Nat) (s : SetRace) : Prop :=
  (∀ v, v ∈ s.past → v &&& bit_offset ≠ 0 → s.word &&& bit_offset ≠ 0) ∧
  (∀ v, SetThread.loop v ∈ s.threads → v &&& bit_offset ≠ 0 → s.word &&& bit_offset ≠ 0) ∧
  (SetThread.done true ∈ s.threads → s.word &&& bit_offset ≠ 0) ∧
  s.threads.count (.done false) = (if s.word &&& bit_offset ≠ 0 then 1 else 0)

/-- The bitset `b'` differs from `b` at most in bit `i`: `size()` and the number of backing
words are the same, every backing word other than word `i / 64` is the same, in word
`i / 64` every bit other than bit `i % 64` is the same, and `test(j)` is the same for every
`j ≠ i`. -/
def UnchangedExceptBit (b b' : DynamicBitset) (i : Nat) : Prop :=
  b'.size = b.size ∧ b'.bitvec.length = b.bitvec.length ∧
  (∀ w, w ≠ i / 64 → b'.bitvec.getD w 0 = b.bitvec.getD w 0) ∧
  (∀ k, k < 64 → k ≠ i % 64 →
    (b'.bitvec.getD (i / 64) 0).testBit k = (b.bitvec.getD (i / 64) 0).testBit k) ∧
  (∀ j, j ≠ i → b'.test j = b.test j)

end DynamicBitset

end katana


namespace tsuba

/-- Modelled from the spec: `tsuba::GRPrefix` (tsuba/RDG.h is not among the sources), the
loaded "prefix-sum table": `out_indexes[node_id]` is the "cumulative out-degree through
node_id". -/
structure GRPrefix where
  /-- The array `out_indexes`. -/
  out_indexes : List Nat
  deriving DecidableEq, Repr

/-- Modelled from the spec: `tsuba::RDG` (tsuba/RDG.h is not among the sources), the "store
object" that the loader returns; `topology_file_storage` is the loaded part of the edge
array, read by `PartialGraphView` through `valid_ptr<Edge>()`. -/
structure RDG where
  /-- The loaded edge array, one entry per loaded edge. -/
  topology_file_storage : List Nat
  deriving DecidableEq, Repr

end tsuba

namespace galois

open katana

/-- Modelled from the spec: `galois::OutIndexView` (galois/OutIndexView.h is not among the
sources), the "out-index provider": the loaded out-index table (`gr_view()`) and the "base
byte offset locating the start of the edge array" (`view_offset()`). -/
structure OutIndexView where
  /-- The result of `gr_view()`. -/
  gr_view : tsuba.GRPrefix
  /-- The result of `view_offset()`. -/
  view_offset : Nat
  deriving DecidableEq, Repr

/-- Modelled from the spec: `StandardRange<boost::counting_iterator<uint64_t>>`
(galois/Range.h is not among the sources), a "lazy, finite, restartable sequence" over a
half-open range of ids, given by the two counting iterators it is made of. -/
structure StandardRange where
  /-- The value of the iterator `begin()`. -/
  begin_ : Nat
  /-- The value of the iterator `end()`. -/
  end_ : Nat
  deriving DecidableEq, Repr

/-- The function `MakeStandardRange(begin, end)`. -/
def MakeStandardRange (begin_ end_ : Nat) : StandardRange := { begin_ := begin_, end_ := end_ }

/-- Modelled from the spec: the ids a `StandardRange` enumerates, the "sequence over
`[begin, end)`": `begin, begin + 1, ..., end - 1`, none when `end ≤ begin`. -/
def StandardRange.toList (r : StandardRange) : List Nat :=
  List.range' r.begin_ (r.end_ - r.begin_)

/-- The class `PartialGraphView<Edge>`. -/
structure PartialGraphView where
  /-- The member `rdg_`. -/
  rdg_ : tsuba.RDG
  /-- The member `view_`. -/
  view_ : OutIndexView
  /-- The member `prefix_`. -/
  prefix_ : tsuba.GRPrefix
  /-- The member `edges_`, the loaded edge array. -/
  edges_ : List Nat
  /-- The member `node_range_`. -/
  node_range_ : Nat × Nat
  /-- The member `edge_range_`. -/
  edge_range_ : Nat × Nat
  deriving DecidableEq, Repr

namespace PartialGraphView

/-- The private constructor: `prefix_` is `view_.gr_view()` and `edges_` is
`rdg_.topology_file_storage.valid_ptr<Edge>()`. -/
def new (rdg : tsuba.RDG) (view : OutIndexView) (node_range edge_range : Nat × Nat) :
    PartialGraphView :=
  { rdg_ := rdg, view_ := view, prefix_ := view.gr_view,
    edges_ := rdg.topology_file_storage,
    node_range_ := node_range, edge_range_ := edge_range }

/-- The function `EdgeBegin(prefix, node_id)`; a read outside the table is undefined. -/
def EdgeBegin (pfx : tsuba.GRPrefix) (node_id : Nat) : Except Fault Nat :=
  if node_id = 0 then
    .ok 0
  else
    readWord pfx.out_indexes (node_id - 1)

/-- The function `EdgeEnd(prefix, node_id)`; a read outside the table is undefined. -/
def EdgeEnd (pfx : tsuba.GRPrefix) (node_id : Nat) : Except Fault Nat :=
  readWord pfx.out_indexes node_id

/-- The function `Make`. The storage loader `tsuba::LoadPartial` (not among the sources) is
the parameter `LoadPartial`, `sizeofEdge` is `sizeof(Edge)`. The outer result is the
defined behaviour of the reads of the out-index table, the inner one is the
`galois::Result` that `Make` returns. -/
def Make {H E : Type}
    (LoadPartial : H → Nat × Nat → Nat × Nat → Nat → Nat → List String → List String →
      Except E tsuba.RDG)
    (sizeofEdge : Nat) (handle : H) (oiv : OutIndexView) (first_node last_node : Nat)
    (node_properties edge_properties : List String) :
    Except Fault (Except E PartialGraphView) := do
  let view := oiv
  let pfx := view.gr_view
  let first_edge ← EdgeBegin pfx first_node
  let last_edge ← EdgeBegin pfx last_node
  let edges_offset := view.view_offset
  let edges_start := add64 edges_offset (mul64 first_edge sizeofEdge)
  let edges_stop := add64 edges_offset (mul64 last_edge sizeofEdge)
  let node_range := (first_node, last_node)
  let edge_range := (first_edge, last_edge)
  let rdg_res := LoadPartial handle node_range edge_range edges_start
    (sub64 edges_stop edges_start) node_properties edge_properties
  match rdg_res with
  | .error e => return .error e
  | .ok rdg => return .ok (PartialGraphView.new rdg view node_range edge_range)

/-- The method `nodes()`. -/
def nodes (v : PartialGraphView) : StandardRange :=
  MakeStandardRange v.node_range_.1 v.node_range_.2

/-- The method `all_edges()`. -/
def all_edges (v : PartialGraphView) : StandardRange :=
  MakeStandardRange v.edge_range_.1 v.edge_range_.2

/-- The method `edges(node_id)`. -/
def edges (v : PartialGraphView) (node_id : Nat) : Except Fault StandardRange := do
  let b ← EdgeBegin v.prefix_ node_id
  let e ← EdgeEnd v.prefix_ node_id
  return MakeStandardRange b e

/-- The method `GetEdgeDest(edge_id)`: `edges_[edge_id - edge_range_.first]`, the
subtraction in `uint64_t`; a read outside the loaded array is undefined. -/
def GetEdgeDest (v : PartialGraphView) (edge_id : Nat) : Except Fault Nat :=
  readWord v.edges_ (sub64 edge_id v.edge_range_.1)

/-- The method `node_offset()`. -/
def node_offset (v : PartialGraphView) : Nat := v.node_range_.1

/-- The edge ids that `edges(node_id)` enumerates, none when the call is undefined. -/
def edgesList (v : PartialGraphView) (node_id : Nat) : List Nat :=
  match v.edges node_id with
  | .ok r => r.toList
  | .error _ => []

/-- The positions of `prefix->out_indexes` that `EdgeBegin(prefix, node_id)` reads: none
for node 0, position `node_id - 1` otherwise. -/
def EdgeBeginReads (node_id : Nat) : List Nat :=
  if node_id = 0 then [] else [node_id - 1]

/-- The position of `prefix->out_indexes` that `EdgeEnd(prefix, node_id)` reads. -/
def EdgeEndReads (node_id : Nat) : List Nat := [node_id]

/-- The positions of the out-index table that `Make` reads, through its calls
`EdgeBegin(prefix, first_node)` and `EdgeBegin(prefix, last_node)`. -/
def MakeReads (first_node last_node : Nat) : List Nat :=
  EdgeBeginReads first_node ++ EdgeBeginReads last_node

/-- The positions of the out-index table that `edges(node_id)` reads, through its calls
`EdgeBegin(prefix_, node_id)` and `EdgeEnd(prefix_, node_id)`. -/
def edgesReads (node_id : Nat) : List Nat :=
  EdgeBeginReads node_id ++ EdgeEndReads node_id

end PartialGraphView

/-- The out-index table of the graph of the conversion test (`VerifyMovieSet`,
graph-properties-convert-test.cpp): 9 nodes, 8 edges; the edge array starts at byte 80. -/
def movieOutIndexView : OutIndexView :=
  { gr_view := { out_indexes := [0, 1, 2, 4, 5, 6, 7, 8, 8] }, view_offset := 80 }

/-- The edge destinations of the graph of the conversion test (`VerifyMovieSet`). -/
def movieDests : List Nat := [0, 0, 0, 7, 0, 0, 0, 0]

/-- A storage loader over an edge array held in memory: it returns the entries of `full`
for the requested edge ids. -/
def memoryLoader (full : List Nat) (_handle : Unit) (_node_range edge_range : Nat × Nat)
    (_edges_start _edges_size : Nat) (_node_properties _edge_properties : List String) :
    Except String tsuba.RDG :=
  .ok { topology_file_storage := (full.drop edge_range.1).take (edge_range.2 - edge_range.1) }

/-- A storage loader that fails with the error `err` on every request. -/
def failingLoader (err : String) (_handle : Unit) (_node_range _edge_range : Nat × Nat)
    (_edges_start _edges_size : Nat) (_node_properties _edge_properties : List String) :
    Except String tsuba.RDG :=
  .error err

/-- The view of the whole graph of the conversion test: node range `[0, 9)`, edge range
`[0, 8)`. -/
def movieView : PartialGraphView :=
  PartialGraphView.new { topology_file_storage := movieDests } movieOutIndexView (0, 9) (0, 8)

/-- The view of the nodes `[2, 5)` of the graph of the conversion test: edge range
`[1, 5)`, four loaded edges. -/
def movieSlice : PartialGraphView :=
  PartialGraphView.new { topology_file_storage := [0, 0, 7, 0] } movieOutIndexView (2, 5) (1, 5)

/-- A non-decreasing out-index table. -/
def NonDecreasing (l : List Nat) : Prop := l.Pairwise (· ≤ ·)

instance (l : List Nat) : Decidable (NonDecreasing l) := by
  unfold NonDecreasing; infer_instance

end galois

/-! ## Lemmas on 64-bit words -/

namespace katana

theorem and_two_pow_ne_zero (w k : Nat) : ((w &&& 2 ^ k) != 0) = w.testBit k := by
  cases h : w.testBit k
  · have : w &&& 2 ^ k = 0 := by
      apply Nat.eq_of_testBit_eq
      intro i
      by_cases hi : k = i
      · subst hi; simp [h]
      · simp [Nat.testBit_two_pow_of_ne hi]
    simp [this]
  · have : w &&& 2 ^ k ≠ 0 := by
      intro h0
      have := congrArg (fun x => x.testBit k) h0
      simp [h, Nat.testBit_two_pow_self] at this
    simpa using this

theorem shl64_one {k : Nat} (hk : k < 64) : shl64 1 k = .ok (2 ^ k) := by
  have h : 2 ^ k < U64 := Nat.pow_lt_pow_right (by decide) hk
  simp only [shl64, hk, if_true, Nat.one_shiftLeft, Nat.mod_eq_of_lt h]

theorem readWord_of_lt {v : List Nat} {i : Nat} (h : i < v.length) :
    readWord v i = .ok (v.getD i 0) := by
  simp [readWord, List.getElem?_eq_getElem h]

theorem andWord_of_lt {v : List Nat} {i : Nat} (h : i < v.length) (m : Nat) :
    andWord v i m = .ok (v.set i (v.getD i 0 &&& m)) := by
  simp [andWord, List.getElem?_eq_getElem h]

theorem andWord_eq (v : List Nat) (i m : Nat) :
    andWord v i m =
      if i < v.length then .ok (v.set i (v.getD i 0 &&& m)) else .error .outOfBounds := by
  by_cases h : i < v.length
  · simp [andWord, h, List.getElem?_eq_getElem h]
  · simp [andWord, h, List.getElem?_eq_none (Nat.le_of_not_lt h)]

theorem getD_set (v : List Nat) (i j x : Nat) :
    (v.set i x).getD j 0 = if i = j ∧ j < v.length then x else v.getD j 0 := by
  simp only [List.getD_eq_getElem?_getD, List.getElem?_set]
  by_cases hij : i = j
  · subst hij
    by_cases hl : i < v.length
    · simp [hl]
    · simp [hl, List.getElem?_eq_none (Nat.le_of_not_lt hl)]
  · simp [hij]

namespace DynamicBitset

theorem test_eq_bit {b : DynamicBitset} {j : Nat} (hj : j < b.num_bits)
    (hw : j / 64 < b.bitvec.length) : b.test j = .ok (b.bit j) := by
  have hk : j % 64 < 64 := Nat.mod_lt _ (by decide)
  simp only [test, debugAssert, hj, if_true, bits_uint64, shl64_one hk, readWord_of_lt hw,
    bit]
  simp [bind, Except.bind, pure, Except.pure, and_two_pow_ne_zero]

/-- The invariant `WellFormed` says that the backing array has the word count that
`resize` computes in 64-bit arithmetic and that this many words hold all `num_bits` bits. -/
theorem wellFormed_iff (b : DynamicBitset) :
    b.WellFormed ↔
      (b.num_bits < U64 ∧
        b.bitvec.length = sub64 (add64 b.num_bits bits_uint64) 1 / bits_uint64 ∧
        b.num_bits ≤ 64 * b.bitvec.length) := by
  simp only [WellFormed, sub64, add64, bits_uint64, U64]
  omega

theorem word_lt_of_wellFormed {b : DynamicBitset} (hwf : b.WellFormed) {j : Nat}
    (hj : j < b.num_bits) : j / 64 < b.bitvec.length := by
  obtain ⟨_, hl⟩ := hwf
  omega

theorem set_loop_eq (off w spurious : Nat) :
    set_loop off w spurious = if w &&& off = 0 then (some (w ||| off), w) else (none, w) := by
  induction spurious with
  | zero => rfl
  | succ k ih =>
    simp only [set_loop, ih]
    split <;> rfl

theorem reset_loop_eq (off w spurious : Nat) :
    reset_loop off w spurious =
      if w &&& off ≠ 0 then (some (w &&& not64 off), w) else (none, w) := by
  induction spurious with
  | zero => rfl
  | succ k ih =>
    simp only [reset_loop, ih]
    split <;> rfl

theorem testBit_not64_two_pow {k : Nat} (hk : k < 64) (j : Nat) :
    (not64 (2 ^ k)).testBit j = (decide (j < 64) && !decide (k = j)) := by
  have h : 2 ^ k < 2 ^ 64 := Nat.pow_lt_pow_right (by decide) hk
  have e : not64 (2 ^ k) = 2 ^ 64 - (2 ^ k + 1) := by
    simp only [not64, U64, Nat.mod_eq_of_lt h]; omega
  rw [e, Nat.testBit_two_pow_sub_succ h, Nat.testBit_two_pow]

/-- What `set` computes on an index whose word exists: the old bit, and the array with
bit `index % 64` of word `index / 64` switched on when it was off, untouched otherwise. -/
theorem set_eq {b : DynamicBitset} {i : Nat} (spurious : Nat) (hw : i / 64 < b.bitvec.length) :
    b.set i spurious = .ok (b.bit i,
      if b.bit i then b
      else { b with bitvec := b.bitvec.set (i / 64) (b.bitvec.getD (i / 64) 0 ||| 2 ^ (i % 64)) }) := by
  have hk : i % 64 < 64 := Nat.mod_lt _ (by decide)
  simp only [set, bits_uint64, shl64_one hk, readWord_of_lt hw, set_loop_eq, bit]
  have hb := and_two_pow_ne_zero (b.bitvec.getD (i / 64) 0) (i % 64)
  by_cases h0 : b.bitvec.getD (i / 64) 0 &&& 2 ^ (i % 64) = 0
  · have hf : (b.bitvec.getD (i / 64) 0).testBit (i % 64) = false := by
      rw [← hb, h0]; rfl
    simp [bind, Except.bind, pure, Except.pure, h0, hf, storeWord,
      -List.getD_eq_getElem?_getD]
  · have ht : (b.bitvec.getD (i / 64) 0).testBit (i % 64) = true := by
      rw [← hb]; simpa using h0
    simp [bind, Except.bind, pure, Except.pure, h0, ht, storeWord,
      -List.getD_eq_getElem?_getD]

/-- What the single-bit `reset` computes on an index whose word exists. -/
theorem reset_index_eq {b : DynamicBitset} {i : Nat} (spurious : Nat)
    (hw : i / 64 < b.bitvec.length) :
    b.reset_index i spurious = .ok (b.bit i,
      if b.bit i then
        { b with bitvec :=
            b.bitvec.set (i / 64) (b.bitvec.getD (i / 64) 0 &&& not64 (2 ^ (i % 64))) }
      else b) := by
  have hk : i % 64 < 64 := Nat.mod_lt _ (by decide)
  simp only [reset_index, bits_uint64, shl64_one hk, readWord_of_lt hw, reset_loop_eq, bit]
  have hb := and_two_pow_ne_zero (b.bitvec.getD (i / 64) 0) (i % 64)
  by_cases h0 : b.bitvec.getD (i / 64) 0 &&& 2 ^ (i % 64) = 0
  · have hf : (b.bitvec.getD (i / 64) 0).testBit (i % 64) = false := by
      rw [← hb, h0]; rfl
    simp [bind, Except.bind, pure, Except.pure, h0, hf, storeWord,
      -List.getD_eq_getElem?_getD]
  · have ht : (b.bitvec.getD (i / 64) 0).testBit (i % 64) = true := by
      rw [← hb]; simpa using h0
    simp [bind, Except.bind, pure, Except.pure, h0, ht, storeWord,
      -List.getD_eq_getElem?_getD]

/-! ## Single-bit operations -/

/-- **C2.** For every bitset (with the word count of the data model) and every
`i < num_bits`, `set(i)` returns the value `test(i)` had immediately before the call, for
any number of spurious failures of the compare-exchange; when it returns `true` the bitset
is left exactly as it was, with bit `i` still set. -/
theorem set_returns_old_value (b : DynamicBitset) (i spurious : Nat)
    (hwf : b.WellFormed) (hi : i < b.num_bits) :
    ∃ old b', b.test i = .ok old ∧ b.set i spurious = .ok (old, b') ∧
      (old = true → b' = b ∧ b'.test i = .ok true) := by
  have hw := word_lt_of_wellFormed hwf hi
  refine ⟨b.bit i, _, test_eq_bit hi hw, set_eq spurious hw, ?_⟩
  intro ht
  simp only [ht, if_true, true_and]
  rw [test_eq_bit hi hw, ht]

/-- Witness of `set_returns_old_value`: bit 65 of a 70-bit bitset, first clear, then set. -/
theorem set_returns_old_value_witness :
    (DynamicBitset.mk [5, 0] 70).WellFormed ∧ 65 < 70 ∧
    ∃ old b', (DynamicBitset.mk [5, 0] 70).test 65 = .ok old ∧
      (DynamicBitset.mk [5, 0] 70).set 65 2 = .ok (old, b') ∧
      (old = true → b' = DynamicBitset.mk [5, 0] 70 ∧ b'.test 65 = .ok true) :=
  ⟨by decide, by decide, set_returns_old_value _ 65 2 (by decide) (by decide)⟩

/-- **C3.** For every bitset (with the word count of the data model) and every
`i < num_bits`, after `set(i)` the call `test(i)` returns `true`, whatever the value of the
bit was before. -/
theorem test_after_set (b : DynamicBitset) (i spurious : Nat)
    (hwf : b.WellFormed) (hi : i < b.num_bits) :
    ∃ old b', b.set i spurious = .ok (old, b') ∧ b'.test i = .ok true := by
  have hw := word_lt_of_wellFormed hwf hi
  refine ⟨b.bit i, _, set_eq spurious hw, ?_⟩
  cases hb : b.bit i
  · simp only [Bool.false_eq_true, if_false]
    rw [test_eq_bit (by exact hi) (by simpa using hw)]
    simp only [bit, getD_set, hw, and_self, if_true, Nat.testBit_or, Nat.testBit_two_pow_self,
      Bool.or_true]
  · simp only [if_true]
    rw [test_eq_bit hi hw, hb]

/-- Witness of `test_after_set`: bit 65 of a 70-bit bitset in which it is clear. -/
theorem test_after_set_witness :
    (DynamicBitset.mk [5, 0] 70).WellFormed ∧ 65 < 70 ∧
    ∃ old b', (DynamicBitset.mk [5, 0] 70).set 65 1 = .ok (old, b') ∧ b'.test 65 = .ok true :=
  ⟨by decide, by decide, test_after_set _ 65 1 (by decide) (by decide)⟩

/-- **C4.** For every bitset (with the word count of the data model) and every
`i < num_bits`, the single-bit `reset(i)` returns the value `test(i)` had immediately
before the call and afterwards `test(i)` is `false`; on a bit that is already clear it
returns `false` and leaves the bitset exactly as it was. -/
theorem reset_index_returns_old_value (b : DynamicBitset) (i spurious : Nat)
    (hwf : b.WellFormed) (hi : i < b.num_bits) :
    ∃ old b', b.test i = .ok old ∧ b.reset_index i spurious = .ok (old, b') ∧
      b'.test i = .ok false ∧ (old = false → b' = b) := by
  have hw := word_lt_of_wellFormed hwf hi
  have hk : i % 64 < 64 := Nat.mod_lt _ (by decide)
  refine ⟨b.bit i, _, test_eq_bit hi hw, reset_index_eq spurious hw, ?_, ?_⟩
  · cases hb : b.bit i
    · simp only [Bool.false_eq_true, if_false]
      rw [test_eq_bit hi hw, hb]
    · simp only [if_true]
      rw [test_eq_bit (by exact hi) (by simpa using hw)]
      simp only [bit, getD_set, hw, and_self, if_true, Nat.testBit_and,
        testBit_not64_two_pow hk]
      simp
  · intro hf
    simp only [hf, Bool.false_eq_true, if_false]

/-- Witness of `reset_index_returns_old_value`: bit 66 of a 70-bit bitset in which it is
set. -/
theorem reset_index_returns_old_value_witness :
    (DynamicBitset.mk [5, 4] 70).WellFormed ∧ 66 < 70 ∧
    ∃ old b', (DynamicBitset.mk [5, 4] 70).test 66 = .ok old ∧
      (DynamicBitset.mk [5, 4] 70).reset_index 66 3 = .ok (old, b') ∧
      b'.test 66 = .ok false ∧ (old = false → b' = DynamicBitset.mk [5, 4] 70) :=
  ⟨by decide, by decide, reset_index_returns_old_value _ 66 3 (by decide) (by decide)⟩

end DynamicBitset

/-! ## Range reset -/

theorem sub64_eq {a b : Nat} (h : b ≤ a) (ha : a < U64) : sub64 a b = a - b := by
  simp only [sub64, U64] at *; omega

theorem add64_eq {a b : Nat} (h : a + b < U64) : add64 a b = a + b := by
  simp only [add64, U64] at *; omega

theorem mul64_eq {a b : Nat} (h : a * b < U64) : mul64 a b = a * b := by
  simp only [mul64]; exact Nat.mod_eq_of_lt h

theorem low_mask_eq {k : Nat} (hk : k < 64) : sub64 (2 ^ k) 1 = 2 ^ k - 1 := by
  have h : 2 ^ k < U64 := Nat.pow_lt_pow_right (by decide) hk
  exact sub64_eq Nat.one_le_two_pow h

theorem testBit_not64_low_mask {k : Nat} (hk : k < 64) (j : Nat) :
    (not64 (2 ^ k - 1)).testBit j = (decide (j < 64) && !decide (j < k)) := by
  have h : 2 ^ k < 2 ^ 64 := Nat.pow_lt_pow_right (by decide) hk
  have h1 : 1 ≤ 2 ^ k := Nat.one_le_two_pow
  have e : not64 (2 ^ k - 1) = 2 ^ 64 - ((2 ^ k - 1) + 1) := by
    simp only [not64, U64, Nat.mod_eq_of_lt (show 2 ^ k - 1 < 2 ^ 64 by omega)]; omega
  rw [e, Nat.testBit_two_pow_sub_succ (by omega), Nat.testBit_two_pow_sub_one]

theorem getD_mapIdx (v : List Nat) (f : Nat → Nat → Nat) (i : Nat) :
    (v.mapIdx f).getD i 0 = if i < v.length then f i (v.getD i 0) else 0 := by
  simp only [List.getD_eq_getElem?_getD, List.getElem?_mapIdx]
  by_cases h : i < v.length
  · simp [h, List.getElem?_eq_getElem h]
  · simp [h, List.getElem?_eq_none (Nat.le_of_not_lt h)]

theorem getD_of_length_le {v : List Nat} {i : Nat} (h : v.length ≤ i) : v.getD i 0 = 0 := by
  simp [List.getElem?_eq_none h]

namespace DynamicBitset

set_option maxHeartbeats 4000000 in
/-- What the range `reset` computes on a bitset with the word count of the data model: it
returns normally, keeps `num_bits` and the word count, and clears bit `k` of word `w`
exactly when `begin ≤ 64 * w + k ≤ end`, or, when `end` is the last bit `num_bits - 1`,
when `begin ≤ 64 * w + k` (the unused bits of the last word are cleared with it). -/
theorem reset_range_eq (b : DynamicBitset) (begin end_ : Nat) (hwf : b.WellFormed)
    (hbe : begin ≤ end_) (hen : end_ < b.num_bits) :
    ∃ v, b.reset_range begin end_ = .ok { b with bitvec := v } ∧
      v.length = b.bitvec.length ∧
      ∀ w k, k < 64 → (v.getD w 0).testBit k =
        ((b.bitvec.getD w 0).testBit k &&
          !decide (begin ≤ 64 * w + k ∧ (64 * w + k ≤ end_ ∨ end_ = b.num_bits - 1))) := by
  obtain ⟨hn, hL⟩ := hwf
  have hU : U64 = 2 ^ 64 := rfl
  have hn0 : ¬ b.num_bits = 0 := by omega
  have e1 : sub64 b.num_bits 1 = b.num_bits - 1 := sub64_eq (by omega) (by omega)
  have e2 : sub64 (add64 begin 64) 1 = begin + 63 := by
    simp only [sub64, add64, U64] at *; omega
  have e3 : add64 end_ 1 = end_ + 1 := add64_eq (by omega)
  have hbL : begin / 64 < b.bitvec.length := by omega
  have heL : end_ / 64 < b.bitvec.length := by omega
  simp only [reset_range, hn0, if_false, e1, e2, e3, bits_uint64, debugAssert,
    show begin ≤ b.num_bits - 1 by omega, show end_ ≤ b.num_bits - 1 by omega, if_true]
  obtain ⟨vb, hvb⟩ : ∃ vb, vb = (begin + 63) / 64 := ⟨_, rfl⟩
  obtain ⟨ve, hve⟩ : ∃ ve, ve = if end_ = b.num_bits - 1 then b.bitvec.length
      else (end_ + 1) / 64 := ⟨_, rfl⟩
  rw [← hvb, ← hve]
  have hveL : ve ≤ b.bitvec.length := by split at hve <;> omega
  have hve1 : ve * 64 ≤ end_ + 64 := by split at hve <;> omega
  have hve2 : end_ < ve * 64 + 63 := by split at hve <;> omega
  have hve3 : end_ = b.num_bits - 1 → ve = b.bitvec.length := by
    intro h; rw [hve, if_pos h]
  have hve4 : ¬ end_ = b.num_bits - 1 → ve = (end_ + 1) / 64 := by
    intro h; rw [hve, if_neg h]
  have m1 : mul64 vb 64 = vb * 64 := mul64_eq (by omega)
  have m2 : mul64 ve 64 = ve * 64 := mul64_eq (by omega)
  have f1 : sub64 (vb * 64) begin = vb * 64 - begin := sub64_eq (by omega) (by omega)
  have f2 : sub64 64 (vb * 64 - begin) = 64 - (vb * 64 - begin) :=
    sub64_eq (by omega) (by simp only [U64]; omega)
  have a1 : vb * 64 - begin < 64 := by omega
  have s1 : begin < vb * 64 →
      shl64 1 (64 - (vb * 64 - begin)) = .ok (2 ^ (64 - (vb * 64 - begin))) :=
    fun h => shl64_one (by omega)
  have l1 : begin < vb * 64 →
      sub64 (2 ^ (64 - (vb * 64 - begin))) 1 = 2 ^ (64 - (vb * 64 - begin)) - 1 :=
    fun h => low_mask_eq (by omega)
  have f3 : ve * 64 ≤ end_ → add64 (sub64 end_ (ve * 64)) 1 = end_ - ve * 64 + 1 := by
    intro h
    rw [sub64_eq h (by omega), add64_eq (by omega)]
  have a2 : ve * 64 ≤ end_ → end_ - ve * 64 + 1 < 64 := fun h => by omega
  have s2 : ve * 64 ≤ end_ →
      shl64 1 (end_ - ve * 64 + 1) = .ok (2 ^ (end_ - ve * 64 + 1)) :=
    fun h => shl64_one (by omega)
  have l2 : ve * 64 ≤ end_ →
      sub64 (2 ^ (end_ - ve * 64 + 1)) 1 = 2 ^ (end_ - ve * 64 + 1) - 1 :=
    fun h => low_mask_eq (by omega)
  have t2 : ve * 64 ≤ end_ → ∀ j, (not64 (2 ^ (end_ - ve * 64 + 1) - 1)).testBit j =
      (decide (j < 64) && !decide (j < end_ - ve * 64 + 1)) :=
    fun h => testBit_not64_low_mask (by omega)
  have hvb1 : begin ≤ vb * 64 := by omega
  have hvb2 : vb * 64 < begin + 64 := by omega
  have hL1 : b.num_bits ≤ b.bitvec.length * 64 := by omega
  have hL2 : b.bitvec.length * 64 < b.num_bits + 64 := by omega
  have hve5 : ¬ end_ = b.num_bits - 1 → ve * 64 ≤ end_ + 1 ∧ end_ + 1 < ve * 64 + 64 := by
    intro h; have := hve4 h; omega
  simp only [m1, m2, f1, f2, a1, if_true, gt_iff_lt, ge_iff_le]
  clear hve4 hvb hL e1 e2 e3 m1 m2 f1 f2 hU hn0 hve hn
  by_cases c3 : begin < vb * 64 <;> by_cases c4 : ve * 64 ≤ end_ <;>
    by_cases c2 : ve * 64 < vb * 64 <;> by_cases c1 : vb < ve <;>
    simp only [c1, c2, c3, c4, if_true, if_false]
  all_goals first | (exfalso; omega) | skip
  all_goals
    simp (disch := assumption) only [fillZero, hveL, if_true, s1, s2, f3, a2, l1, l2, andWord_eq,
      List.length_mapIdx, List.length_set, hbL, heL, bind, Except.bind, pure, Except.pure]
    refine ⟨_, rfl, ?_, ?_⟩
    · simp only [List.length_mapIdx, List.length_set]
    · intro w k hk
      simp (disch := assumption) only [getD_set, getD_mapIdx, List.length_set,
        List.length_mapIdx]
      by_cases hwL : w < b.bitvec.length
      · by_cases hwb : begin / 64 = w <;> by_cases hwe : end_ / 64 = w <;>
          simp only [hwb, hwe, hwL, true_and, false_and, and_true, if_true, if_false]
        all_goals try split_ifs
        all_goals first | (exfalso; omega) | skip
        all_goals
          try simp (disch := assumption) only [Nat.testBit_and, Nat.testBit_or, t2,
            Nat.testBit_two_pow_sub_one, Nat.zero_testBit]
          generalize (b.bitvec.getD w 0).testBit k = x
          clear s1 l1 f3 s2 l2 t2 a2 hbL heL
          cases x
          · simp only [Bool.false_and]
          · rw [Bool.eq_iff_iff]
            simp only [Bool.true_and, Bool.or_eq_true, Bool.and_eq_true, Bool.not_eq_true',
              decide_eq_true_eq, decide_eq_false_iff_not, Bool.false_eq_true, true_iff,
              false_iff, not_not]
            all_goals omega
      · have hX : b.bitvec.getD w 0 = 0 := getD_of_length_le (by omega)
        have hwb : ¬ begin / 64 = w := by omega
        have hwe : ¬ end_ / 64 = w := by omega
        simp only [hwb, hwe, hwL, false_and, and_false, if_false, hX, Nat.zero_testBit,
          Bool.false_and]

/-- **C1.** For every bitset with `num_bits > 0` (and the word count of the data model) and
every `begin ≤ end < num_bits`, `reset(begin, end)` returns normally and afterwards
`test(j)` is `false` for every `j` in `[begin, end]`, `test(j)` is what it was before for
every `j < num_bits` outside `[begin, end]`, and `size()` is unchanged. -/
theorem reset_range_clears_exactly (b : DynamicBitset) (begin end_ : Nat)
    (hwf : b.WellFormed) (hpos : 0 < b.num_bits) (hbe : begin ≤ end_)
    (hen : end_ < b.num_bits) :
    ∃ b', b.reset_range begin end_ = .ok b' ∧
      (∀ j, begin ≤ j → j ≤ end_ → b'.test j = .ok false) ∧
      (∀ j, j < b.num_bits → j < begin ∨ end_ < j → b'.test j = b.test j) ∧
      b'.size = b.size := by
  obtain ⟨v, hr, hlen, hbits⟩ := reset_range_eq b begin end_ hwf hbe hen
  have key : ∀ j, j < b.num_bits →
      (DynamicBitset.mk v b.num_bits).test j =
        .ok (b.bit j && !decide (begin ≤ j ∧ (j ≤ end_ ∨ end_ = b.num_bits - 1))) := by
    intro j hj
    have hw := word_lt_of_wellFormed hwf hj
    rw [test_eq_bit (by exact hj) (by rw [hlen]; exact hw)]
    have := hbits (j / 64) (j % 64) (Nat.mod_lt _ (by decide))
    rw [Nat.div_add_mod] at this
    simp only [bit, this]
  refine ⟨_, hr, ?_, ?_, rfl⟩
  · intro j h1 h2
    rw [key j (by omega)]
    simp [h1, h2]
  · intro j hj hout
    rw [key j hj, test_eq_bit hj (word_lt_of_wellFormed hwf hj)]
    have : ¬ (begin ≤ j ∧ (j ≤ end_ ∨ end_ = b.num_bits - 1)) := by omega
    simp [this]

/-- Witness of `reset_range_clears_exactly`: bits 62 to 130 of a 131-bit bitset, a range
that crosses two word boundaries and ends at the last bit. -/
theorem reset_range_clears_exactly_witness :
    (DynamicBitset.mk [2 ^ 64 - 1, 2 ^ 64 - 1, 7] 131).WellFormed ∧
    ∃ b', (DynamicBitset.mk [2 ^ 64 - 1, 2 ^ 64 - 1, 7] 131).reset_range 62 130 = .ok b' ∧
      (∀ j, 62 ≤ j → j ≤ 130 → b'.test j = .ok false) ∧
      (∀ j, j < 131 → j < 62 ∨ 130 < j →
        b'.test j = (DynamicBitset.mk [2 ^ 64 - 1, 2 ^ 64 - 1, 7] 131).test j) ∧
      b'.size = (DynamicBitset.mk [2 ^ 64 - 1, 2 ^ 64 - 1, 7] 131).size :=
  ⟨by decide,
    reset_range_clears_exactly _ 62 130 (by decide) (by decide) (by decide) (by decide)⟩

/-! ## Resizing -/

theorem resize_eq (b : DynamicBitset) (n uninit : Nat) (hn : n + 63 < U64) :
    b.resize n uninit =
      { num_bits := n, bitvec := (podResize b.bitvec ((n + 63) / 64) uninit).map (fun _ => 0) } := by
  have e : sub64 (add64 n 64) 1 = n + 63 := by
    simp only [sub64, add64, U64] at *; omega
  simp only [resize, reset, bits_uint64, e]

theorem length_podResize (v : List Nat) (k uninit : Nat) :
    (podResize v k uninit).length = k := by
  simp only [podResize, List.length_append, List.length_take, List.length_replicate]
  omega

/-- For `n ≤ 2 ^ 64 - 64`, `resize(n)` establishes the word count of the data model. -/
theorem resize_wellFormed (b : DynamicBitset) (n uninit : Nat) (hn : n + 63 < U64) :
    (b.resize n uninit).WellFormed := by
  rw [resize_eq b n uninit hn]
  exact ⟨hn, by simp only [List.length_map, length_podResize]⟩

/-- For every `n ≤ 2 ^ 64 - 64` and every prior state of the bitset (any backing words,
any size, any content of the storage that the reallocation does not initialise), after
`resize(n)`: `size() == n` and `test(i) == false` for every `i < n`. -/
theorem resize_clears (b : DynamicBitset) (n uninit : Nat) (hn : n + 63 < U64) :
    (b.resize n uninit).size = n ∧ ∀ i, i < n → (b.resize n uninit).test i = .ok false := by
  have hwf := resize_wellFormed b n uninit hn
  rw [resize_eq b n uninit hn] at hwf ⊢
  refine ⟨rfl, fun i hi => ?_⟩
  rw [test_eq_bit (by exact hi) (word_lt_of_wellFormed hwf hi)]
  simp only [bit, List.getD_eq_getElem?_getD, List.getElem?_map]
  cases (podResize b.bitvec ((n + 63) / 64) uninit)[i / 64]? <;> simp

/-- Witness of `resize_clears`: a bitset with bits set is resized from 70 to 130 bits. -/
theorem resize_clears_witness :
    130 + 63 < U64 ∧ ((DynamicBitset.mk [5, 4] 70).resize 130 9).size = 130 ∧
      ∀ i, i < 130 → ((DynamicBitset.mk [5, 4] 70).resize 130 9).test i = .ok false :=
  ⟨by decide, resize_clears _ 130 9 (by decide)⟩

/-- **C5.** The claim "for every `n`, after `resize(n)`: `size() == n` and
`test(i) == false` for every `i < n`" fails at `n = 2 ^ 64 - 1`: the word count
`(n + 64 - 1) / 64` wraps to `0`, so the resized bitset reports `2 ^ 64 - 1` bits, has no
backing word, and `test(0)` indexes past the end of the backing array instead of returning
`false`. -/
theorem resize_max_wraps :
    2 ^ 64 - 1 < U64 ∧
    (DynamicBitset.empty.resize (2 ^ 64 - 1) 0).size = 2 ^ 64 - 1 ∧
    (DynamicBitset.empty.resize (2 ^ 64 - 1) 0).bitvec = [] ∧
    (DynamicBitset.empty.resize (2 ^ 64 - 1) 0).test 0 = .error .outOfBounds ∧
    ¬ ((DynamicBitset.empty.resize (2 ^ 64 - 1) 0).size = 2 ^ 64 - 1 ∧
        ∀ i, i < 2 ^ 64 - 1 → (DynamicBitset.empty.resize (2 ^ 64 - 1) 0).test i = .ok false) := by
  have e : (DynamicBitset.empty.resize (2 ^ 64 - 1) 0).test 0 = .error .outOfBounds := rfl
  refine ⟨by decide, by decide, by decide, e, ?_⟩
  rintro ⟨-, h⟩
  have h0 := h 0 (by decide)
  rw [e] at h0
  cases h0

end DynamicBitset

end katana

/-! ## The partial graph view -/

namespace galois

open katana

theorem nonDecreasing_getD {l : List Nat} (h : NonDecreasing l) {i j : Nat} (hij : i ≤ j)
    (hj : j < l.length) : l.getD i 0 ≤ l.getD j 0 := by
  rcases Nat.eq_or_lt_of_le hij with rfl | hlt
  · exact Nat.le_refl _
  · have := (List.pairwise_iff_getElem.mp h) i j (by omega) hj hlt
    rw [List.getD_eq_getElem l 0 (by omega), List.getD_eq_getElem l 0 hj]
    exact this

theorem StandardRange.mem_toList (r : StandardRange) (id : Nat) :
    id ∈ r.toList ↔ r.begin_ ≤ id ∧ id < r.end_ := by
  simp only [StandardRange.toList, List.mem_range'_1]
  omega

theorem StandardRange.toList_ascending (r : StandardRange) : r.toList.Pairwise (· < ·) :=
  List.pairwise_lt_range' _ _

namespace PartialGraphView

theorem EdgeBegin_zero (pfx : tsuba.GRPrefix) : EdgeBegin pfx 0 = .ok 0 := rfl

theorem EdgeBegin_pos (pfx : tsuba.GRPrefix) (node_id : Nat) (h0 : 0 < node_id)
    (h : node_id - 1 < pfx.out_indexes.length) :
    EdgeBegin pfx node_id = .ok (pfx.out_indexes.getD (node_id - 1) 0) := by
  simp only [EdgeBegin, Nat.ne_of_gt h0, if_false, readWord_of_lt h]

theorem EdgeEnd_of_lt (pfx : tsuba.GRPrefix) (node_id : Nat)
    (h : node_id < pfx.out_indexes.length) :
    EdgeEnd pfx node_id = .ok (pfx.out_indexes.getD node_id 0) := by
  simp only [EdgeEnd, readWord_of_lt h]

theorem readWord_ok {v : List Nat} {i x : Nat} (h : readWord v i = .ok x) :
    i < v.length ∧ x = v.getD i 0 := by
  by_cases hi : i < v.length
  · rw [readWord_of_lt hi] at h
    exact ⟨hi, by cases h; rfl⟩
  · simp [readWord, List.getElem?_eq_none (Nat.le_of_not_lt hi)] at h

/-- A read of `EdgeBegin` that is defined: node 0 gives 0, another node the table entry
before its own, which exists. -/
theorem EdgeBegin_ok {pfx : tsuba.GRPrefix} {node_id x : Nat}
    (h : EdgeBegin pfx node_id = .ok x) :
    (node_id = 0 ∧ x = 0) ∨
      (0 < node_id ∧ node_id - 1 < pfx.out_indexes.length ∧
        x = pfx.out_indexes.getD (node_id - 1) 0) := by
  by_cases h0 : node_id = 0
  · subst h0
    rw [EdgeBegin_zero] at h
    exact Or.inl ⟨rfl, by cases h; rfl⟩
  · simp only [EdgeBegin, h0, if_false] at h
    obtain ⟨h1, h2⟩ := readWord_ok h
    exact Or.inr ⟨by omega, h1, h2⟩

/-- The shape of every result of `Make`: both reads of the table are defined, and the
result is the result of the loader, called once with the node range, the edge range
`(EdgeBegin(first_node), EdgeBegin(last_node))` and the byte span computed from it. -/
theorem Make_ok {H E : Type}
    {LoadPartial : H → Nat × Nat → Nat × Nat → Nat → Nat → List String → List String →
      Except E tsuba.RDG}
    {sizeofEdge : Nat} {handle : H} {oiv : OutIndexView} {first_node last_node : Nat}
    {node_properties edge_properties : List String} {r : Except E PartialGraphView}
    (h : Make LoadPartial sizeofEdge handle oiv first_node last_node node_properties
      edge_properties = .ok r) :
    ∃ first_edge last_edge,
      EdgeBegin oiv.gr_view first_node = .ok first_edge ∧
      EdgeBegin oiv.gr_view last_node = .ok last_edge ∧
      r = (LoadPartial handle (first_node, last_node) (first_edge, last_edge)
            (add64 oiv.view_offset (mul64 first_edge sizeofEdge))
            (sub64 (add64 oiv.view_offset (mul64 last_edge sizeofEdge))
              (add64 oiv.view_offset (mul64 first_edge sizeofEdge)))
            node_properties edge_properties).map
          (fun rdg => PartialGraphView.new rdg oiv (first_node, last_node)
            (first_edge, last_edge)) := by
  unfold Make at h
  cases h1 : EdgeBegin oiv.gr_view first_node with
  | error e => simp [h1, bind, Except.bind] at h
  | ok fe =>
    cases h2 : EdgeBegin oiv.gr_view last_node with
    | error e => simp [h1, h2, bind, Except.bind] at h
    | ok le =>
      refine ⟨fe, le, rfl, rfl, ?_⟩
      simp only [h1, h2, bind, Except.bind, pure, Except.pure] at h
      split at h
      · next e he => cases h; rw [he]; rfl
      · next rdg he => cases h; rw [he]; rfl

/-- A successful `Make`: the loader succeeded on the computed ranges and the view is built
from what it returned. -/
theorem Make_ok_view {H E : Type}
    {LoadPartial : H → Nat × Nat → Nat × Nat → Nat → Nat → List String → List String →
      Except E tsuba.RDG}
    {sizeofEdge : Nat} {handle : H} {oiv : OutIndexView} {first_node last_node : Nat}
    {node_properties edge_properties : List String} {v : PartialGraphView}
    (h : Make LoadPartial sizeofEdge handle oiv first_node last_node node_properties
      edge_properties = .ok (.ok v)) :
    ∃ first_edge last_edge rdg,
      EdgeBegin oiv.gr_view first_node = .ok first_edge ∧
      EdgeBegin oiv.gr_view last_node = .ok last_edge ∧
      LoadPartial handle (first_node, last_node) (first_edge, last_edge)
          (add64 oiv.view_offset (mul64 first_edge sizeofEdge))
          (sub64 (add64 oiv.view_offset (mul64 last_edge sizeofEdge))
            (add64 oiv.view_offset (mul64 first_edge sizeofEdge)))
          node_properties edge_properties = .ok rdg ∧
      v = PartialGraphView.new rdg oiv (first_node, last_node) (first_edge, last_edge) := by
  obtain ⟨fe, le, h1, h2, h3⟩ := Make_ok h
  refine ⟨fe, le, ?_⟩
  cases hl : LoadPartial handle (first_node, last_node) (fe, le)
      (add64 oiv.view_offset (mul64 fe sizeofEdge))
      (sub64 (add64 oiv.view_offset (mul64 le sizeofEdge))
        (add64 oiv.view_offset (mul64 fe sizeofEdge)))
      node_properties edge_properties with
  | error e => rw [hl] at h3; cases h3
  | ok rdg =>
    rw [hl] at h3
    refine ⟨rdg, h1, h2, rfl, ?_⟩
    simpa [Except.map] using h3

/-- **C6.** For every view built by `Make` over a non-decreasing out-index table with
`first_node ≤ last_node`, and every `node_id` with `first_node ≤ node_id < last_node`,
both bounds of `edges(node_id)` are read inside the table,
`first_edge ≤ EdgeBegin(node_id)` and `EdgeEnd(node_id) ≤ last_edge`, and every edge id in
`edges(node_id)` lies in the view's edge range `[first_edge, last_edge)`. -/
theorem edges_within_edge_range {H E : Type}
    (LoadPartial : H → Nat × Nat → Nat × Nat → Nat → Nat → List String → List String →
      Except E tsuba.RDG)
    (sizeofEdge : Nat) (handle : H) (oiv : OutIndexView) (first_node last_node : Nat)
    (node_properties edge_properties : List String) (v : PartialGraphView) (node_id : Nat)
    (hmake : Make LoadPartial sizeofEdge handle oiv first_node last_node node_properties
      edge_properties = .ok (.ok v))
    (hmono : NonDecreasing oiv.gr_view.out_indexes)
    (hrange : first_node ≤ last_node)
    (hlo : first_node ≤ node_id) (hhi : node_id < last_node) :
    ∃ b e, EdgeBegin v.prefix_ node_id = .ok b ∧ EdgeEnd v.prefix_ node_id = .ok e ∧
      v.edges node_id = .ok (MakeStandardRange b e) ∧
      v.edge_range_.1 ≤ b ∧ e ≤ v.edge_range_.2 ∧
      ∀ id, id ∈ (MakeStandardRange b e).toList →
        v.edge_range_.1 ≤ id ∧ id < v.edge_range_.2 := by
  obtain ⟨fe, le, rdg, h1, h2, -, rfl⟩ := Make_ok_view hmake
  simp only [PartialGraphView.new, edges]
  rcases EdgeBegin_ok h2 with ⟨h0, -⟩ | ⟨-, hlen, hle⟩
  · omega
  have hend := EdgeEnd_of_lt oiv.gr_view node_id (by omega)
  have hele : oiv.gr_view.out_indexes.getD node_id 0 ≤ le := by
    rw [hle]; exact nonDecreasing_getD hmono (by omega) hlen
  have hfin : ∀ b, EdgeBegin oiv.gr_view node_id = .ok b → fe ≤ b →
      ∃ b e, EdgeBegin oiv.gr_view node_id = .ok b ∧ EdgeEnd oiv.gr_view node_id = .ok e ∧
        (do let b ← EdgeBegin oiv.gr_view node_id
            let e ← EdgeEnd oiv.gr_view node_id
            pure (MakeStandardRange b e)) = .ok (MakeStandardRange b e) ∧
        fe ≤ b ∧ e ≤ le ∧
        ∀ id, id ∈ (MakeStandardRange b e).toList → fe ≤ id ∧ id < le := by
    intro b hb hfb
    refine ⟨b, _, hb, hend, ?_, hfb, hele, ?_⟩
    · simp only [hb, hend, bind, Except.bind, pure, Except.pure]
    · intro id hid
      rw [StandardRange.mem_toList] at hid
      simp only [MakeStandardRange] at hid
      omega
  by_cases hn0 : node_id = 0
  · subst hn0
    have hf0 : first_node = 0 := by omega
    subst hf0
    rw [EdgeBegin_zero] at h1
    cases h1
    exact hfin 0 (EdgeBegin_zero _) (Nat.le_refl _)
  · have hb := EdgeBegin_pos oiv.gr_view node_id (by omega) (by omega)
    refine hfin _ hb ?_
    rcases EdgeBegin_ok h1 with ⟨-, hfe⟩ | ⟨-, -, hfe⟩
    · omega
    · rw [hfe]; exact nonDecreasing_getD hmono (by omega) (by omega)

/-- Witness of `edges_within_edge_range`: node 3 of the view of the conversion test's graph;
its edges `[2, 4)` lie in `[0, 8)`. -/
theorem edges_within_edge_range_witness :
    Make (memoryLoader movieDests) 4 () movieOutIndexView 0 9 [] [] = .ok (.ok movieView) ∧
    NonDecreasing movieOutIndexView.gr_view.out_indexes ∧
    ∃ b e, EdgeBegin movieView.prefix_ 3 = .ok b ∧ EdgeEnd movieView.prefix_ 3 = .ok e ∧
      movieView.edges 3 = .ok (MakeStandardRange b e) ∧
      movieView.edge_range_.1 ≤ b ∧ e ≤ movieView.edge_range_.2 ∧
      ∀ id, id ∈ (MakeStandardRange b e).toList →
        movieView.edge_range_.1 ≤ id ∧ id < movieView.edge_range_.2 :=
  ⟨rfl, by decide,
    edges_within_edge_range (memoryLoader movieDests) 4 () movieOutIndexView 0 9 [] []
      movieView 3 rfl (by decide) (by decide) (by decide) (by decide)⟩

/-- **C7.** For every successful `Make` with node range `[first_node, last_node)`, both
`EdgeBegin(first_node)` and `EdgeBegin(last_node)` are defined, the loader was called with
the edge range `(EdgeBegin(first_node), EdgeBegin(last_node))`, and `all_edges()` is the
range made of these two bounds: it enumerates, in ascending order, exactly the edge ids of
`[EdgeBegin(first_node), EdgeBegin(last_node))`. -/
theorem all_edges_eq {H E : Type}
    (LoadPartial : H → Nat × Nat → Nat × Nat → Nat → Nat → List String → List String →
      Except E tsuba.RDG)
    (sizeofEdge : Nat) (handle : H) (oiv : OutIndexView) (first_node last_node : Nat)
    (node_properties edge_properties : List String) (v : PartialGraphView)
    (hmake : Make LoadPartial sizeofEdge handle oiv first_node last_node node_properties
      edge_properties = .ok (.ok v)) :
    ∃ first_edge last_edge,
      EdgeBegin oiv.gr_view first_node = .ok first_edge ∧
      EdgeBegin oiv.gr_view last_node = .ok last_edge ∧
      (first_node = 0 → first_edge = 0) ∧
      (0 < first_node → oiv.gr_view.out_indexes[first_node - 1]? = some first_edge) ∧
      (last_node = 0 → last_edge = 0) ∧
      (0 < last_node → oiv.gr_view.out_indexes[last_node - 1]? = some last_edge) ∧
      (∃ rdg, LoadPartial handle (first_node, last_node) (first_edge, last_edge)
          (add64 oiv.view_offset (mul64 first_edge sizeofEdge))
          (sub64 (add64 oiv.view_offset (mul64 last_edge sizeofEdge))
            (add64 oiv.view_offset (mul64 first_edge sizeofEdge)))
          node_properties edge_properties = .ok rdg) ∧
      v.all_edges = MakeStandardRange first_edge last_edge ∧
      v.all_edges.toList = List.range' first_edge (last_edge - first_edge) ∧
      (∀ id, id ∈ v.all_edges.toList ↔ first_edge ≤ id ∧ id < last_edge) ∧
      v.all_edges.toList.Pairwise (· < ·) := by
  obtain ⟨fe, le, rdg, h1, h2, h3, rfl⟩ := Make_ok_view hmake
  have key : ∀ {n x : Nat}, EdgeBegin oiv.gr_view n = .ok x →
      (n = 0 → x = 0) ∧ (0 < n → oiv.gr_view.out_indexes[n - 1]? = some x) := by
    intro n x hx
    rcases EdgeBegin_ok hx with ⟨h0, hx0⟩ | ⟨hpos, hlen, hxe⟩
    · exact ⟨fun _ => hx0, fun h => by omega⟩
    · refine ⟨fun h => by omega, fun _ => ?_⟩
      rw [hxe, List.getD_eq_getElem _ 0 hlen, List.getElem?_eq_getElem hlen]
  refine ⟨fe, le, h1, h2, (key h1).1, (key h1).2, (key h2).1, (key h2).2, ⟨rdg, h3⟩, rfl, rfl,
    ?_, StandardRange.toList_ascending _⟩
  intro id
  rw [StandardRange.mem_toList]
  rfl

/-- Witness of `all_edges_eq`: the view of nodes `[2, 5)` of the conversion test's graph. -/
theorem all_edges_eq_witness :
    ∃ first_edge last_edge,
      EdgeBegin movieOutIndexView.gr_view 2 = .ok first_edge ∧
      EdgeBegin movieOutIndexView.gr_view 5 = .ok last_edge ∧
      ((2 : Nat) = 0 → first_edge = 0) ∧
      (0 < 2 → movieOutIndexView.gr_view.out_indexes[2 - 1]? = some first_edge) ∧
      ((5 : Nat) = 0 → last_edge = 0) ∧
      (0 < 5 → movieOutIndexView.gr_view.out_indexes[5 - 1]? = some last_edge) ∧
      (∃ rdg, memoryLoader movieDests () (2, 5) (first_edge, last_edge)
          (add64 movieOutIndexView.view_offset (mul64 first_edge 4))
          (sub64 (add64 movieOutIndexView.view_offset (mul64 last_edge 4))
            (add64 movieOutIndexView.view_offset (mul64 first_edge 4)))
          [] [] = .ok rdg) ∧
      (PartialGraphView.new { topology_file_storage := [0, 0, 7, 0] } movieOutIndexView
          (2, 5) (1, 5)).all_edges = MakeStandardRange first_edge last_edge ∧
      (PartialGraphView.new { topology_file_storage := [0, 0, 7, 0] } movieOutIndexView
          (2, 5) (1, 5)).all_edges.toList = List.range' first_edge (last_edge - first_edge) ∧
      (∀ id, id ∈ (PartialGraphView.new { topology_file_storage := [0, 0, 7, 0] }
          movieOutIndexView (2, 5) (1, 5)).all_edges.toList ↔
            first_edge ≤ id ∧ id < last_edge) ∧
      (PartialGraphView.new { topology_file_storage := [0, 0, 7, 0] } movieOutIndexView
          (2, 5) (1, 5)).all_edges.toList.Pairwise (· < ·) :=
  all_edges_eq (memoryLoader movieDests) 4 () movieOutIndexView 2 5 [] [] _ rfl

/-- **C8.** For every view and every `node_id` covered by the out-index table (inside or
outside the view's own node range), both bounds are read inside the table,
`EdgeBegin(0) = 0`, `EdgeBegin(node_id) = out_index[node_id - 1]` for `node_id > 0`,
`EdgeEnd(node_id) = out_index[node_id]`, and `edges(node_id)` is the range made of these
two bounds: it enumerates, in ascending order, exactly the edge ids of
`[EdgeBegin(node_id), EdgeEnd(node_id))`. -/
theorem edges_eq (v : PartialGraphView) (node_id : Nat)
    (hcov : node_id < v.prefix_.out_indexes.length) :
    ∃ b e, EdgeBegin v.prefix_ node_id = .ok b ∧ EdgeEnd v.prefix_ node_id = .ok e ∧
      (node_id = 0 → b = 0) ∧
      (0 < node_id → v.prefix_.out_indexes[node_id - 1]? = some b) ∧
      v.prefix_.out_indexes[node_id]? = some e ∧
      v.edges node_id = .ok (MakeStandardRange b e) ∧
      (MakeStandardRange b e).toList = List.range' b (e - b) ∧
      (∀ id, id ∈ (MakeStandardRange b e).toList ↔ b ≤ id ∧ id < e) ∧
      (MakeStandardRange b e).toList.Pairwise (· < ·) := by
  have he := EdgeEnd_of_lt v.prefix_ node_id hcov
  have hee : v.prefix_.out_indexes[node_id]? = some (v.prefix_.out_indexes.getD node_id 0) := by
    rw [List.getD_eq_getElem _ 0 hcov, List.getElem?_eq_getElem hcov]
  have hfin : ∀ b, EdgeBegin v.prefix_ node_id = .ok b →
      v.edges node_id = .ok (MakeStandardRange b (v.prefix_.out_indexes.getD node_id 0)) := by
    intro b hb
    simp only [edges, hb, he, bind, Except.bind, pure, Except.pure]
  by_cases h0 : node_id = 0
  · subst h0
    exact ⟨0, _, EdgeBegin_zero _, he, fun _ => rfl, fun h => by omega, hee,
      hfin 0 (EdgeBegin_zero _), rfl, fun id => StandardRange.mem_toList _ id,
      StandardRange.toList_ascending _⟩
  · have hlen : node_id - 1 < v.prefix_.out_indexes.length := by omega
    have hb := EdgeBegin_pos v.prefix_ node_id (by omega) hlen
    refine ⟨_, _, hb, he, fun h => by omega, fun _ => ?_, hee, hfin _ hb, rfl,
      fun id => StandardRange.mem_toList _ id, StandardRange.toList_ascending _⟩
    rw [List.getD_eq_getElem _ 0 hlen, List.getElem?_eq_getElem hlen]

/-- Witness of `edges_eq`: node 8, outside the node range `[2, 5)` of the view, has the
empty edge range `[8, 8)`. -/
theorem edges_eq_witness :
    (8 < (PartialGraphView.new { topology_file_storage := [0, 0, 7, 0] } movieOutIndexView
      (2, 5) (1, 5)).prefix_.out_indexes.length) ∧
    (PartialGraphView.new { topology_file_storage := [0, 0, 7, 0] } movieOutIndexView
      (2, 5) (1, 5)).edges 8 = .ok (MakeStandardRange 8 8) ∧
    ∃ b e, EdgeBegin movieOutIndexView.gr_view 8 = .ok b ∧
      EdgeEnd movieOutIndexView.gr_view 8 = .ok e ∧
      ((8 : Nat) = 0 → b = 0) ∧
      (0 < 8 → movieOutIndexView.gr_view.out_indexes[8 - 1]? = some b) ∧
      movieOutIndexView.gr_view.out_indexes[8]? = some e ∧
      (PartialGraphView.new { topology_file_storage := [0, 0, 7, 0] } movieOutIndexView
        (2, 5) (1, 5)).edges 8 = .ok (MakeStandardRange b e) ∧
      (MakeStandardRange b e).toList = List.range' b (e - b) ∧
      (∀ id, id ∈ (MakeStandardRange b e).toList ↔ b ≤ id ∧ id < e) ∧
      (MakeStandardRange b e).toList.Pairwise (· < ·) :=
  ⟨by decide, rfl,
    edges_eq (PartialGraphView.new { topology_file_storage := [0, 0, 7, 0] }
      movieOutIndexView (2, 5) (1, 5)) 8 (by decide)⟩

/-- **C9.** For a view whose loaded edge buffer holds the entries of the full edge array
for the edge ids `[first_edge, last_edge)`, and for every `edge_id` with
`first_edge ≤ edge_id < last_edge`: the buffer has `last_edge - first_edge` entries, the
local offset `edge_id - first_edge` (a 64-bit subtraction that does not wrap) is smaller
than that, and `GetEdgeDest(edge_id)` is the entry of the full edge array at index
`edge_id`, unmodified. -/
theorem GetEdgeDest_eq (v : PartialGraphView) (full : List Nat) (edge_id : Nat)
    (hbuf : v.edges_ =
      (full.drop v.edge_range_.1).take (v.edge_range_.2 - v.edge_range_.1))
    (hfull : v.edge_range_.2 ≤ full.length) (hu : edge_id < U64)
    (hlo : v.edge_range_.1 ≤ edge_id) (hhi : edge_id < v.edge_range_.2) :
    v.edges_.length = v.edge_range_.2 - v.edge_range_.1 ∧
    sub64 edge_id v.edge_range_.1 = edge_id - v.edge_range_.1 ∧
    edge_id - v.edge_range_.1 < v.edges_.length ∧
    ∃ d, full[edge_id]? = some d ∧ v.GetEdgeDest edge_id = .ok d := by
  have hlen : v.edges_.length = v.edge_range_.2 - v.edge_range_.1 := by
    rw [hbuf, List.length_take, List.length_drop]; omega
  have hsub : sub64 edge_id v.edge_range_.1 = edge_id - v.edge_range_.1 := sub64_eq hlo hu
  have hoff : edge_id - v.edge_range_.1 < v.edges_.length := by omega
  refine ⟨hlen, hsub, hoff, full.getD edge_id 0, ?_, ?_⟩
  · rw [List.getD_eq_getElem _ 0 (by omega), List.getElem?_eq_getElem (by omega)]
  · rw [GetEdgeDest, hsub, readWord_of_lt hoff]
    congr 1
    simp only [hbuf, List.getD_eq_getElem?_getD, List.getElem?_take, List.getElem?_drop]
    rw [if_pos (by omega)]
    congr 2
    omega

/-- Witness of `GetEdgeDest_eq`: the destinations `[0, 0, 0, 7, 0, 0, 0, 0]` of the
conversion test with the edge range `[0, 8)`; edge 3 has destination 7. -/
theorem GetEdgeDest_eq_witness :
    movieView.GetEdgeDest 3 = .ok 7 ∧
    movieView.edges_.length = movieView.edge_range_.2 - movieView.edge_range_.1 ∧
    sub64 3 movieView.edge_range_.1 = 3 - movieView.edge_range_.1 ∧
    3 - movieView.edge_range_.1 < movieView.edges_.length ∧
    ∃ d, movieDests[3]? = some d ∧ movieView.GetEdgeDest 3 = .ok d :=
  ⟨rfl, GetEdgeDest_eq movieView movieDests 3 rfl (by decide) (by decide) (by decide)
    (by decide)⟩

/-- The byte length `edges_stop - edges_start` that `Make` computes is
`(last_edge - first_edge) * sizeof(Edge)` in 64-bit arithmetic. -/
theorem edges_size_eq (offset first_edge last_edge sizeofEdge : Nat)
    (hle : first_edge ≤ last_edge) :
    sub64 (add64 offset (mul64 last_edge sizeofEdge))
        (add64 offset (mul64 first_edge sizeofEdge)) =
      mul64 (last_edge - first_edge) sizeofEdge := by
  have h1 : first_edge * sizeofEdge ≤ last_edge * sizeofEdge := Nat.mul_le_mul_right _ hle
  have h2 : (last_edge - first_edge) * sizeofEdge =
      last_edge * sizeofEdge - first_edge * sizeofEdge := Nat.sub_mul _ _ _
  simp only [sub64, add64, mul64, U64, h2]
  omega

/-- A byte span that starts at `offset + first_edge * size` and has `(last_edge -
first_edge) * size` bytes consists of the `size` bytes of each edge id of
`[first_edge, last_edge)` and of no other byte. -/
theorem byte_span_iff (offset first_edge last_edge size : Nat) (hle : first_edge ≤ last_edge)
    (x : Nat) :
    (offset + first_edge * size ≤ x ∧
        x < offset + first_edge * size + (last_edge - first_edge) * size) ↔
      ∃ id, first_edge ≤ id ∧ id < last_edge ∧
        offset + id * size ≤ x ∧ x < offset + id * size + size := by
  constructor
  · rintro ⟨h1, h2⟩
    have hs : 0 < size := by
      rcases Nat.eq_zero_or_pos size with h0 | h0
      · subst h0; simp at h2; omega
      · exact h0
    have hd : x - (offset + first_edge * size) < (last_edge - first_edge) * size := by omega
    have hd' : x - (offset + first_edge * size) < size * (last_edge - first_edge) := by
      rw [Nat.mul_comm size (last_edge - first_edge)]; exact hd
    have hq : (x - (offset + first_edge * size)) / size < last_edge - first_edge :=
      Nat.div_lt_of_lt_mul hd'
    have hq1 := Nat.div_mul_le_self (x - (offset + first_edge * size)) size
    have hq2 := Nat.lt_div_mul_add (a := x - (offset + first_edge * size)) hs
    obtain ⟨q, hqdef⟩ : ∃ q, q = (x - (offset + first_edge * size)) / size := ⟨_, rfl⟩
    rw [← hqdef] at hq hq1 hq2
    refine ⟨first_edge + q, by omega, by omega, ?_, ?_⟩
    · rw [Nat.add_mul]; omega
    · rw [Nat.add_mul]; omega
  · rintro ⟨id, h1, h2, h3, h4⟩
    have e1 : first_edge * size ≤ id * size := Nat.mul_le_mul_right _ h1
    have e2 : (id + 1) * size ≤ last_edge * size := Nat.mul_le_mul_right _ h2
    have e3 : (last_edge - first_edge) * size = last_edge * size - first_edge * size :=
      Nat.sub_mul _ _ _
    have e4 : first_edge * size ≤ last_edge * size := Nat.mul_le_mul_right _ hle
    rw [Nat.add_mul, Nat.one_mul] at e2
    omega

/-- **C10.** For every out-index table, base edge-array byte offset `view_offset` and node
range with `first_edge = EdgeBegin(first_node) ≤ last_edge = EdgeBegin(last_node)`, `Make`
calls the loader with the byte offset `view_offset + first_edge * sizeof(Edge)` and the
byte length `(last_edge - first_edge) * sizeof(Edge)`, both in 64-bit arithmetic, and
returns what the loader returns there. When the edge array up to `last_edge` lies at byte
offsets below `2 ^ 64`, nothing wraps and that span consists of the `sizeof(Edge)` bytes of
each edge id of `[first_edge, last_edge)` and of no other byte. -/
theorem Make_byte_span {H E : Type}
    (LoadPartial : H → Nat × Nat → Nat × Nat → Nat → Nat → List String → List String →
      Except E tsuba.RDG)
    (sizeofEdge : Nat) (handle : H) (oiv : OutIndexView) (first_node last_node : Nat)
    (node_properties edge_properties : List String) (first_edge last_edge : Nat)
    (hfirst : EdgeBegin oiv.gr_view first_node = .ok first_edge)
    (hlast : EdgeBegin oiv.gr_view last_node = .ok last_edge)
    (hle : first_edge ≤ last_edge) :
    Make LoadPartial sizeofEdge handle oiv first_node last_node node_properties
        edge_properties =
      .ok ((LoadPartial handle (first_node, last_node) (first_edge, last_edge)
            (add64 oiv.view_offset (mul64 first_edge sizeofEdge))
            (mul64 (last_edge - first_edge) sizeofEdge)
            node_properties edge_properties).map
          (fun rdg => PartialGraphView.new rdg oiv (first_node, last_node)
            (first_edge, last_edge))) ∧
    (oiv.view_offset + last_edge * sizeofEdge < U64 →
      add64 oiv.view_offset (mul64 first_edge sizeofEdge) =
        oiv.view_offset + first_edge * sizeofEdge ∧
      mul64 (last_edge - first_edge) sizeofEdge = (last_edge - first_edge) * sizeofEdge ∧
      ∀ x, (oiv.view_offset + first_edge * sizeofEdge ≤ x ∧
            x < oiv.view_offset + first_edge * sizeofEdge +
              (last_edge - first_edge) * sizeofEdge) ↔
          ∃ id, first_edge ≤ id ∧ id < last_edge ∧
            oiv.view_offset + id * sizeofEdge ≤ x ∧
            x < oiv.view_offset + id * sizeofEdge + sizeofEdge) := by
  constructor
  · rw [← edges_size_eq _ _ _ _ hle]
    simp only [Make, hfirst, hlast, bind, Except.bind, pure, Except.pure]
    cases LoadPartial handle (first_node, last_node) (first_edge, last_edge)
      (add64 oiv.view_offset (mul64 first_edge sizeofEdge))
      (sub64 (add64 oiv.view_offset (mul64 last_edge sizeofEdge))
        (add64 oiv.view_offset (mul64 first_edge sizeofEdge)))
      node_properties edge_properties <;> rfl
  · intro hfit
    have h1 : first_edge * sizeofEdge ≤ last_edge * sizeofEdge := Nat.mul_le_mul_right _ hle
    have h2 : (last_edge - first_edge) * sizeofEdge =
        last_edge * sizeofEdge - first_edge * sizeofEdge := Nat.sub_mul _ _ _
    refine ⟨?_, ?_, byte_span_iff _ _ _ _ hle⟩
    · simp only [add64, mul64, U64] at *; omega
    · simp only [mul64, U64, h2] at *; omega

/-- Witness of `Make_byte_span`: nodes `[2, 5)` of the conversion test's graph with 4-byte
edges; the edge range is `[1, 5)`, the byte span starts at `80 + 1 * 4` and has 16 bytes. -/
theorem Make_byte_span_witness :
    add64 movieOutIndexView.view_offset (mul64 1 4) = 84 ∧ mul64 (5 - 1) 4 = 16 ∧
    Make (memoryLoader movieDests) 4 () movieOutIndexView 2 5 [] [] =
      .ok ((memoryLoader movieDests () (2, 5) (1, 5)
            (add64 movieOutIndexView.view_offset (mul64 1 4)) (mul64 (5 - 1) 4) [] []).map
          (fun rdg => PartialGraphView.new rdg movieOutIndexView (2, 5) (1, 5))) ∧
    (movieOutIndexView.view_offset + 5 * 4 < U64 →
      add64 movieOutIndexView.view_offset (mul64 1 4) =
        movieOutIndexView.view_offset + 1 * 4 ∧
      mul64 (5 - 1) 4 = (5 - 1) * 4 ∧
      ∀ x, (movieOutIndexView.view_offset + 1 * 4 ≤ x ∧
            x < movieOutIndexView.view_offset + 1 * 4 + (5 - 1) * 4) ↔
          ∃ id, 1 ≤ id ∧ id < 5 ∧
            movieOutIndexView.view_offset + id * 4 ≤ x ∧
            x < movieOutIndexView.view_offset + id * 4 + 4) :=
  ⟨by decide, by decide,
    Make_byte_span (memoryLoader movieDests) 4 () movieOutIndexView 2 5 [] [] 1 5 rfl rfl
      (by decide)⟩

/-! ### Errors of `Make`, the node range, and the graph of the conversion test -/

theorem EdgeBegin_defined (pfx : tsuba.GRPrefix) (node_id : Nat)
    (h : node_id ≤ pfx.out_indexes.length) : ∃ x, EdgeBegin pfx node_id = .ok x := by
  by_cases h0 : node_id = 0
  · subst h0; exact ⟨0, rfl⟩
  · exact ⟨_, EdgeBegin_pos pfx node_id (by omega) (by omega)⟩

/-- The result of `Make` when both reads of the table are defined: the result of the one
call of the loader, a view being built from the store it returns. -/
theorem Make_of_EdgeBegin {H E : Type}
    (LoadPartial : H → Nat × Nat → Nat × Nat → Nat → Nat → List String → List String →
      Except E tsuba.RDG)
    (sizeofEdge : Nat) (handle : H) (oiv : OutIndexView) (first_node last_node : Nat)
    (node_properties edge_properties : List String) {first_edge last_edge : Nat}
    (hfirst : EdgeBegin oiv.gr_view first_node = .ok first_edge)
    (hlast : EdgeBegin oiv.gr_view last_node = .ok last_edge) :
    Make LoadPartial sizeofEdge handle oiv first_node last_node node_properties
        edge_properties =
      .ok ((LoadPartial handle (first_node, last_node) (first_edge, last_edge)
            (add64 oiv.view_offset (mul64 first_edge sizeofEdge))
            (sub64 (add64 oiv.view_offset (mul64 last_edge sizeofEdge))
              (add64 oiv.view_offset (mul64 first_edge sizeofEdge)))
            node_properties edge_properties).map
          (fun rdg => PartialGraphView.new rdg oiv (first_node, last_node)
            (first_edge, last_edge))) := by
  simp only [Make, hfirst, hlast, bind, Except.bind, pure, Except.pure]
  cases LoadPartial handle (first_node, last_node) (first_edge, last_edge)
    (add64 oiv.view_offset (mul64 first_edge sizeofEdge))
    (sub64 (add64 oiv.view_offset (mul64 last_edge sizeofEdge))
      (add64 oiv.view_offset (mul64 first_edge sizeofEdge)))
    node_properties edge_properties <;> rfl

/-- **C11.** When the out-index table covers the two positions that `Make` reads, `Make`
returns an error if and only if the loader `LoadPartial` returns an error for the computed
ranges, the error that `Make` returns is the loader's error unchanged (and then no view is
produced), and when the loader succeeds `Make` returns a view, built from the loaded store. -/
theorem Make_error_iff {H E : Type}
    (LoadPartial : H → Nat × Nat → Nat × Nat → Nat → Nat → List String → List String →
      Except E tsuba.RDG)
    (sizeofEdge : Nat) (handle : H) (oiv : OutIndexView) (first_node last_node : Nat)
    (node_properties edge_properties : List String)
    (hfirst : first_node ≤ oiv.gr_view.out_indexes.length)
    (hlast : last_node ≤ oiv.gr_view.out_indexes.length) :
    ∃ first_edge last_edge res,
      EdgeBegin oiv.gr_view first_node = .ok first_edge ∧
      EdgeBegin oiv.gr_view last_node = .ok last_edge ∧
      res = LoadPartial handle (first_node, last_node) (first_edge, last_edge)
          (add64 oiv.view_offset (mul64 first_edge sizeofEdge))
          (sub64 (add64 oiv.view_offset (mul64 last_edge sizeofEdge))
            (add64 oiv.view_offset (mul64 first_edge sizeofEdge)))
          node_properties edge_properties ∧
      ((∃ e, Make LoadPartial sizeofEdge handle oiv first_node last_node node_properties
          edge_properties = .ok (.error e)) ↔ ∃ e, res = .error e) ∧
      (∀ e, Make LoadPartial sizeofEdge handle oiv first_node last_node node_properties
          edge_properties = .ok (.error e) ↔ res = .error e) ∧
      (∀ v, Make LoadPartial sizeofEdge handle oiv first_node last_node node_properties
          edge_properties = .ok (.ok v) ↔
        ∃ rdg, res = .ok rdg ∧
          v = PartialGraphView.new rdg oiv (first_node, last_node) (first_edge, last_edge)) := by
  obtain ⟨fe, hfe⟩ := EdgeBegin_defined oiv.gr_view first_node hfirst
  obtain ⟨le, hle⟩ := EdgeBegin_defined oiv.gr_view last_node hlast
  refine ⟨fe, le, _, hfe, hle, rfl, ?_⟩
  rw [Make_of_EdgeBegin LoadPartial sizeofEdge handle oiv first_node last_node
    node_properties edge_properties hfe hle]
  cases LoadPartial handle (first_node, last_node) (fe, le)
    (add64 oiv.view_offset (mul64 fe sizeofEdge))
    (sub64 (add64 oiv.view_offset (mul64 le sizeofEdge))
      (add64 oiv.view_offset (mul64 fe sizeofEdge)))
    node_properties edge_properties with
  | error e0 =>
    refine ⟨⟨fun _ => ⟨e0, rfl⟩, fun _ => ⟨e0, rfl⟩⟩, fun e => ?_, fun v => ?_⟩
    · simp [Except.map]
    · simp [Except.map]
  | ok rdg0 =>
    refine ⟨⟨?_, ?_⟩, fun e => ?_, fun v => ?_⟩
    · rintro ⟨e, he⟩; simp [Except.map] at he
    · rintro ⟨e, he⟩; cases he
    · simp [Except.map]
    · simp only [Except.map, Except.ok.injEq]
      constructor
      · intro h; exact ⟨rdg0, rfl, h.symm⟩
      · rintro ⟨rdg, h1, h2⟩; rw [h2, h1]

/-- Witness of `Make_error_iff`: over the table of the conversion test, a loader that fails
with `"io"` makes `Make` return `"io"`. -/
theorem Make_error_iff_witness :
    Make (failingLoader "io") 4 () movieOutIndexView 0 9 [] [] = .ok (.error "io") ∧
    ∃ first_edge last_edge res,
      EdgeBegin movieOutIndexView.gr_view 0 = .ok first_edge ∧
      EdgeBegin movieOutIndexView.gr_view 9 = .ok last_edge ∧
      res = failingLoader "io" () (0, 9) (first_edge, last_edge)
          (add64 movieOutIndexView.view_offset (mul64 first_edge 4))
          (sub64 (add64 movieOutIndexView.view_offset (mul64 last_edge 4))
            (add64 movieOutIndexView.view_offset (mul64 first_edge 4)))
          [] [] ∧
      ((∃ e, Make (failingLoader "io") 4 () movieOutIndexView 0 9 [] [] = .ok (.error e)) ↔
        ∃ e, res = .error e) ∧
      (∀ e, Make (failingLoader "io") 4 () movieOutIndexView 0 9 [] [] = .ok (.error e) ↔
        res = .error e) ∧
      (∀ v, Make (failingLoader "io") 4 () movieOutIndexView 0 9 [] [] = .ok (.ok v) ↔
        ∃ rdg, res = .ok rdg ∧
          v = PartialGraphView.new rdg movieOutIndexView (0, 9) (first_edge, last_edge)) :=
  ⟨rfl, Make_error_iff (failingLoader "io") 4 () movieOutIndexView 0 9 [] []
    (by decide) (by decide)⟩

/-- A view that `Make` returns has the out-index table of the provider as `prefix_`, and
the node and edge ranges that `Make` computed. -/
theorem Make_ok_fields {H E : Type}
    {LoadPartial : H → Nat × Nat → Nat × Nat → Nat → Nat → List String → List String →
      Except E tsuba.RDG}
    {sizeofEdge : Nat} {handle : H} {oiv : OutIndexView} {first_node last_node : Nat}
    {node_properties edge_properties : List String} {v : PartialGraphView}
    (h : Make LoadPartial sizeofEdge handle oiv first_node last_node node_properties
      edge_properties = .ok (.ok v)) :
    v.prefix_ = oiv.gr_view ∧ v.node_range_ = (first_node, last_node) ∧
      EdgeBegin oiv.gr_view first_node = .ok v.edge_range_.1 ∧
      EdgeBegin oiv.gr_view last_node = .ok v.edge_range_.2 := by
  obtain ⟨fe, le, rdg, h1, h2, -, rfl⟩ := Make_ok_view h
  exact ⟨rfl, rfl, h1, h2⟩

/-- **C12 (counterexample).** The view of the conversion test's graph, built by `Make` over
the table `[0,1,2,4,5,6,7,8,8]` with node range `[0, 9)`: `edges(0)` is the range from
`EdgeBegin(0) = 0` to `EdgeEnd(0) = out_index[0] = 0`, which holds no edge id; it is not
the range `[0, 1)` and does not hold edge 0. -/
theorem edges_zero_counterexample :
    Make (memoryLoader movieDests) 4 () movieOutIndexView 0 9 [] [] = .ok (.ok movieView) ∧
    movieView.edges 0 = .ok (MakeStandardRange 0 0) ∧
    movieView.edges 0 ≠ .ok (MakeStandardRange 0 1) ∧
    ¬ ∃ r, movieView.edges 0 = .ok r ∧ 0 ∈ r.toList := by
  have e : movieView.edges 0 = .ok (MakeStandardRange 0 0) := rfl
  refine ⟨rfl, e, ?_, ?_⟩
  · rw [e]; intro h; cases h
  · rintro ⟨r, hr, hmem⟩
    rw [e] at hr
    cases hr
    simp [StandardRange.toList, MakeStandardRange] at hmem

/-- **C12 (amended).** For a view constructed over the out-index table
`[0,1,2,4,5,6,7,8,8]` with node range `[0, 9)`, `edges(0)` spans the empty edge-id range
`[0, 0)`; the edge-id range `[0, 1)` is `edges(1)`. -/
theorem edges_zero_empty {H E : Type}
    (LoadPartial : H → Nat × Nat → Nat × Nat → Nat → Nat → List String → List String →
      Except E tsuba.RDG)
    (sizeofEdge : Nat) (handle : H) (oiv : OutIndexView)
    (node_properties edge_properties : List String) (v : PartialGraphView)
    (htable : oiv.gr_view.out_indexes = [0, 1, 2, 4, 5, 6, 7, 8, 8])
    (hmake : Make LoadPartial sizeofEdge handle oiv 0 9 node_properties edge_properties =
      .ok (.ok v)) :
    v.edges 0 = .ok (MakeStandardRange 0 0) ∧ (MakeStandardRange 0 0).toList = [] ∧
    v.edges 1 = .ok (MakeStandardRange 0 1) ∧ (MakeStandardRange 0 1).toList = [0] := by
  obtain ⟨hp, -, -, -⟩ := Make_ok_fields hmake
  refine ⟨?_, rfl, ?_, rfl⟩
  · simp only [edges, EdgeBegin, EdgeEnd, readWord, hp, htable]; rfl
  · simp only [edges, EdgeBegin, EdgeEnd, readWord, hp, htable]; rfl

/-- Witness of `edges_zero_empty`: the view of the conversion test's graph. -/
theorem edges_zero_empty_witness :
    movieView.edges 0 = .ok (MakeStandardRange 0 0) ∧ (MakeStandardRange 0 0).toList = [] ∧
    movieView.edges 1 = .ok (MakeStandardRange 0 1) ∧ (MakeStandardRange 0 1).toList = [0] :=
  edges_zero_empty (memoryLoader movieDests) 4 () movieOutIndexView [] [] movieView rfl rfl

/-- **C13.** For a view constructed over the out-index table `[0,1,2,4,5,6,7,8,8]` with
node range `[0, 9)`, `all_edges()` spans the edge-id range `[0, 8)` (all 8 edges), and
`edges(8)`, the last node, is the empty range `[8, 8)`. -/
theorem all_edges_movie {H E : Type}
    (LoadPartial : H → Nat × Nat → Nat × Nat → Nat → Nat → List String → List String →
      Except E tsuba.RDG)
    (sizeofEdge : Nat) (handle : H) (oiv : OutIndexView)
    (node_properties edge_properties : List String) (v : PartialGraphView)
    (htable : oiv.gr_view.out_indexes = [0, 1, 2, 4, 5, 6, 7, 8, 8])
    (hmake : Make LoadPartial sizeofEdge handle oiv 0 9 node_properties edge_properties =
      .ok (.ok v)) :
    v.all_edges = MakeStandardRange 0 8 ∧ v.all_edges.toList = [0, 1, 2, 3, 4, 5, 6, 7] ∧
    v.edges 8 = .ok (MakeStandardRange 8 8) ∧ (MakeStandardRange 8 8).toList = [] := by
  obtain ⟨hp, -, h1, h2⟩ := Make_ok_fields hmake
  have e1 : v.edge_range_.1 = 0 := by
    have h3 : Except.ok 0 = (Except.ok v.edge_range_.1 : Except Fault Nat) := h1
    exact (Except.ok.inj h3).symm
  have e2 : v.edge_range_.2 = 8 := by
    simp only [EdgeBegin, readWord, htable] at h2
    have h3 : Except.ok 8 = (Except.ok v.edge_range_.2 : Except Fault Nat) := h2
    exact (Except.ok.inj h3).symm
  have ea : v.all_edges = MakeStandardRange 0 8 := by
    simp only [all_edges, e1, e2]
  refine ⟨ea, by rw [ea]; rfl, ?_, rfl⟩
  simp only [edges, EdgeBegin, EdgeEnd, readWord, hp, htable]; rfl

/-- Witness of `all_edges_movie`: the view of the conversion test's graph. -/
theorem all_edges_movie_witness :
    movieView.all_edges = MakeStandardRange 0 8 ∧
    movieView.all_edges.toList = [0, 1, 2, 3, 4, 5, 6, 7] ∧
    movieView.edges 8 = .ok (MakeStandardRange 8 8) ∧ (MakeStandardRange 8 8).toList = [] :=
  all_edges_movie (memoryLoader movieDests) 4 () movieOutIndexView [] [] movieView rfl rfl

/-- **C14.** For every successful `Make(handle, oiv, first_node, last_node, ...)`,
`node_offset()` equals `first_node` and `nodes()` is the range made of `first_node` and
`last_node`: it enumerates exactly `first_node, first_node + 1, ..., last_node - 1` in
ascending order, `last_node - first_node` ids, none when `first_node == last_node`. -/
theorem nodes_eq {H E : Type}
    (LoadPartial : H → Nat × Nat → Nat × Nat → Nat → Nat → List String → List String →
      Except E tsuba.RDG)
    (sizeofEdge : Nat) (handle : H) (oiv : OutIndexView) (first_node last_node : Nat)
    (node_properties edge_properties : List String) (v : PartialGraphView)
    (hmake : Make LoadPartial sizeofEdge handle oiv first_node last_node node_properties
      edge_properties = .ok (.ok v)) :
    v.node_offset = first_node ∧
    v.nodes = MakeStandardRange first_node last_node ∧
    v.nodes.toList = List.range' first_node (last_node - first_node) ∧
    v.nodes.toList.length = last_node - first_node ∧
    (∀ id, id ∈ v.nodes.toList ↔ first_node ≤ id ∧ id < last_node) ∧
    v.nodes.toList.Pairwise (· < ·) ∧
    (first_node = last_node → v.nodes.toList = []) := by
  obtain ⟨-, hn, -, -⟩ := Make_ok_fields hmake
  have en : v.nodes = MakeStandardRange first_node last_node := by
    simp only [nodes, hn]
  refine ⟨by simp only [node_offset, hn], en, by rw [en]; rfl, ?_, ?_,
    StandardRange.toList_ascending _, ?_⟩
  · rw [en]; simp [StandardRange.toList, MakeStandardRange]
  · intro id; rw [en, StandardRange.mem_toList]; rfl
  · intro h; rw [en, h]; simp [StandardRange.toList, MakeStandardRange]

/-- Witness of `nodes_eq`: the view of nodes `[2, 5)` of the conversion test's graph. -/
theorem nodes_eq_witness :
    (PartialGraphView.new { topology_file_storage := [0, 0, 7, 0] } movieOutIndexView
      (2, 5) (1, 5)).nodes.toList = [2, 3, 4] ∧
    (PartialGraphView.new { topology_file_storage := [0, 0, 7, 0] } movieOutIndexView
      (2, 5) (1, 5)).node_offset = 2 ∧
    (PartialGraphView.new { topology_file_storage := [0, 0, 7, 0] } movieOutIndexView
      (2, 5) (1, 5)).nodes = MakeStandardRange 2 5 ∧
    (PartialGraphView.new { topology_file_storage := [0, 0, 7, 0] } movieOutIndexView
      (2, 5) (1, 5)).nodes.toList = List.range' 2 (5 - 2) ∧
    (PartialGraphView.new { topology_file_storage := [0, 0, 7, 0] } movieOutIndexView
      (2, 5) (1, 5)).nodes.toList.length = 5 - 2 ∧
    (∀ id, id ∈ (PartialGraphView.new { topology_file_storage := [0, 0, 7, 0] }
      movieOutIndexView (2, 5) (1, 5)).nodes.toList ↔ 2 ≤ id ∧ id < 5) ∧
    (PartialGraphView.new { topology_file_storage := [0, 0, 7, 0] } movieOutIndexView
      (2, 5) (1, 5)).nodes.toList.Pairwise (· < ·) ∧
    ((2 : Nat) = 5 → (PartialGraphView.new { topology_file_storage := [0, 0, 7, 0] }
      movieOutIndexView (2, 5) (1, 5)).nodes.toList = []) :=
  ⟨rfl, nodes_eq (memoryLoader movieDests) 4 () movieOutIndexView 2 5 [] [] _ rfl⟩

end PartialGraphView

end galois

/-! ## Size management, whole-bitset reset and contract violations of the bitset -/

namespace katana

theorem fillZero_length {v v' : List Nat} {lo hi : Nat} (h : fillZero v lo hi = .ok v') :
    v'.length = v.length := by
  unfold fillZero at h
  split at h
  · cases h; simp only [List.length_mapIdx]
  · cases h

theorem andWord_length {v v' : List Nat} {i m : Nat} (h : andWord v i m = .ok v') :
    v'.length = v.length := by
  rw [andWord_eq] at h
  split at h
  · cases h; simp only [List.length_set]
  · cases h

namespace DynamicBitset

theorem storeWord_length (v : List Nat) (i : Nat) (w : Option Nat) :
    (storeWord v i w).length = v.length := by
  cases w <;> simp only [storeWord, List.length_set]

theorem set_shape {b b' : DynamicBitset} {i spurious : Nat} {old : Bool}
    (h : b.set i spurious = .ok (old, b')) :
    b'.num_bits = b.num_bits ∧ b'.bitvec.length = b.bitvec.length := by
  unfold set at h
  cases hs : shl64 1 (i % bits_uint64) with
  | error e => simp [hs, bind, Except.bind] at h
  | ok off =>
    cases hr : readWord b.bitvec (i / bits_uint64) with
    | error e => simp [hs, hr, bind, Except.bind] at h
    | ok w =>
      simp only [hs, hr, bind, Except.bind, pure, Except.pure, Except.ok.injEq,
        Prod.mk.injEq] at h
      obtain ⟨-, rfl⟩ := h
      exact ⟨rfl, storeWord_length _ _ _⟩

theorem reset_index_shape {b b' : DynamicBitset} {i spurious : Nat} {old : Bool}
    (h : b.reset_index i spurious = .ok (old, b')) :
    b'.num_bits = b.num_bits ∧ b'.bitvec.length = b.bitvec.length := by
  unfold reset_index at h
  cases hs : shl64 1 (i % bits_uint64) with
  | error e => simp [hs, bind, Except.bind] at h
  | ok off =>
    cases hr : readWord b.bitvec (i / bits_uint64) with
    | error e => simp [hs, hr, bind, Except.bind] at h
    | ok w =>
      simp only [hs, hr, bind, Except.bind, pure, Except.pure, Except.ok.injEq,
        Prod.mk.injEq] at h
      obtain ⟨-, rfl⟩ := h
      exact ⟨rfl, storeWord_length _ _ _⟩

theorem bind_eq_ok {α β : Type} (x : Except Fault α) (f : α → Except Fault β) (y : β) :
    (x >>= f) = .ok y ↔ ∃ a, x = .ok a ∧ f a = .ok y := by
  cases x with
  | error e => simp [bind, Except.bind]
  | ok a => simp [bind, Except.bind]

theorem bind_fillZero_eq_ok {β : Type} (v : List Nat) (lo hi : Nat)
    (f : List Nat → Except Fault β) (y : β) :
    (fillZero v lo hi >>= f) = .ok y ↔ ∃ a, fillZero v lo hi = .ok a ∧ f a = .ok y :=
  bind_eq_ok _ _ _

theorem bind_andWord_eq_ok {β : Type} (v : List Nat) (i m : Nat)
    (f : List Nat → Except Fault β) (y : β) :
    (andWord v i m >>= f) = .ok y ↔ ∃ a, andWord v i m = .ok a ∧ f a = .ok y :=
  bind_eq_ok _ _ _

/-- Every call of the range `reset` that returns keeps `num_bits` and the number of
backing words, whatever its arguments. -/
theorem reset_range_shape {b b' : DynamicBitset} {begin end_ : Nat}
    (h : b.reset_range begin end_ = .ok b') :
    b'.num_bits = b.num_bits ∧ b'.bitvec.length = b.bitvec.length := by
  unfold reset_range at h
  by_cases h0 : b.num_bits = 0
  · simp only [h0, if_true, pure, Except.pure, Except.ok.injEq] at h
    subst h; exact ⟨rfl, rfl⟩
  · simp only [h0, if_false] at h
    generalize sub64 (add64 begin bits_uint64) 1 / bits_uint64 = vb at h
    generalize (if end_ = sub64 b.num_bits 1 then b.bitvec.length
      else add64 end_ 1 / bits_uint64) = ve at h
    generalize mul64 vb bits_uint64 = vb64 at h
    generalize mul64 ve bits_uint64 = ve64 at h
    generalize sub64 vb64 begin = d1 at h
    generalize add64 (sub64 end_ ve64) 1 = d2 at h
    generalize begin / bits_uint64 = wb at h
    generalize end_ / bits_uint64 = we at h
    repeat'
      first
      | (rw [bind_fillZero_eq_ok] at h
         obtain ⟨_, hx, h⟩ := h
         have := fillZero_length hx
         clear hx)
      | (rw [bind_andWord_eq_ok] at h
         obtain ⟨_, hx, h⟩ := h
         have := andWord_length hx
         clear hx)
      | rw [pure_bind] at h
      | (rw [bind_eq_ok] at h
         obtain ⟨_, -, h⟩ := h)
      | split at h
    all_goals
      have hb := Except.ok.inj h
      subst hb
      exact ⟨rfl, by first | rfl | (simp only; omega)⟩

/-- In every reachable state `num_bits` is a 64-bit value and the number of backing words
is the one `resize` computes from it: `(num_bits + 64 - 1) / 64` in 64-bit arithmetic. -/
theorem reachable_word_count {b : DynamicBitset} (h : Reachable b) :
    b.num_bits < U64 ∧
      b.bitvec.length = sub64 (add64 b.num_bits bits_uint64) 1 / bits_uint64 := by
  induction h with
  | construct => exact ⟨by decide, by decide⟩
  | resize n uninit _ hn _ =>
    exact ⟨hn, by simp only [resize, reset, List.length_map, length_podResize]⟩
  | reserve n _ _ ih => exact ih
  | clear _ _ =>
    exact ⟨show (0 : Nat) < U64 by decide,
      show ([] : List Nat).length = sub64 (add64 0 bits_uint64) 1 / bits_uint64 by decide⟩
  | shrink_to_fit _ ih => exact ih
  | reset _ ih => exact ⟨ih.1, by simp only [reset, List.length_map]; exact ih.2⟩
  | reset_range begin end_ _ hr ih =>
    obtain ⟨h1, h2⟩ := reset_range_shape hr
    rw [h1, h2]; exact ih
  | set index spurious old _ hr ih =>
    obtain ⟨h1, h2⟩ := set_shape hr
    rw [h1, h2]; exact ih
  | reset_index index spurious old _ hr ih =>
    obtain ⟨h1, h2⟩ := reset_index_shape hr
    rw [h1, h2]; exact ih

/-- In every reachable state with `num_bits ≤ 2 ^ 64 - 64` the number of backing words is
`ceil(num_bits / 64)`, and the state satisfies the invariant of the data model. -/
theorem reachable_ceilWords {b : DynamicBitset} (h : Reachable b)
    (hn : b.num_bits + 63 < U64) :
    b.bitvec.length = ceilWords b.num_bits ∧ b.WellFormed := by
  obtain ⟨h1, h2⟩ := reachable_word_count h
  have : b.WellFormed := (wellFormed_iff b).mpr ⟨h1, h2, by
    simp only [sub64, add64, bits_uint64, U64] at *; omega⟩
  exact ⟨this.2, this⟩

/-- **C15.** The claim "in every reachable state the number of backing words equals
`ceil(num_bits / 64)`, for every `n` that fits in an unsigned 64-bit integer" fails after
`resize(2 ^ 64 - 1)` on a newly constructed bitset: the word count `(n + 63) / 64`, computed
in 64-bit arithmetic, is `0`, while `ceil(num_bits / 64)` is `2 ^ 58`. -/
theorem word_count_wraps :
    2 ^ 64 - 1 < U64 ∧
    Reachable (DynamicBitset.empty.resize (2 ^ 64 - 1) 0) ∧
    (DynamicBitset.empty.resize (2 ^ 64 - 1) 0).num_bits = 2 ^ 64 - 1 ∧
    (DynamicBitset.empty.resize (2 ^ 64 - 1) 0).bitvec.length = 0 ∧
    ceilWords (DynamicBitset.empty.resize (2 ^ 64 - 1) 0).num_bits = 2 ^ 58 ∧
    ¬ ∀ b, Reachable b → b.bitvec.length = ceilWords b.num_bits := by
  have hr : Reachable (DynamicBitset.empty.resize (2 ^ 64 - 1) 0) :=
    Reachable.resize _ _ Reachable.construct (by decide)
  refine ⟨by decide, hr, by decide, by decide, by decide, ?_⟩
  intro h
  have h1 := h _ hr
  revert h1
  decide

/-- The method `test` fails its assertion on every index that is not below `num_bits`. -/
theorem test_asserts (b : DynamicBitset) (i : Nat) (hi : ¬ i < b.num_bits) :
    b.test i = .error .assertion := by
  simp only [test, debugAssert, hi, if_false, bind, Except.bind]

/-- No call of `set` or of the single-bit `reset` fails an assertion: they contain none. -/
theorem set_never_asserts (b : DynamicBitset) (i spurious : Nat) :
    b.set i spurious ≠ .error .assertion ∧ b.reset_index i spurious ≠ .error .assertion := by
  have hk : i % 64 < 64 := Nat.mod_lt _ (by decide)
  constructor
  · simp only [set, bits_uint64, shl64_one hk, readWord]
    cases b.bitvec[i / 64]? <;> simp [bind, Except.bind, pure, Except.pure]
  · simp only [reset_index, bits_uint64, shl64_one hk, readWord]
    cases b.bitvec[i / 64]? <;> simp [bind, Except.bind, pure, Except.pure]

/-- **C16.** On the 10-bit bitset that `resize(10)` leaves, with the assertions of a debug
build: `test(20)` fails its assertion, but `set(20)` fails none, returns `false` and sets
bit 20 of word 0, and then `reset(20)` fails none, returns `true` and clears that bit;
`set(64)` and `reset(64)` read past the end of the backing array without an assertion. -/
theorem set_reset_do_not_assert :
    DynamicBitset.empty.resize 10 0 = DynamicBitset.mk [0] 10 ∧
    (DynamicBitset.mk [0] 10).test 20 = .error .assertion ∧
    (DynamicBitset.mk [0] 10).set 20 0 = .ok (false, DynamicBitset.mk [2 ^ 20] 10) ∧
    (DynamicBitset.mk [2 ^ 20] 10).reset_index 20 0 = .ok (true, DynamicBitset.mk [0] 10) ∧
    (DynamicBitset.mk [0] 10).set 64 0 = .error .outOfBounds ∧
    (DynamicBitset.mk [0] 10).reset_index 64 0 = .error .outOfBounds :=
  ⟨by decide, rfl, rfl, rfl, rfl, rfl⟩

/-- **C17.** On an empty bitset (`num_bits == 0`), `reset(begin, end)` is a no-op for every
pair of arguments: it returns at once, with no assertion failed and no word accessed, and
leaves the bitset as it was. -/
theorem reset_range_empty (b : DynamicBitset) (begin end_ : Nat) (h : b.num_bits = 0) :
    b.reset_range begin end_ = .ok b := by
  simp only [reset_range, h, if_true, pure, Except.pure]

/-- Witness of `reset_range_empty`: a newly constructed bitset and the arguments 5 and 3. -/
theorem reset_range_empty_witness :
    DynamicBitset.empty.num_bits = 0 ∧
    DynamicBitset.empty.reset_range 5 3 = .ok DynamicBitset.empty :=
  ⟨rfl, reset_range_empty DynamicBitset.empty 5 3 rfl⟩

/-- **C18.** For every bitset, after the whole-bitset `reset()`: every backing word is 0,
`size()` and the number of backing words are unchanged, and `test(i) == false` for every
`i < num_bits` whose word exists, hence for every `i < num_bits` when the bitset has the
word count of the data model. -/
theorem reset_all_clear (b : DynamicBitset) :
    (∀ w, w ∈ b.reset.bitvec → w = 0) ∧
    b.reset.size = b.size ∧
    b.reset.bitvec.length = b.bitvec.length ∧
    (∀ i, i < b.num_bits → i / 64 < b.bitvec.length → b.reset.test i = .ok false) ∧
    (b.WellFormed → ∀ i, i < b.num_bits → b.reset.test i = .ok false) := by
  have hlen : b.reset.bitvec.length = b.bitvec.length := by
    simp only [reset, List.length_map]
  have key : ∀ i, i < b.num_bits → i / 64 < b.bitvec.length →
      b.reset.test i = .ok false := by
    intro i hi hw
    rw [test_eq_bit (by exact hi) (by rw [hlen]; exact hw)]
    simp only [bit, reset, List.getD_eq_getElem?_getD, List.getElem?_map]
    cases b.bitvec[i / 64]? <;> simp
  refine ⟨?_, rfl, hlen, key, fun hwf i hi => key i hi (word_lt_of_wellFormed hwf hi)⟩
  intro w hw
  simp only [reset, List.mem_map] at hw
  obtain ⟨_, -, rfl⟩ := hw
  rfl

/-- **C19.** For every bitset and every `n`, `reserve(n)` and `shrink_to_fit()` change
neither `size()` nor the value of `test(i)` for any `i`: the sequence of backing words is
the same before and after. -/
theorem reserve_shrink_frame (b : DynamicBitset) (n : Nat) :
    (b.reserve n).size = b.size ∧ (b.reserve n).bitvec = b.bitvec ∧
    (∀ i, (b.reserve n).test i = b.test i) ∧
    b.shrink_to_fit.size = b.size ∧ b.shrink_to_fit.bitvec = b.bitvec ∧
    (∀ i, b.shrink_to_fit.test i = b.test i) :=
  ⟨rfl, rfl, fun _ => rfl, rfl, rfl, fun _ => rfl⟩

/-- **C20.** A newly constructed bitset has `size() == 0` and no backing words, and for
every bitset state `clear()` returns it to exactly that state, whichever bits were set. -/
theorem clear_eq_empty :
    DynamicBitset.empty.size = 0 ∧ DynamicBitset.empty.bitvec = [] ∧
    ∀ b : DynamicBitset, b.clear = DynamicBitset.empty ∧ b.clear.size = 0 ∧
      b.clear.bitvec.length = 0 :=
  ⟨rfl, rfl, fun _ => ⟨rfl, rfl, rfl⟩⟩

end DynamicBitset

end katana

/-! ## Complement, frame of the single-bit operations -/

namespace katana

theorem testBit_not64 (w k : Nat) (hk : k < 64) : (not64 w).testBit k = !w.testBit k := by
  have h : w % 2 ^ 64 < 2 ^ 64 := Nat.mod_lt _ (by decide)
  have e : not64 w = 2 ^ 64 - (w % 2 ^ 64 + 1) := by
    simp only [not64, U64]; omega
  rw [e, Nat.testBit_two_pow_sub_succ h, Nat.testBit_mod_two_pow]
  simp [hk]

namespace DynamicBitset

/-- The value of `test` is decided by `num_bits` and by the bits below 64 of the word it
reads. -/
theorem test_congr {b b' : DynamicBitset} (j : Nat) (hn : b'.num_bits = b.num_bits)
    (hlen : b'.bitvec.length = b.bitvec.length)
    (hbit : (b'.bitvec.getD (j / 64) 0).testBit (j % 64) =
      (b.bitvec.getD (j / 64) 0).testBit (j % 64)) :
    b'.test j = b.test j := by
  by_cases hj : j < b.num_bits
  · by_cases hw : j / 64 < b.bitvec.length
    · rw [test_eq_bit (by rw [hn]; exact hj) (by rw [hlen]; exact hw), test_eq_bit hj hw]
      simp only [bit, hbit]
    · have hk : j % 64 < 64 := Nat.mod_lt _ (by decide)
      have h1 : b.bitvec[j / 64]? = none := List.getElem?_eq_none (by omega)
      have h2 : b'.bitvec[j / 64]? = none := List.getElem?_eq_none (by omega)
      simp only [test, debugAssert, hn, hj, if_true, bits_uint64, shl64_one hk, readWord,
        h1, h2]
  · rw [test_asserts b j hj, test_asserts b' j (by rw [hn]; exact hj)]

/-- **C22.** For every bitset `A`, calling `A.bitwise_not()` twice restores the original
bitset: `size()` and the number of backing words are unchanged, every bit below 64 of every
backing word has its original value, and `test(i)` has its original value for every `i`. -/
theorem bitwise_not_twice (b : DynamicBitset) :
    b.bitwise_not.bitwise_not.size = b.size ∧
    b.bitwise_not.bitwise_not.bitvec.length = b.bitvec.length ∧
    (∀ w k, k < 64 → (b.bitwise_not.bitwise_not.bitvec.getD w 0).testBit k =
      (b.bitvec.getD w 0).testBit k) ∧
    (∀ i, b.bitwise_not.bitwise_not.test i = b.test i) ∧
    ((∀ w, w ∈ b.bitvec → w < U64) → b.bitwise_not.bitwise_not = b) := by
  have hlen : b.bitwise_not.bitwise_not.bitvec.length = b.bitvec.length := by
    simp only [bitwise_not, List.length_map]
  have hbits : ∀ w k, k < 64 → (b.bitwise_not.bitwise_not.bitvec.getD w 0).testBit k =
      (b.bitvec.getD w 0).testBit k := by
    intro w k hk
    simp only [bitwise_not, List.map_map, List.getD_eq_getElem?_getD, List.getElem?_map]
    cases b.bitvec[w]? with
    | none => rfl
    | some x => simp [testBit_not64 _ k hk]
  refine ⟨rfl, hlen, hbits, ?_, ?_⟩
  · intro i
    exact test_congr i rfl hlen (hbits _ _ (Nat.mod_lt _ (by decide)))
  · intro hw
    have : b.bitvec.map (not64 ∘ not64) = b.bitvec := by
      conv_rhs => rw [← List.map_id b.bitvec]
      apply List.map_congr_left
      intro x hx
      have := hw x hx
      simp only [Function.comp, not64, U64, id] at *
      omega
    simp only [bitwise_not, List.map_map, this]

/-- Replacing word `i / 64` by a word that differs from it at most in bit `i % 64` changes
the bitset at most in bit `i`. -/
theorem unchangedExceptBit_set (b : DynamicBitset) (i x : Nat)
    (hx : ∀ k, k < 64 → k ≠ i % 64 → x.testBit k = (b.bitvec.getD (i / 64) 0).testBit k) :
    UnchangedExceptBit b { b with bitvec := b.bitvec.set (i / 64) x } i := by
  refine ⟨rfl, by simp only [List.length_set], ?_, ?_, ?_⟩
  · intro w hw
    simp only [getD_set]
    rw [if_neg (by intro h; exact hw h.1.symm)]
  · intro k hk hne
    simp only [getD_set]
    split
    · exact hx k hk hne
    · rfl
  · intro j hj
    refine @test_congr b { b with bitvec := b.bitvec.set (i / 64) x } j rfl
      (by simp only [List.length_set]) ?_
    simp only [getD_set]
    split
    · next h =>
      rw [← h.1]
      apply hx _ (Nat.mod_lt _ (by decide))
      intro hmod
      apply hj
      have := Nat.div_add_mod j 64
      have := Nat.div_add_mod i 64
      omega
    · rfl

theorem unchangedExceptBit_refl (b : DynamicBitset) (i : Nat) : UnchangedExceptBit b b i :=
  ⟨rfl, rfl, fun _ _ => rfl, fun _ _ _ => rfl, fun _ _ => rfl⟩

/-- **C27.** For every bitset (with the word count of the data model) and every
`i < num_bits`, `set(i)` and the single-bit `reset(i)` return and change nothing except bit
`i`: `size()` is unchanged, every backing word other than word `i / 64` is unchanged, in
word `i / 64` every bit other than bit `i % 64` is unchanged, and `test(j)` is unchanged for
every `j ≠ i`. -/
theorem set_reset_index_frame (b : DynamicBitset) (i spurious : Nat)
    (hwf : b.WellFormed) (hi : i < b.num_bits) :
    (∃ old b', b.set i spurious = .ok (old, b') ∧ UnchangedExceptBit b b' i) ∧
    (∃ old b', b.reset_index i spurious = .ok (old, b') ∧ UnchangedExceptBit b b' i) := by
  have hw := word_lt_of_wellFormed hwf hi
  have hk : i % 64 < 64 := Nat.mod_lt _ (by decide)
  constructor
  · refine ⟨_, _, set_eq spurious hw, ?_⟩
    split
    · exact unchangedExceptBit_refl b i
    · apply unchangedExceptBit_set
      intro k _ hne
      rw [Nat.testBit_or, Nat.testBit_two_pow_of_ne (fun h => hne h.symm), Bool.or_false]
  · refine ⟨_, _, reset_index_eq spurious hw, ?_⟩
    split
    · apply unchangedExceptBit_set
      intro k hk64 hne
      rw [Nat.testBit_and, testBit_not64_two_pow hk]
      have hne' : ¬ i % 64 = k := fun h => hne h.symm
      simp [hk64, hne']
    · exact unchangedExceptBit_refl b i

/-- Witness of `set_reset_index_frame`: bit 65 of a 70-bit bitset. -/
theorem set_reset_index_frame_witness :
    (DynamicBitset.mk [5, 6] 70).WellFormed ∧ 65 < 70 ∧
    (∃ old b', (DynamicBitset.mk [5, 6] 70).set 65 1 = .ok (old, b') ∧
      UnchangedExceptBit (DynamicBitset.mk [5, 6] 70) b' 65) ∧
    (∃ old b', (DynamicBitset.mk [5, 6] 70).reset_index 65 1 = .ok (old, b') ∧
      UnchangedExceptBit (DynamicBitset.mk [5, 6] 70) b' 65) :=
  ⟨by decide, by decide, set_reset_index_frame _ 65 1 (by decide) (by decide)⟩

end DynamicBitset

end katana

/-! ## Per-node edge ranges of a view: cover, mirror nodes, reads of the table -/

namespace galois

open katana

namespace PartialGraphView

/-- The value of `EdgeBegin` as a total function of the table. -/
theorem EdgeBegin_eq_of_le (pfx : tsuba.GRPrefix) (n : Nat) (h : n ≤ pfx.out_indexes.length) :
    EdgeBegin pfx n = .ok (if n = 0 then 0 else pfx.out_indexes.getD (n - 1) 0) := by
  by_cases h0 : n = 0
  · subst h0; rfl
  · rw [if_neg h0]; exact EdgeBegin_pos pfx n (by omega) (by omega)

theorem edgesList_eq (v : PartialGraphView) (n : Nat) (h : n < v.prefix_.out_indexes.length) :
    v.edges n = .ok (MakeStandardRange
        (if n = 0 then 0 else v.prefix_.out_indexes.getD (n - 1) 0)
        (v.prefix_.out_indexes.getD n 0)) ∧
    v.edgesList n = List.range' (if n = 0 then 0 else v.prefix_.out_indexes.getD (n - 1) 0)
      (v.prefix_.out_indexes.getD n 0 -
        (if n = 0 then 0 else v.prefix_.out_indexes.getD (n - 1) 0)) := by
  have he : v.edges n = .ok (MakeStandardRange
      (if n = 0 then 0 else v.prefix_.out_indexes.getD (n - 1) 0)
      (v.prefix_.out_indexes.getD n 0)) := by
    simp only [edges, EdgeBegin_eq_of_le v.prefix_ n (by omega), EdgeEnd_of_lt v.prefix_ n h,
      bind, Except.bind, pure, Except.pure]
  refine ⟨he, ?_⟩
  simp only [edgesList, he]
  rfl

/-- Over a non-decreasing table, the edge ranges of the nodes `first, ..., first + m - 1`,
one after the other, are the edge ids from `EdgeBegin(first)` to `EdgeBegin(first + m)`. -/
theorem flatMap_edgesList (v : PartialGraphView) (first : Nat)
    (hmono : NonDecreasing v.prefix_.out_indexes) :
    ∀ m, first + m ≤ v.prefix_.out_indexes.length →
      (List.range' first m).flatMap v.edgesList =
        List.range' (if first = 0 then 0 else v.prefix_.out_indexes.getD (first - 1) 0)
          ((if first + m = 0 then 0 else v.prefix_.out_indexes.getD (first + m - 1) 0) -
            (if first = 0 then 0 else v.prefix_.out_indexes.getD (first - 1) 0)) := by
  intro m
  induction m with
  | zero => intro _; simp
  | succ m ih =>
    intro hm
    have ih' := ih (by omega)
    rw [List.range'_concat, List.flatMap_append, ih', List.flatMap_singleton, Nat.one_mul,
      (edgesList_eq v (first + m) (by omega)).2]
    have e1 : (if first + (m + 1) = 0 then 0
        else v.prefix_.out_indexes.getD (first + (m + 1) - 1) 0) =
        v.prefix_.out_indexes.getD (first + m) 0 := by
      rw [if_neg (by omega)]; rfl
    rw [e1]
    have hle1 : (if first = 0 then 0 else v.prefix_.out_indexes.getD (first - 1) 0) ≤
        (if first + m = 0 then 0 else v.prefix_.out_indexes.getD (first + m - 1) 0) := by
      by_cases h0 : first = 0
      · rw [if_pos h0]; exact Nat.zero_le _
      · rw [if_neg h0, if_neg (by omega)]
        exact nonDecreasing_getD hmono (by omega) (by omega)
    have hle2 : (if first + m = 0 then 0 else v.prefix_.out_indexes.getD (first + m - 1) 0) ≤
        v.prefix_.out_indexes.getD (first + m) 0 := by
      by_cases h0 : first + m = 0
      · rw [if_pos h0]; exact Nat.zero_le _
      · rw [if_neg h0]
        exact nonDecreasing_getD hmono (by omega) (by omega)
    generalize (if first = 0 then 0 else v.prefix_.out_indexes.getD (first - 1) 0) = a at *
    generalize (if first + m = 0 then 0
      else v.prefix_.out_indexes.getD (first + m - 1) 0) = c at *
    generalize v.prefix_.out_indexes.getD (first + m) 0 = d at *
    have := List.range'_append a (c - a) (d - c) 1
    simp only [Nat.one_mul] at this
    rw [show a + (c - a) = c by omega] at this
    rw [this]
    congr 1
    omega

/-- **C28.** For every view built by `Make` over a non-decreasing out-index table with
`first_node ≤ last_node`: `edges(n)` is defined for every node `n` of the view and ends
where `edges(n + 1)` begins (`EdgeEnd(n) == EdgeBegin(n + 1)`), and concatenating
`edges(n)` for `n = first_node, ..., last_node - 1` in order yields exactly the sequence
`all_edges()`, in which no edge id is repeated. -/
theorem edges_concat_eq_all_edges {H E : Type}
    (LoadPartial : H → Nat × Nat → Nat × Nat → Nat → Nat → List String → List String →
      Except E tsuba.RDG)
    (sizeofEdge : Nat) (handle : H) (oiv : OutIndexView) (first_node last_node : Nat)
    (node_properties edge_properties : List String) (v : PartialGraphView)
    (hmake : Make LoadPartial sizeofEdge handle oiv first_node last_node node_properties
      edge_properties = .ok (.ok v))
    (hmono : NonDecreasing oiv.gr_view.out_indexes)
    (hrange : first_node ≤ last_node) :
    (∀ n, first_node ≤ n → n < last_node →
      ∃ b e, v.edges n = .ok (MakeStandardRange b e) ∧ b ≤ e ∧
        EdgeEnd v.prefix_ n = .ok e ∧ EdgeBegin v.prefix_ (n + 1) = .ok e) ∧
    v.nodes.toList.flatMap v.edgesList = v.all_edges.toList ∧
    (v.nodes.toList.flatMap v.edgesList).Nodup := by
  obtain ⟨hp, hn, h1, h2⟩ := Make_ok_fields hmake
  rw [← hp] at hmono h1 h2
  have hlast : last_node ≤ v.prefix_.out_indexes.length := by
    rcases EdgeBegin_ok h2 with ⟨h0, -⟩ | ⟨-, hlen, -⟩ <;> omega
  have hcat : v.nodes.toList.flatMap v.edgesList = v.all_edges.toList := by
    have hf := flatMap_edgesList v first_node hmono (last_node - first_node) (by omega)
    rw [show first_node + (last_node - first_node) = last_node by omega] at hf
    rw [EdgeBegin_eq_of_le v.prefix_ first_node (by omega)] at h1
    rw [EdgeBegin_eq_of_le v.prefix_ last_node hlast] at h2
    have e1 := Except.ok.inj h1
    have e2 := Except.ok.inj h2
    simp only [nodes, all_edges, StandardRange.toList, MakeStandardRange, hn, ← e1, ← e2]
    exact hf
  refine ⟨?_, hcat, ?_⟩
  · intro n hlo hhi
    have hlt : n < v.prefix_.out_indexes.length := by omega
    refine ⟨_, _, (edgesList_eq v n hlt).1, ?_, EdgeEnd_of_lt v.prefix_ n hlt, ?_⟩
    · by_cases h0 : n = 0
      · rw [if_pos h0]; exact Nat.zero_le _
      · rw [if_neg h0]; exact nonDecreasing_getD hmono (by omega) hlt
    · exact EdgeBegin_pos v.prefix_ (n + 1) (by omega) (by simpa using hlt)
  · rw [hcat]
    exact List.nodup_range' _ _

/-- Witness of `edges_concat_eq_all_edges`: the nodes `[2, 5)` of the conversion test's
graph have the edges `[1, 2)`, `[2, 4)` and `[4, 5)`, together `[1, 5)`. -/
theorem edges_concat_eq_all_edges_witness :
    movieSlice.nodes.toList.flatMap movieSlice.edgesList = [1, 2, 3, 4] ∧
    NonDecreasing movieOutIndexView.gr_view.out_indexes ∧
    (∀ n, 2 ≤ n → n < 5 →
      ∃ b e, movieSlice.edges n = .ok (MakeStandardRange b e) ∧ b ≤ e ∧
        EdgeEnd movieSlice.prefix_ n = .ok e ∧ EdgeBegin movieSlice.prefix_ (n + 1) = .ok e) ∧
    movieSlice.nodes.toList.flatMap movieSlice.edgesList = movieSlice.all_edges.toList ∧
    (movieSlice.nodes.toList.flatMap movieSlice.edgesList).Nodup :=
  ⟨by decide, by decide,
    edges_concat_eq_all_edges (memoryLoader movieDests) 4 () movieOutIndexView 2 5 [] []
      movieSlice rfl (by decide) (by decide)⟩

/-- **C29.** There are a non-decreasing out-index table, a node range and a node covered by
the table but outside that range for which `edges(node_id)` is returned without any check
and holds an edge id outside the view's loaded edge range, on which `GetEdgeDest` reads
outside the loaded edge array: over the table of the conversion test and the view of the
nodes `[2, 5)` (edge range `[1, 5)`), node 7 has the edge 7, whose local offset 6 is not
below the buffer length 4, and node 1 has the edge 0, whose local offset `0 - 1` wraps to
`2 ^ 64 - 1`. -/
theorem mirror_edges_outside_view :
    ∃ (oiv : OutIndexView) (first_node last_node node_id : Nat) (v : PartialGraphView)
      (r : StandardRange) (edge_id : Nat),
      NonDecreasing oiv.gr_view.out_indexes ∧
      Make (memoryLoader movieDests) 4 () oiv first_node last_node [] [] = .ok (.ok v) ∧
      node_id < oiv.gr_view.out_indexes.length ∧
      ¬ (first_node ≤ node_id ∧ node_id < last_node) ∧
      v.edges node_id = .ok r ∧ edge_id ∈ r.toList ∧
      ¬ (v.edge_range_.1 ≤ edge_id ∧ edge_id < v.edge_range_.2) ∧
      ¬ (sub64 edge_id v.edge_range_.1 < v.edge_range_.2 - v.edge_range_.1) ∧
      v.GetEdgeDest edge_id = .error .outOfBounds ∧
      v.edges 1 = .ok (MakeStandardRange 0 1) ∧
      sub64 0 v.edge_range_.1 = 2 ^ 64 - 1 ∧
      v.GetEdgeDest 0 = .error .outOfBounds :=
  ⟨movieOutIndexView, 2, 5, 7, movieSlice, MakeStandardRange 7 8, 7,
    by decide, rfl, by decide, by decide, rfl, by decide, by decide, by decide, rfl, rfl,
    by decide, rfl⟩

theorem readWord_congr {v v' : List Nat} {i : Nat} (h : v[i]? = v'[i]?) :
    readWord v i = readWord v' i := by
  simp only [readWord, h]

theorem readWord_defined_iff (v : List Nat) (i : Nat) :
    (∃ x, readWord v i = .ok x) ↔ i < v.length := by
  constructor
  · rintro ⟨x, hx⟩; exact (readWord_ok hx).1
  · intro h; exact ⟨_, readWord_of_lt h⟩

/-- The result of `EdgeBegin` depends on the table only at the positions `EdgeBeginReads`,
and is defined exactly when they are inside the table. -/
theorem EdgeBegin_reads (pfx pfx' : tsuba.GRPrefix) (n : Nat) :
    ((∀ p, p ∈ EdgeBeginReads n → pfx.out_indexes[p]? = pfx'.out_indexes[p]?) →
      EdgeBegin pfx n = EdgeBegin pfx' n) ∧
    ((∃ x, EdgeBegin pfx n = .ok x) ↔
      ∀ p, p ∈ EdgeBeginReads n → p < pfx.out_indexes.length) := by
  by_cases h0 : n = 0
  · subst h0
    exact ⟨fun _ => rfl, ⟨fun _ p hp => by simp [EdgeBeginReads] at hp, fun _ => ⟨0, rfl⟩⟩⟩
  · simp only [EdgeBegin, EdgeBeginReads, h0, if_false, List.mem_singleton, forall_eq,
      readWord_defined_iff, iff_self, and_true]
    exact readWord_congr

/-- The result of `EdgeEnd` depends on the table only at the position `EdgeEndReads`, and
is defined exactly when it is inside the table. -/
theorem EdgeEnd_reads (pfx pfx' : tsuba.GRPrefix) (n : Nat) :
    ((∀ p, p ∈ EdgeEndReads n → pfx.out_indexes[p]? = pfx'.out_indexes[p]?) →
      EdgeEnd pfx n = EdgeEnd pfx' n) ∧
    ((∃ x, EdgeEnd pfx n = .ok x) ↔
      ∀ p, p ∈ EdgeEndReads n → p < pfx.out_indexes.length) := by
  simp only [EdgeEnd, EdgeEndReads, List.mem_singleton, forall_eq, readWord_defined_iff,
    iff_self, and_true]
  exact readWord_congr

/-- **C30.** `Make` reads the out-index table only at the positions `first_node - 1` (when
`first_node > 0`) and `last_node - 1` (when `last_node > 0`), and `edges(n)` reads it only
at the positions `n - 1` (when `n > 0`) and `n`: the results depend on the table at these
positions only and are defined exactly when these positions are inside the table. Hence
when `first_node ≤ last_node` and the table covers `[0, last_node]`, `Make` and `edges(n)`
for every `n` in `[first_node, last_node)` read no position outside the table, and node id
0 causes no read before the table. -/
theorem table_reads :
    (∀ first_node last_node, MakeReads first_node last_node =
      (if first_node = 0 then [] else [first_node - 1]) ++
        (if last_node = 0 then [] else [last_node - 1])) ∧
    (∀ n, edgesReads n = (if n = 0 then [] else [n - 1]) ++ [n]) ∧
    (∀ (LoadPartial : Unit → Nat × Nat → Nat × Nat → Nat → Nat → List String →
          List String → Except String tsuba.RDG)
        (sizeofEdge : Nat) (oiv oiv' : OutIndexView) (first_node last_node : Nat)
        (np ep : List String),
      oiv.view_offset = oiv'.view_offset →
      (∀ p, p ∈ MakeReads first_node last_node →
        oiv.gr_view.out_indexes[p]? = oiv'.gr_view.out_indexes[p]?) →
      (Make LoadPartial sizeofEdge () oiv first_node last_node np ep).map
          (Except.map (fun v => (v.rdg_, v.node_range_, v.edge_range_))) =
        (Make LoadPartial sizeofEdge () oiv' first_node last_node np ep).map
          (Except.map (fun v => (v.rdg_, v.node_range_, v.edge_range_)))) ∧
    (∀ (LoadPartial : Unit → Nat × Nat → Nat × Nat → Nat → Nat → List String →
          List String → Except String tsuba.RDG)
        (sizeofEdge : Nat) (oiv : OutIndexView) (first_node last_node : Nat)
        (np ep : List String),
      (∃ r, Make LoadPartial sizeofEdge () oiv first_node last_node np ep = .ok r) ↔
        ∀ p, p ∈ MakeReads first_node last_node → p < oiv.gr_view.out_indexes.length) ∧
    (∀ (v v' : PartialGraphView) (n : Nat),
      (∀ p, p ∈ edgesReads n → v.prefix_.out_indexes[p]? = v'.prefix_.out_indexes[p]?) →
      v.edges n = v'.edges n) ∧
    (∀ (v : PartialGraphView) (n : Nat),
      (∃ r, v.edges n = .ok r) ↔ ∀ p, p ∈ edgesReads n → p < v.prefix_.out_indexes.length) ∧
    (∀ (len first_node last_node : Nat), first_node ≤ last_node → last_node < len →
      (∀ p, p ∈ MakeReads first_node last_node → p < len) ∧
      ∀ n, first_node ≤ n → n < last_node → ∀ p, p ∈ edgesReads n → p < len) ∧
    (EdgeBeginReads 0 = [] ∧ ∀ pfx : tsuba.GRPrefix, EdgeBegin pfx 0 = .ok 0) := by
  refine ⟨fun _ _ => rfl, fun _ => rfl, ?_, ?_, ?_, ?_, ?_, rfl, fun _ => rfl⟩
  · intro L s oiv oiv' fn ln np ep hoff hag
    have h1 := (EdgeBegin_reads oiv.gr_view oiv'.gr_view fn).1
      (fun p hp => hag p (by simp only [MakeReads, List.mem_append]; exact Or.inl hp))
    have h2 := (EdgeBegin_reads oiv.gr_view oiv'.gr_view ln).1
      (fun p hp => hag p (by simp only [MakeReads, List.mem_append]; exact Or.inr hp))
    simp only [Make, ← h1, ← h2, ← hoff]
    cases EdgeBegin oiv.gr_view fn with
    | error e => rfl
    | ok fe =>
      cases EdgeBegin oiv.gr_view ln with
      | error e => rfl
      | ok le =>
        simp only [bind, Except.bind, pure, Except.pure]
        cases L () (fn, ln) (fe, le) (add64 oiv.view_offset (mul64 fe s))
          (sub64 (add64 oiv.view_offset (mul64 le s)) (add64 oiv.view_offset (mul64 fe s)))
          np ep <;> rfl
  · intro L s oiv fn ln np ep
    have h1 := (EdgeBegin_reads oiv.gr_view oiv.gr_view fn).2
    have h2 := (EdgeBegin_reads oiv.gr_view oiv.gr_view ln).2
    simp only [MakeReads, List.mem_append]
    constructor
    · rintro ⟨r, hr⟩
      obtain ⟨fe, le, hfe, hle, -⟩ := Make_ok hr
      rintro p (hp | hp)
      · exact h1.mp ⟨fe, hfe⟩ p hp
      · exact h2.mp ⟨le, hle⟩ p hp
    · intro h
      obtain ⟨fe, hfe⟩ := h1.mpr (fun p hp => h p (Or.inl hp))
      obtain ⟨le, hle⟩ := h2.mpr (fun p hp => h p (Or.inr hp))
      exact ⟨_, Make_of_EdgeBegin L s () oiv fn ln np ep hfe hle⟩
  · intro v v' n hag
    have h1 := (EdgeBegin_reads v.prefix_ v'.prefix_ n).1
      (fun p hp => hag p (by simp only [edgesReads, List.mem_append]; exact Or.inl hp))
    have h2 := (EdgeEnd_reads v.prefix_ v'.prefix_ n).1
      (fun p hp => hag p (by simp only [edgesReads, List.mem_append]; exact Or.inr hp))
    simp only [edges, h1, h2]
  · intro v n
    have h1 := (EdgeBegin_reads v.prefix_ v.prefix_ n).2
    have h2 := (EdgeEnd_reads v.prefix_ v.prefix_ n).2
    simp only [edgesReads, List.mem_append]
    constructor
    · rintro ⟨r, hr⟩
      simp only [edges] at hr
      cases hb : EdgeBegin v.prefix_ n with
      | error e => simp [hb, bind, Except.bind] at hr
      | ok b =>
        cases he : EdgeEnd v.prefix_ n with
        | error e => simp [hb, he, bind, Except.bind] at hr
        | ok e =>
          rintro p (hp | hp)
          · exact h1.mp ⟨b, hb⟩ p hp
          · exact h2.mp ⟨e, he⟩ p hp
    · intro h
      obtain ⟨b, hb⟩ := h1.mpr (fun p hp => h p (Or.inl hp))
      obtain ⟨e, he⟩ := h2.mpr (fun p hp => h p (Or.inr hp))
      exact ⟨MakeStandardRange b e, by
        simp only [edges, hb, he, bind, Except.bind, pure, Except.pure]⟩
  · intro len fn ln hle hlt
    constructor
    · intro p hp
      simp only [MakeReads, EdgeBeginReads, List.mem_append] at hp
      rcases hp with hp | hp <;> split at hp <;> simp at hp <;> omega
    · intro n h1 h2 p hp
      simp only [edgesReads, EdgeBeginReads, EdgeEndReads, List.mem_append,
        List.mem_singleton] at hp
      rcases hp with hp | hp
      · split at hp <;> simp at hp; omega
      · omega

end PartialGraphView

end galois

/-! ## Range reset: safety, the reference loop, unused bits of the last word -/

namespace katana

namespace DynamicBitset

/-- **C25.** For every bitset with the word count of the data model and `num_bits > 0`, and
every `begin ≤ end < num_bits`, `reset(begin, end)` returns without a fault (no debug
assertion fails, no shift amount is 64 or more, no word index is outside the backing
array), and for the values that the code computes: both assertions on `begin` and `end`
hold, the filled words lie inside the array, each `diff` is below 64, every left-shift
amount is between 1 and 63, `end - vec_end + 1` is computed from `vec_end ≤ end` where it is
used, and the two word indices `begin / 64` and `end / 64` are below the word count. -/
theorem reset_range_safe (b : DynamicBitset) (begin end_ : Nat)
    (hwf : b.WellFormed) (hpos : 0 < b.num_bits) (hbe : begin ≤ end_)
    (hen : end_ < b.num_bits) :
    (∃ b', b.reset_range begin end_ = .ok b') ∧
    begin ≤ sub64 b.num_bits 1 ∧ end_ ≤ sub64 b.num_bits 1 ∧
    ∀ vec_begin vec_end vb64 ve64,
      vec_begin = sub64 (add64 begin bits_uint64) 1 / bits_uint64 →
      vec_end = (if end_ = sub64 b.num_bits 1 then b.bitvec.length
        else add64 end_ 1 / bits_uint64) →
      vb64 = mul64 vec_begin bits_uint64 → ve64 = mul64 vec_end bits_uint64 →
      (vec_begin < vec_end → vec_end ≤ b.bitvec.length) ∧
      (begin < vb64 →
        sub64 vb64 begin < 64 ∧ 1 ≤ sub64 64 (sub64 vb64 begin) ∧
        sub64 64 (sub64 vb64 begin) ≤ 63 ∧ begin / bits_uint64 < b.bitvec.length) ∧
      (vb64 > ve64 → begin < vb64 →
        ve64 ≤ end_ ∧ 1 ≤ add64 (sub64 end_ ve64) 1 ∧ add64 (sub64 end_ ve64) 1 ≤ 63) ∧
      (¬ vb64 > ve64 → end_ ≥ ve64 →
        add64 (sub64 end_ ve64) 1 < 64 ∧ 1 ≤ add64 (sub64 end_ ve64) 1 ∧
        end_ / bits_uint64 < b.bitvec.length) := by
  obtain ⟨v, hr, -, -⟩ := reset_range_eq b begin end_ hwf hbe hen
  obtain ⟨hn, hL⟩ := hwf
  have e1 : sub64 b.num_bits 1 = b.num_bits - 1 := sub64_eq (by omega) (by omega)
  refine ⟨⟨_, hr⟩, by omega, by omega, ?_⟩
  intro vec_begin vec_end vb64 ve64 hvb hve hvb64 hve64
  have e2 : sub64 (add64 begin bits_uint64) 1 / bits_uint64 = (begin + 63) / 64 := by
    simp only [sub64, add64, bits_uint64, U64] at *; omega
  have e3 : add64 end_ 1 / bits_uint64 = (end_ + 1) / 64 := by
    rw [add64_eq (by omega)]; rfl
  rw [e2] at hvb
  rw [e1, e3] at hve
  have hveL : vec_end ≤ b.bitvec.length := by split at hve <;> omega
  have hve1 : vec_end * 64 ≤ end_ + 64 := by split at hve <;> omega
  have hve2 : end_ < vec_end * 64 + 63 := by split at hve <;> omega
  have hve3 : vec_end * 64 ≤ end_ + 1 ∨ vec_end = b.bitvec.length := by
    split at hve <;> omega
  have m1 : vb64 = vec_begin * 64 := by
    rw [hvb64]; exact mul64_eq (by simp only [bits_uint64, U64] at *; omega)
  have m2 : ve64 = vec_end * 64 := by
    rw [hve64]; exact mul64_eq (by simp only [bits_uint64, U64] at *; omega)
  have f1 : sub64 vb64 begin = vb64 - begin := sub64_eq (by omega) (by omega)
  have f2 : sub64 64 (vb64 - begin) = 64 - (vb64 - begin) :=
    sub64_eq (by omega) (by simp only [U64]; omega)
  have f3 : ve64 ≤ end_ → add64 (sub64 end_ ve64) 1 = end_ - ve64 + 1 := by
    intro h
    rw [sub64_eq h (by omega), add64_eq (by omega)]
  simp only [bits_uint64]
  refine ⟨fun _ => hveL, ?_, ?_, ?_⟩
  · intro h
    rw [f1, f2]
    omega
  · intro h1 h2
    have h3 : ve64 ≤ end_ := by omega
    rw [f3 h3]
    omega
  · intro h1 h2
    rw [f3 h2]
    omega

/-- Witness of `reset_range_safe`: bits 66 to 70 of a 131-bit bitset, a range inside one
word. -/
theorem reset_range_safe_witness :
    (DynamicBitset.mk [5, 2 ^ 64 - 1, 7] 131).WellFormed ∧
    ((∃ b', (DynamicBitset.mk [5, 2 ^ 64 - 1, 7] 131).reset_range 66 70 = .ok b') ∧
    66 ≤ sub64 (DynamicBitset.mk [5, 2 ^ 64 - 1, 7] 131).num_bits 1 ∧
    70 ≤ sub64 (DynamicBitset.mk [5, 2 ^ 64 - 1, 7] 131).num_bits 1 ∧
    ∀ vec_begin vec_end vb64 ve64,
      vec_begin = sub64 (add64 66 bits_uint64) 1 / bits_uint64 →
      vec_end = (if 70 = sub64 (DynamicBitset.mk [5, 2 ^ 64 - 1, 7] 131).num_bits 1
        then (DynamicBitset.mk [5, 2 ^ 64 - 1, 7] 131).bitvec.length
        else add64 70 1 / bits_uint64) →
      vb64 = mul64 vec_begin bits_uint64 → ve64 = mul64 vec_end bits_uint64 →
      (vec_begin < vec_end →
        vec_end ≤ (DynamicBitset.mk [5, 2 ^ 64 - 1, 7] 131).bitvec.length) ∧
      (66 < vb64 →
        sub64 vb64 66 < 64 ∧ 1 ≤ sub64 64 (sub64 vb64 66) ∧
        sub64 64 (sub64 vb64 66) ≤ 63 ∧
        66 / bits_uint64 < (DynamicBitset.mk [5, 2 ^ 64 - 1, 7] 131).bitvec.length) ∧
      (vb64 > ve64 → 66 < vb64 →
        ve64 ≤ 70 ∧ 1 ≤ add64 (sub64 70 ve64) 1 ∧ add64 (sub64 70 ve64) 1 ≤ 63) ∧
      (¬ vb64 > ve64 → 70 ≥ ve64 →
        add64 (sub64 70 ve64) 1 < 64 ∧ 1 ≤ add64 (sub64 70 ve64) 1 ∧
        70 / bits_uint64 < (DynamicBitset.mk [5, 2 ^ 64 - 1, 7] 131).bitvec.length)) :=
  ⟨by decide, reset_range_safe _ 66 70 (by decide) (by decide) (by decide) (by decide)⟩

end DynamicBitset

end katana

namespace katana

namespace DynamicBitset

theorem words64_iff_getD (v : List Nat) : Words64 v ↔ ∀ w, v.getD w 0 < U64 := by
  constructor
  · intro h w
    by_cases hw : w < v.length
    · rw [List.getD_eq_getElem v 0 hw]
      exact h _ (List.getElem_mem hw)
    · rw [getD_of_length_le (Nat.le_of_not_lt hw)]
      decide
  · intro h x hx
    obtain ⟨i, hi, rfl⟩ := List.mem_iff_getElem.mp hx
    have := h i
    rw [List.getD_eq_getElem v 0 hi] at this
    exact this

theorem words64_set {v : List Nat} (h : Words64 v) (i x : Nat) (hx : x < U64) :
    Words64 (v.set i x) := by
  rw [words64_iff_getD] at h ⊢
  intro w
  rw [getD_set]
  split
  · exact hx
  · exact h w

theorem testBit_of_words64 {v : List Nat} (h : Words64 v) (w : Nat) {k : Nat} (hk : 64 ≤ k) :
    (v.getD w 0).testBit k = false := by
  have h1 := (words64_iff_getD v).mp h w
  apply Nat.testBit_lt_two_pow
  calc v.getD w 0 < 2 ^ 64 := h1
    _ ≤ 2 ^ k := Nat.pow_le_pow_right (by decide) hk

theorem fillZero_words64 {v v' : List Nat} {lo hi : Nat} (h : fillZero v lo hi = .ok v') :
    Words64 v → Words64 v' := by
  intro hW
  unfold fillZero at h
  split at h
  · cases h
    rw [words64_iff_getD] at hW ⊢
    intro w
    rw [getD_mapIdx]
    split
    · split
      · decide
      · exact hW w
    · decide
  · cases h

theorem andWord_words64 {v v' : List Nat} {i m : Nat} (h : andWord v i m = .ok v') :
    Words64 v → Words64 v' := by
  intro hW
  rw [andWord_eq] at h
  split at h
  · cases h
    exact words64_set hW _ _
      (Nat.lt_of_le_of_lt Nat.and_le_left ((words64_iff_getD v).mp hW i))
  · cases h

/-- Every call of the range `reset` that returns leaves 64-bit words in the backing array
when they were 64-bit words before. -/
theorem reset_range_words64 {b b' : DynamicBitset} {begin end_ : Nat}
    (h : b.reset_range begin end_ = .ok b') (hW : Words64 b.bitvec) : Words64 b'.bitvec := by
  unfold reset_range at h
  by_cases h0 : b.num_bits = 0
  · simp only [h0, if_true, pure, Except.pure, Except.ok.injEq] at h
    subst h; exact hW
  · simp only [h0, if_false] at h
    generalize sub64 (add64 begin bits_uint64) 1 / bits_uint64 = vb at h
    generalize (if end_ = sub64 b.num_bits 1 then b.bitvec.length
      else add64 end_ 1 / bits_uint64) = ve at h
    generalize mul64 vb bits_uint64 = vb64 at h
    generalize mul64 ve bits_uint64 = ve64 at h
    generalize sub64 vb64 begin = d1 at h
    generalize add64 (sub64 end_ ve64) 1 = d2 at h
    generalize begin / bits_uint64 = wb at h
    generalize end_ / bits_uint64 = we at h
    repeat'
      first
      | (rw [bind_fillZero_eq_ok] at h
         obtain ⟨_, hx, h⟩ := h
         have := fillZero_words64 hx
         clear hx)
      | (rw [bind_andWord_eq_ok] at h
         obtain ⟨_, hx, h⟩ := h
         have := andWord_words64 hx
         clear hx)
      | rw [pure_bind] at h
      | (rw [bind_eq_ok] at h
         obtain ⟨_, -, h⟩ := h)
      | split at h
    all_goals
      have hb := Except.ok.inj h
      subst hb
      solve_by_elim

theorem reset_range_slow_step_eq (v : List Nat) (i : Nat) :
    reset_range_slow_step v i =
      if i / 64 < v.length then
        .ok (v.set (i / 64) (v.getD (i / 64) 0 &&& not64 (2 ^ (i % 64))))
      else .error .outOfBounds := by
  have hk : i % 64 < 64 := Nat.mod_lt _ (by decide)
  simp only [reset_range_slow_step, bits_uint64, shl64_one hk, andWord_eq]
  rfl

/-- The loop of the reference implementation over `n` consecutive indices from `begin`,
all of them inside the backing array: it returns, keeps the number of words, clears bit
`k` of word `w` exactly when `begin ≤ 64 * w + k < begin + n`, and keeps words 64-bit. -/
theorem slow_fold (v : List Nat) (begin n : Nat) (h : begin + n ≤ 64 * v.length) :
    ∃ v', (List.range' begin n).foldlM reset_range_slow_step v = .ok v' ∧
      v'.length = v.length ∧ (Words64 v → Words64 v') ∧
      ∀ w k, k < 64 → (v'.getD w 0).testBit k =
        ((v.getD w 0).testBit k && !decide (begin ≤ 64 * w + k ∧ 64 * w + k < begin + n)) := by
  induction n with
  | zero =>
    refine ⟨v, rfl, rfl, id, ?_⟩
    intro w k _
    have : ¬ (begin ≤ 64 * w + k ∧ 64 * w + k < begin + 0) := by omega
    simp only [this, decide_False, Bool.not_false, Bool.and_true]
  | succ n ih =>
    obtain ⟨v1, hf, hl, hW, hbits⟩ := ih (by omega)
    have hi : (begin + n) / 64 < v1.length := by omega
    refine ⟨v1.set ((begin + n) / 64)
      (v1.getD ((begin + n) / 64) 0 &&& not64 (2 ^ ((begin + n) % 64))), ?_, ?_, ?_, ?_⟩
    · rw [List.range'_concat, List.foldlM_append, hf, Nat.one_mul]
      simp only [List.foldlM_cons, List.foldlM_nil, reset_range_slow_step_eq]
      simp only [bind, Except.bind, if_pos hi, pure, Except.pure]
    · rw [List.length_set, hl]
    · intro h0
      have h1 := hW h0
      exact words64_set h1 _ _
        (Nat.lt_of_le_of_lt Nat.and_le_left ((words64_iff_getD v1).mp h1 _))
    · intro w k hk
      have hm : (begin + n) % 64 < 64 := Nat.mod_lt _ (by decide)
      rw [getD_set]
      by_cases hw : (begin + n) / 64 = w
      · have hw2 : w < v1.length := by omega
        simp only [hw, hw2, and_self, if_true, Nat.testBit_and, hbits w k hk,
          testBit_not64_two_pow hm]
        rw [Bool.eq_iff_iff]
        simp only [Bool.true_and, Bool.or_eq_true, Bool.and_eq_true, Bool.not_eq_true',
          decide_eq_true_eq, decide_eq_false_iff_not, Bool.false_eq_true, true_iff, false_iff,
          not_not]
        constructor
        · rintro ⟨⟨h1, h2⟩, -, h3⟩
          exact ⟨h1, by omega⟩
        · rintro ⟨h1, h2⟩
          exact ⟨⟨h1, by omega⟩, hk, by omega⟩
      · simp only [hw, false_and, if_false, hbits w k hk]
        have : (begin ≤ 64 * w + k ∧ 64 * w + k < begin + n) ↔
            (begin ≤ 64 * w + k ∧ 64 * w + k < begin + (n + 1)) := by omega
        simp only [this]

theorem list_eq_of_getD {v v' : List Nat} (hl : v.length = v'.length)
    (h : ∀ w, v.getD w 0 = v'.getD w 0) : v = v' := by
  apply List.ext_getElem hl
  intro i h1 h2
  have := h i
  rw [List.getD_eq_getElem v 0 h1, List.getD_eq_getElem v' 0 h2] at this
  exact this

theorem reset_range_slow_eq {b : DynamicBitset} {begin end_ : Nat} {v : List Nat}
    (h : (List.range' begin (end_ + 1 - begin)).foldlM reset_range_slow_step b.bitvec = .ok v) :
    b.reset_range_slow begin end_ = .ok { b with bitvec := v } := by
  simp only [reset_range_slow, h]
  rfl

/-- **C24 (counterexample).** The bitset of 10 bits whose one backing word is 1024 (bit 10
of the word, an unused bit, is 1) has one word for its 10 bits, a 64-bit word; the
word-and-mask `reset(0, 9)` leaves the word 0, and the bit-by-bit loop of the comment leaves
the word 1024. -/
theorem reset_range_slow_counterexample :
    (DynamicBitset.mk [1024] 10).WellFormed ∧ Words64 [1024] ∧
    (DynamicBitset.mk [1024] 10).reset_range 0 9 = .ok (DynamicBitset.mk [0] 10) ∧
    (DynamicBitset.mk [1024] 10).reset_range_slow 0 9 = .ok (DynamicBitset.mk [1024] 10) ∧
    (DynamicBitset.mk [1024] 10).reset_range 0 9 ≠
      (DynamicBitset.mk [1024] 10).reset_range_slow 0 9 := by
  have e1 : (DynamicBitset.mk [1024] 10).reset_range 0 9 = .ok (DynamicBitset.mk [0] 10) :=
    rfl
  have e2 : (DynamicBitset.mk [1024] 10).reset_range_slow 0 9 =
      .ok (DynamicBitset.mk [1024] 10) := rfl
  refine ⟨by decide, by decide, e1, e2, ?_⟩
  rw [e1, e2]
  intro h
  have := Except.ok.inj h
  revert this
  decide

/-- **C24 (amended).** For every bitset whose backing word count is `ceil(num_bits / 64)`,
with 64-bit words, and every `begin ≤ end < num_bits`, the word-and-mask implementation of
`reset(begin, end)` and the bit-by-bit loop of the comment both return, with the same
`num_bits` and word count, the same value of every bit below `num_bits` of the backing
array and the same `test(j)` for every `j`; the backing words are identical when
`end < num_bits - 1` or when the unused bits of the last word are 0 before the call. -/
theorem reset_range_refines_slow (b : DynamicBitset) (begin end_ : Nat)
    (hwf : b.WellFormed) (hW : Words64 b.bitvec) (hbe : begin ≤ end_)
    (hen : end_ < b.num_bits) :
    ∃ b1 b2, b.reset_range begin end_ = .ok b1 ∧ b.reset_range_slow begin end_ = .ok b2 ∧
      b1.num_bits = b.num_bits ∧ b2.num_bits = b.num_bits ∧
      b1.bitvec.length = b.bitvec.length ∧ b2.bitvec.length = b.bitvec.length ∧
      (∀ j, j < b.num_bits → b1.bit j = b2.bit j) ∧
      (∀ j, b1.test j = b2.test j) ∧
      ((end_ < b.num_bits - 1 ∨ PaddingClear b) → b1 = b2) := by
  obtain ⟨v, hr, hl, hbits⟩ := reset_range_eq b begin end_ hwf hbe hen
  have hlen := hwf.2
  obtain ⟨v', hf, hl', hW', hbits'⟩ :=
    slow_fold b.bitvec begin (end_ + 1 - begin) (by omega)
  have hWv : Words64 v := reset_range_words64 hr hW
  have hWv' : Words64 v' := hW' hW
  have hcore : ∀ w k, k < 64 → (64 * w + k < b.num_bits ∨ end_ < b.num_bits - 1 ∨
      (b.bitvec.getD w 0).testBit k = false) →
      (v.getD w 0).testBit k = (v'.getD w 0).testBit k := by
    intro w k hk hc
    rw [hbits w k hk, hbits' w k hk]
    cases hb : (b.bitvec.getD w 0).testBit k
    · rfl
    · have hc' : 64 * w + k < b.num_bits ∨ end_ < b.num_bits - 1 := by
        rcases hc with h | h | h
        · exact Or.inl h
        · exact Or.inr h
        · rw [hb] at h; cases h
      rw [Bool.eq_iff_iff]
      simp only [Bool.true_and, Bool.not_eq_true', decide_eq_false_iff_not]
      omega
  have hbit : ∀ j, j < b.num_bits →
      (v.getD (j / 64) 0).testBit (j % 64) = (v'.getD (j / 64) 0).testBit (j % 64) := by
    intro j hj
    exact hcore _ _ (Nat.mod_lt _ (by decide)) (Or.inl (by omega))
  refine ⟨{ b with bitvec := v }, { b with bitvec := v' }, hr, reset_range_slow_eq hf,
    rfl, rfl, hl, hl', fun j hj => hbit j hj, ?_, ?_⟩
  · intro j
    by_cases hj : j < b.num_bits
    · exact test_congr j rfl (by show v.length = v'.length; omega) (hbit j hj)
    · rw [test_asserts { b with bitvec := v } j hj, test_asserts { b with bitvec := v' } j hj]
  · intro hp
    have : v = v' := by
      apply list_eq_of_getD (by omega)
      intro w
      apply Nat.eq_of_testBit_eq
      intro k
      by_cases hk : k < 64
      · apply hcore w k hk
        rcases hp with hp | hp
        · exact Or.inr (Or.inl hp)
        · by_cases hlt : 64 * w + k < b.num_bits
          · exact Or.inl hlt
          · exact Or.inr (Or.inr (hp w k hk (by omega)))
      · rw [testBit_of_words64 hWv w (by omega), testBit_of_words64 hWv' w (by omega)]
    rw [this]

/-- Witness of `reset_range_refines_slow`: bits 66 to 130 of a 131-bit bitset whose unused
bits are 0. -/
theorem reset_range_refines_slow_witness :
    (DynamicBitset.mk [5, 2 ^ 64 - 1, 7] 131).WellFormed ∧
    ∃ b1 b2, (DynamicBitset.mk [5, 2 ^ 64 - 1, 7] 131).reset_range 66 130 = .ok b1 ∧
      (DynamicBitset.mk [5, 2 ^ 64 - 1, 7] 131).reset_range_slow 66 130 = .ok b2 ∧
      b1.num_bits = (DynamicBitset.mk [5, 2 ^ 64 - 1, 7] 131).num_bits ∧
      b2.num_bits = (DynamicBitset.mk [5, 2 ^ 64 - 1, 7] 131).num_bits ∧
      b1.bitvec.length = (DynamicBitset.mk [5, 2 ^ 64 - 1, 7] 131).bitvec.length ∧
      b2.bitvec.length = (DynamicBitset.mk [5, 2 ^ 64 - 1, 7] 131).bitvec.length ∧
      (∀ j, j < (DynamicBitset.mk [5, 2 ^ 64 - 1, 7] 131).num_bits → b1.bit j = b2.bit j) ∧
      (∀ j, b1.test j = b2.test j) ∧
      ((130 < (DynamicBitset.mk [5, 2 ^ 64 - 1, 7] 131).num_bits - 1 ∨
        PaddingClear (DynamicBitset.mk [5, 2 ^ 64 - 1, 7] 131)) → b1 = b2) :=
  ⟨by decide,
    reset_range_refines_slow _ 66 130 (by decide) (by decide) (by decide) (by decide)⟩

/-! ### Unused bits of the last word -/

theorem filter_range_of_false (p : Nat → Bool) (M d : Nat)
    (h : ∀ i, M ≤ i → i < M + d → p i = false) :
    (List.range (M + d)).filter p = (List.range M).filter p := by
  rw [List.range_add, List.filter_append]
  have : ((List.range d).map (fun x => M + x)).filter p = [] := by
    rw [List.filter_eq_nil_iff]
    intro a ha
    obtain ⟨x, hx, rfl⟩ := List.mem_map.mp ha
    rw [List.mem_range] at hx
    rw [h (M + x) (by omega) (by omega)]
    exact Bool.false_ne_true
  rw [this, List.append_nil]

theorem isSet_eq (b : DynamicBitset) (i : Nat) :
    b.isSet i = (decide (i < b.num_bits) && b.bit i) := by
  by_cases hi : i < b.num_bits
  · by_cases hw : i / 64 < b.bitvec.length
    · simp only [isSet, test_eq_bit hi hw, hi, decide_True, Bool.true_and]
    · have hk : i % 64 < 64 := Nat.mod_lt _ (by decide)
      have h1 : b.bitvec[i / 64]? = none := List.getElem?_eq_none (by omega)
      have h2 : b.bit i = false := by
        simp only [bit, getD_of_length_le (Nat.le_of_not_lt hw), Nat.zero_testBit]
      have h3 : b.test i = .error .outOfBounds := by
        simp only [test, debugAssert, hi, if_true, bits_uint64, shl64_one hk, readWord, h1]
        rfl
      simp only [isSet, h3, h2, Bool.and_false]
  · simp only [isSet, test_asserts b i hi, hi, decide_False, Bool.false_and]

theorem getOffsets_eq (b : DynamicBitset) :
    b.GetOffsets = (List.range b.num_bits).filter (fun i => b.bit i) := by
  unfold GetOffsets
  apply List.filter_congr
  intro x hx
  rw [List.mem_range] at hx
  simp only [isSet_eq, hx, decide_True, Bool.true_and]

/-- When the unused bits of the backing array are 0, the number of 1 bits over all backing
words is the number of `i < num_bits` for which `test(i)` returns `true`. -/
theorem ones_eq_of_paddingClear {b : DynamicBitset} (h : PaddingClear b) :
    b.onesInWords = b.onesBelowNumBits := by
  have e : b.onesBelowNumBits = ((List.range b.num_bits).filter (fun i => b.bit i)).length := by
    unfold onesBelowNumBits
    rw [← getOffsets_eq]; rfl
  rw [e]
  unfold onesInWords
  by_cases hc : b.num_bits ≤ 64 * b.bitvec.length
  · have e2 : 64 * b.bitvec.length = b.num_bits + (64 * b.bitvec.length - b.num_bits) := by
      omega
    rw [e2, filter_range_of_false]
    intro i h1 _
    exact h (i / 64) (i % 64) (Nat.mod_lt _ (by decide)) (by omega)
  · have e2 : b.num_bits = 64 * b.bitvec.length + (b.num_bits - 64 * b.bitvec.length) := by
      omega
    rw [e2, filter_range_of_false]
    intro i h1 _
    simp only [bit, getD_of_length_le (show b.bitvec.length ≤ i / 64 by omega),
      Nat.zero_testBit]

theorem reachableValid_reachable {b : DynamicBitset} (h : ReachableValid b) : Reachable b := by
  induction h with
  | construct => exact .construct
  | resize n uninit _ hn ih => exact .resize n uninit ih hn
  | reset _ ih => exact .reset ih
  | reset_range begin end_ _ _ _ hr ih => exact .reset_range begin end_ ih hr
  | set index spurious old _ _ hr ih => exact .set index spurious old ih hr
  | reset_index index spurious old _ _ hr ih => exact .reset_index index spurious old ih hr

/-- A reachable state has the word count of the data model, or no backing word at all
(after a `resize(n)` whose word count wrapped to 0). -/
theorem reachableValid_shape {b : DynamicBitset} (h : ReachableValid b) :
    b.WellFormed ∨ b.bitvec.length = 0 := by
  obtain ⟨h1, h2⟩ := reachable_word_count (reachableValid_reachable h)
  by_cases hn : b.num_bits + 63 < U64
  · exact Or.inl (reachable_ceilWords (reachableValid_reachable h) hn).2
  · right
    rw [h2]
    simp only [sub64, add64, bits_uint64, U64] at *
    omega

theorem paddingClear_of_length_zero {b : DynamicBitset} (h : b.bitvec.length = 0) :
    PaddingClear b := by
  intro w k _ _
  rw [getD_of_length_le (by omega), Nat.zero_testBit]

theorem getD_map_zero (v : List Nat) (w : Nat) : (v.map (fun _ => 0)).getD w 0 = 0 := by
  by_cases hw : w < (v.map (fun _ => 0)).length
  · rw [List.getD_eq_getElem _ 0 hw, List.getElem_map]
  · exact getD_of_length_le (Nat.le_of_not_lt hw)

theorem paddingClear_reset (b : DynamicBitset) : PaddingClear b.reset := by
  intro w k _ _
  simp only [reset, getD_map_zero, Nat.zero_testBit]

theorem paddingClear_reset_range {b b' : DynamicBitset} {begin end_ : Nat}
    (hs : b.WellFormed ∨ b.bitvec.length = 0) (hp : PaddingClear b) (hbe : begin ≤ end_)
    (hen : end_ < b.num_bits) (hr : b.reset_range begin end_ = .ok b') : PaddingClear b' := by
  rcases hs with hwf | h0
  · obtain ⟨v, hv, -, hbits⟩ := reset_range_eq b begin end_ hwf hbe hen
    rw [hv] at hr
    have hb := Except.ok.inj hr
    subst hb
    intro w k hk hge
    rw [hbits w k hk, hp w k hk hge, Bool.false_and]
  · exact paddingClear_of_length_zero (by rw [(reset_range_shape hr).2]; exact h0)

theorem paddingClear_set {b b' : DynamicBitset} {i spurious : Nat} {old : Bool}
    (hs : b.WellFormed ∨ b.bitvec.length = 0) (hp : PaddingClear b) (hi : i < b.num_bits)
    (hr : b.set i spurious = .ok (old, b')) : PaddingClear b' := by
  rcases hs with hwf | h0
  · rw [set_eq spurious (word_lt_of_wellFormed hwf hi)] at hr
    have hb := congrArg Prod.snd (Except.ok.inj hr)
    simp only at hb
    subst hb
    split
    · exact hp
    · intro w k hk hge
      have h1 := hp w k hk hge
      simp only [getD_set]
      split
      · rename_i hc
        have hge' : b.num_bits ≤ 64 * w + k := hge
        rw [Nat.testBit_or, hp (i / 64) k hk (by rw [hc.1]; exact hge),
          Nat.testBit_two_pow, Bool.false_or]
        simp only [decide_eq_false_iff_not]
        omega
      · exact h1
  · exact paddingClear_of_length_zero (by rw [(set_shape hr).2]; exact h0)

theorem paddingClear_reset_index {b b' : DynamicBitset} {i spurious : Nat} {old : Bool}
    (hs : b.WellFormed ∨ b.bitvec.length = 0) (hp : PaddingClear b) (hi : i < b.num_bits)
    (hr : b.reset_index i spurious = .ok (old, b')) : PaddingClear b' := by
  rcases hs with hwf | h0
  · rw [reset_index_eq spurious (word_lt_of_wellFormed hwf hi)] at hr
    have hb := congrArg Prod.snd (Except.ok.inj hr)
    simp only at hb
    subst hb
    split
    · intro w k hk hge
      have h1 := hp w k hk hge
      simp only [getD_set]
      split
      · rename_i hc
        rw [Nat.testBit_and, hp (i / 64) k hk (by rw [hc.1]; exact hge), Bool.false_and]
      · exact h1
    · exact hp
  · exact paddingClear_of_length_zero (by rw [(reset_index_shape hr).2]; exact h0)

/-- **C26.** In every state reachable from a newly constructed bitset by `resize(n)`,
`reset()`, `reset(begin, end)` with `begin ≤ end < num_bits`, and `set(i)` and the
single-bit `reset(i)` with `i < num_bits`, every bit of a backing word at a position
`≥ num_bits` is 0, and the number of 1 bits over all backing words equals the number of
`i < num_bits` for which `test(i)` returns `true`. -/
theorem padding_clear_reachable {b : DynamicBitset} (h : ReachableValid b) :
    PaddingClear b ∧ b.onesInWords = b.onesBelowNumBits := by
  have hp : PaddingClear b := by
    induction h with
    | construct => exact paddingClear_of_length_zero rfl
    | resize n uninit _ _ _ => exact paddingClear_reset _
    | reset _ _ => exact paddingClear_reset _
    | reset_range begin end_ hb hbe hen hr ih =>
      exact paddingClear_reset_range (reachableValid_shape hb) ih hbe hen hr
    | set index spurious old hb hi hr ih =>
      exact paddingClear_set (reachableValid_shape hb) ih hi hr
    | reset_index index spurious old hb hi hr ih =>
      exact paddingClear_reset_index (reachableValid_shape hb) ih hi hr
  exact ⟨hp, ones_eq_of_paddingClear hp⟩

/-- Witness of `padding_clear_reachable`: the state after `resize(70)`, `set(5)` and
`set(69)`. -/
theorem padding_clear_reachable_witness :
    ReachableValid (DynamicBitset.mk [32, 32] 70) ∧
    (PaddingClear (DynamicBitset.mk [32, 32] 70) ∧
      (DynamicBitset.mk [32, 32] 70).onesInWords =
        (DynamicBitset.mk [32, 32] 70).onesBelowNumBits) :=
  have hr : ReachableValid (DynamicBitset.mk [32, 32] 70) :=
    .set 69 0 false
      (.set 5 0 false (.resize 70 0 .construct (by decide)) (by decide)
        (show (empty.resize 70 0).set 5 0 = .ok (false, DynamicBitset.mk [32, 0] 70) from rfl))
      (by decide) rfl
  ⟨hr, padding_clear_reachable hr⟩

/-! ### Offsets of the set bits -/

theorem isSet_iff (b : DynamicBitset) (i : Nat) : b.isSet i = true ↔ b.test i = .ok true := by
  unfold isSet
  cases b.test i with
  | ok r => cases r <;> simp
  | error e => simp

theorem count_eq (b : DynamicBitset) :
    b.count = ((List.range b.num_bits).filter (fun i => b.bit i)).length := by
  unfold count
  by_cases hc : b.num_bits ≤ 64 * b.bitvec.length
  · have e2 : 64 * b.bitvec.length = b.num_bits + (64 * b.bitvec.length - b.num_bits) := by
      omega
    rw [e2, filter_range_of_false]
    · congr 1
      apply List.filter_congr
      intro x hx
      rw [List.mem_range] at hx
      simp only [hx, decide_True, Bool.true_and]
    · intro i h1 _
      have : ¬ i < b.num_bits := by omega
      simp only [this, decide_False, Bool.false_and]
  · have e2 : b.num_bits = 64 * b.bitvec.length + (b.num_bits - 64 * b.bitvec.length) := by
      omega
    have e3 : (List.range b.num_bits).filter (fun i => b.bit i) =
        (List.range (64 * b.bitvec.length)).filter (fun i => b.bit i) := by
      rw [e2, filter_range_of_false]
      intro i h1 _
      simp only [bit, getD_of_length_le (show b.bitvec.length ≤ i / 64 by omega),
        Nat.zero_testBit]
    rw [e3]
    congr 1
    apply List.filter_congr
    intro x hx
    rw [List.mem_range] at hx
    have : x < b.num_bits := by omega
    simp only [this, decide_True, Bool.true_and]

/-- **C23.** For every bitset, `GetOffsets()` returns its indices in strictly ascending
order, the indices it returns are exactly those `i` for which `test(i)` returns `true`
(the set bits), and the length of the returned vector equals `count()`. -/
theorem getOffsets_ascending_length_count (b : DynamicBitset) :
    b.GetOffsets.Pairwise (· < ·) ∧
    (∀ i, i ∈ b.GetOffsets ↔ b.test i = .ok true) ∧
    b.GetOffsets.length = b.count := by
  refine ⟨List.Pairwise.filter _ (List.pairwise_lt_range _), ?_, ?_⟩
  · intro i
    rw [← isSet_iff]
    unfold GetOffsets
    rw [List.mem_filter, List.mem_range]
    constructor
    · exact fun h => h.2
    · intro h
      refine ⟨?_, h⟩
      rw [isSet_eq] at h
      simp only [Bool.and_eq_true, decide_eq_true_eq] at h
      exact h.1
  · rw [count_eq, getOffsets_eq]

/-! ### Concurrent calls of `set` on one index -/

theorem or_and_self (a off : Nat) : (a ||| off) &&& off = off := by
  apply Nat.eq_of_testBit_eq
  intro i
  rw [Nat.testBit_and, Nat.testBit_or]
  cases a.testBit i <;> cases off.testBit i <;> rfl

theorem count_set_thread (ts : List SetThread) (i : Nat) (old new x : SetThread)
    (h : ts[i]? = some old) :
    (ts.set i new).count x =
      ts.count x - (if old = x then 1 else 0) + (if new = x then 1 else 0) := by
  obtain ⟨hi, he⟩ := List.getElem?_eq_some.mp h
  rw [List.count_set new x ts i hi, he]
  simp only [beq_iff_eq]

theorem SetRace.observed_mem (s : SetRace) (pick : Nat) :
    s.observed pick = s.word ∨ s.observed pick ∈ s.past := by
  unfold SetRace.observed
  cases pick with
  | zero => left; rfl
  | succ n =>
    by_cases hn : n < s.past.length
    · right
      simp only [List.getD_cons_succ, List.getD_eq_getElem _ _ hn]
      exact List.getElem_mem hn
    · left
      simp only [List.getD_cons_succ]
      rw [List.getD_eq_default _ _ (Nat.le_of_not_lt hn)]

theorem SetRace.step_length (off : Nat) (s : SetRace) (e : SetEvent) :
    (s.step off e).threads.length = s.threads.length := by
  unfold SetRace.step
  split
  · rfl
  · simp only [List.length_set]
  · split
    · split <;> simp only [List.length_set]
    · simp only [List.length_set]
  · rfl

/-- Replacing the state of one thread keeps the invariant when neither the old nor the new
state is "returned `false`" and the new state is consistent with the latest value. -/
theorem SetRace.inv_update {off : Nat} {s : SetRace} (hinv : s.Inv off) (tid : Nat)
    (old new : SetThread) (h : s.threads[tid]? = some old)
    (hold : old ≠ .done false) (hnew : new ≠ .done false)
    (hloop : ∀ v, new = .loop v → v &&& off ≠ 0 → s.word &&& off ≠ 0)
    (hdone : new = .done true → s.word &&& off ≠ 0) :
    SetRace.Inv off { s with threads := s.threads.set tid new } := by
  obtain ⟨h1, h2, h3, h4⟩ := hinv
  refine ⟨h1, ?_, ?_, ?_⟩
  · intro v hv hb
    rcases List.mem_or_eq_of_mem_set hv with hm | he
    · exact h2 v hm hb
    · exact hloop v he.symm hb
  · intro hv
    rcases List.mem_or_eq_of_mem_set hv with hm | he
    · exact h3 hm
    · exact hdone he.symm
  · show (s.threads.set tid new).count (.done false) = _
    rw [count_set_thread s.threads tid old new _ h, if_neg hold, if_neg hnew]
    exact h4

theorem SetRace.inv_observed {off : Nat} {s : SetRace} (hinv : s.Inv off) (pick : Nat)
    (hb : s.observed pick &&& off ≠ 0) : s.word &&& off ≠ 0 := by
  rcases s.observed_mem pick with h | h
  · rw [h] at hb; exact hb
  · exact hinv.1 _ h hb

/-- Every atomic action keeps the invariant of the race. -/
theorem SetRace.inv_step {off : Nat} (hoff : off ≠ 0) {s : SetRace} (hinv : s.Inv off)
    (e : SetEvent) : (s.step off e).Inv off := by
  unfold SetRace.step
  split
  · exact hinv
  · rename_i hth
    refine SetRace.inv_update hinv e.tid .start _ hth (by simp) (by simp) ?_ (by simp)
    intro v hv hb
    cases hv
    exact SetRace.inv_observed hinv _ hb
  · rename_i old_val hth
    have hmem : SetThread.loop old_val ∈ s.threads := List.mem_iff_getElem?.mpr ⟨_, hth⟩
    split
    · rename_i hclear
      split
      · rename_i hcas
        have hw : (old_val ||| off) &&& off ≠ 0 := by rw [or_and_self]; exact hoff
        have hw0 : s.word &&& off = 0 := by rw [hcas.1]; exact hclear
        refine ⟨fun _ _ _ => hw, fun _ _ _ => hw, fun _ => hw, ?_⟩
        show (s.threads.set e.tid _).count (.done false) = _
        rw [count_set_thread s.threads e.tid _ _ _ hth, hinv.2.2.2, if_pos hw]
        simp [hw0, hclear]
      · refine SetRace.inv_update hinv e.tid _ _ hth (by simp) (by simp) ?_ (by simp)
        intro v hv hb
        cases hv
        exact SetRace.inv_observed hinv _ hb
    · rename_i hset
      have hr : ((old_val &&& off) != 0) = true := by simpa using hset
      rw [hr]
      exact SetRace.inv_update hinv e.tid _ _ hth (by simp) (by simp) (by simp)
        (fun _ => hinv.2.1 old_val hmem hset)
  · exact hinv

theorem SetRace.inv_run {off : Nat} (hoff : off ≠ 0) (schedule : List SetEvent) (s : SetRace)
    (hinv : s.Inv off) :
    (schedule.foldl (SetRace.step off) s).Inv off ∧
      (schedule.foldl (SetRace.step off) s).threads.length = s.threads.length := by
  induction schedule generalizing s with
  | nil => exact ⟨hinv, rfl⟩
  | cons e es ih =>
    obtain ⟨h1, h2⟩ := ih (s.step off e) (SetRace.inv_step hoff hinv e)
    exact ⟨h1, h2.trans (SetRace.step_length off s e)⟩

theorem SetRace.inv_init {off w : Nat} (hw : w &&& off = 0) (k : Nat) :
    SetRace.Inv off { word := w, past := [], threads := List.replicate k .start } := by
  refine ⟨?_, ?_, ?_, ?_⟩
  · intro v hv; cases hv
  · intro v hv; cases List.eq_of_mem_replicate hv
  · intro hv; cases List.eq_of_mem_replicate hv
  · show (List.replicate k SetThread.start).count _ = _
    rw [List.count_replicate]
    simp [hw]

theorem allDone_length {ts : List SetThread} (h : AllDone ts) :
    ts.length = ts.count (.done false) + ts.count (.done true) := by
  induction ts with
  | nil => rfl
  | cons t ts ih =>
    have ih2 := ih (fun x hx => h x (List.mem_cons_of_mem _ hx))
    obtain ⟨r, rfl⟩ := h t (List.mem_cons_self _ _)
    cases r <;> simp [List.count_cons, ih2] <;> omega

theorem SetRace.step_start (off : Nat) (s : SetRace) (e : SetEvent)
    (h : s.threads[e.tid]? = some .start) :
    s.step off e = { s with threads := s.threads.set e.tid (.loop (s.observed e.pick)) } := by
  simp only [SetRace.step, h]

theorem SetRace.step_loop (off : Nat) (s : SetRace) (e : SetEvent) (old_val : Nat)
    (h : s.threads[e.tid]? = some (.loop old_val)) :
    s.step off e =
      if old_val &&& off = 0 then
        if s.word = old_val ∧ e.fail = false then
          { word := old_val ||| off, past := s.word :: s.past,
            threads := s.threads.set e.tid (.done ((old_val &&& off) != 0)) }
        else { s with threads := s.threads.set e.tid (.loop (s.observed e.pick)) }
      else { s with threads := s.threads.set e.tid (.done ((old_val &&& off) != 0)) } := by
  simp only [SetRace.step, h]

/-- A thread that has not started returns after two atomic actions of its own when no
other thread moves in between and the exchange does not fail spuriously. -/
theorem SetRace.two_steps (off : Nat) (s : SetRace) (m : Nat)
    (h : s.threads[m]? = some .start) :
    ∃ r, ((s.step off ⟨m, 0, false⟩).step off ⟨m, 0, false⟩).threads =
      s.threads.set m (.done r) := by
  have hm : m < s.threads.length := (List.getElem?_eq_some.mp h).1
  rw [SetRace.step_start off s ⟨m, 0, false⟩ h]
  have h1 : (s.threads.set m (.loop (s.observed 0)))[m]? = some (.loop s.word) := by
    rw [List.getElem?_set]
    simp only [hm, if_true]
    rfl
  rw [SetRace.step_loop off _ ⟨m, 0, false⟩ s.word h1]
  refine ⟨(s.word &&& off) != 0, ?_⟩
  split
  · rw [if_pos ⟨rfl, rfl⟩]
    simp only [List.set_set]
  · simp only [List.set_set]

/-- When the threads call `set` one after the other, every thread returns. -/
theorem SetRace.sequential_prefix (off w k m : Nat) (hm : m ≤ k) :
    ∀ s, s = (sequentialSchedule m).foldl (SetRace.step off)
        { word := w, past := [], threads := List.replicate k .start } →
      s.threads.length = k ∧ (∀ j, j < m → ∃ r, s.threads[j]? = some (.done r)) ∧
        (∀ j, m ≤ j → j < k → s.threads[j]? = some .start) := by
  induction m with
  | zero =>
    intro s hs
    subst hs
    refine ⟨List.length_replicate _ _, fun j hj => absurd hj (Nat.not_lt_zero j), ?_⟩
    intro j _ hj
    show (List.replicate k SetThread.start)[j]? = _
    rw [List.getElem?_replicate, if_pos hj]
  | succ m ih =>
    intro s hs
    obtain ⟨hl, hd, hst⟩ := ih (by omega) _ rfl
    have hsched : sequentialSchedule (m + 1) =
        sequentialSchedule m ++ [⟨m, 0, false⟩, ⟨m, 0, false⟩] := by
      unfold sequentialSchedule
      rw [List.range_succ, List.flatMap_append]
      rfl
    rw [hsched, List.foldl_append] at hs
    obtain ⟨r, hr⟩ := SetRace.two_steps off _ m (hst m (Nat.le_refl m) (by omega))
    subst hs
    show ((SetRace.step off (SetRace.step off _ ⟨m, 0, false⟩) ⟨m, 0, false⟩).threads.length
        = k) ∧
      (∀ j, j < m + 1 →
        ∃ r, (SetRace.step off (SetRace.step off _ ⟨m, 0, false⟩) ⟨m, 0, false⟩).threads[j]?
          = some (.done r)) ∧
      (∀ j, m + 1 ≤ j → j < k →
        (SetRace.step off (SetRace.step off _ ⟨m, 0, false⟩) ⟨m, 0, false⟩).threads[j]?
          = some .start)
    rw [hr]
    refine ⟨by rw [List.length_set]; exact hl, ?_, ?_⟩
    · intro j hj
      rw [List.getElem?_set]
      by_cases hjm : m = j
      · subst hjm
        exact ⟨r, by rw [if_pos rfl, if_pos (by omega)]⟩
      · rw [if_neg hjm]
        exact hd j (by omega)
    · intro j hj1 hj2
      rw [List.getElem?_set, if_neg (by omega)]
      exact hst j (by omega) hj2

theorem SetRace.sequential_allDone (off w k : Nat) :
    AllDone ((sequentialSchedule k).foldl (SetRace.step off)
      { word := w, past := [], threads := List.replicate k .start }).threads := by
  obtain ⟨hl, hd, -⟩ := SetRace.sequential_prefix off w k k (Nat.le_refl k) _ rfl
  intro t ht
  obtain ⟨n, hn⟩ := List.mem_iff_getElem?.mp ht
  have hlt : n < k := by
    rw [← hl]; exact (List.getElem?_eq_some.mp hn).1
  obtain ⟨r, hr⟩ := hd n hlt
  rw [hn] at hr
  exact ⟨r, Option.some.inj hr⟩

theorem set_concurrent_eq (b : DynamicBitset) (i k : Nat) (schedule : List SetEvent)
    (hw : i / 64 < b.bitvec.length) :
    b.set_concurrent i k schedule =
      .ok ((schedule.foldl (SetRace.step (2 ^ (i % 64)))
          { word := b.bitvec.getD (i / 64) 0, past := [],
            threads := List.replicate k .start }).threads,
        { b with
          bitvec := b.bitvec.set (i / 64)
            (schedule.foldl (SetRace.step (2 ^ (i % 64)))
              { word := b.bitvec.getD (i / 64) 0, past := [],
                threads := List.replicate k .start }).word }) := by
  have hk : i % 64 < 64 := Nat.mod_lt _ (by decide)
  simp only [set_concurrent, bits_uint64, shl64_one hk, readWord_of_lt hw]
  rfl

/-- **C21.** For every `k ≥ 1`, every bitset (with the word count of the data model) and
every index `i < num_bits` whose bit is initially clear (`test(i)` returns `false`), when
`k` threads each call `set(i)` once: the calls can all return (they do when the threads run
one after the other), and for every interleaving of the atomic actions of the `k` calls
(loads that may return any value the word has had, compare-exchanges that may fail
spuriously), once all `k` calls have returned `test(i)` returns `true`, exactly one of the
`k` calls has returned `false` and the other `k - 1` calls have returned `true`. -/
theorem concurrent_set_exactly_one_first (b : DynamicBitset) (i k : Nat) (hk : 1 ≤ k)
    (hwf : b.WellFormed) (hi : i < b.num_bits) (h0 : b.test i = .ok false) :
    (∃ ts b', b.set_concurrent i k (sequentialSchedule k) = .ok (ts, b') ∧ AllDone ts) ∧
    ∀ schedule, ∃ ts b', b.set_concurrent i k schedule = .ok (ts, b') ∧ ts.length = k ∧
      (AllDone ts → b'.test i = .ok true ∧ ts.count (.done false) = 1 ∧
        ts.count (.done true) = k - 1) := by
  have hw : i / 64 < b.bitvec.length := word_lt_of_wellFormed hwf hi
  have hk64 : i % 64 < 64 := Nat.mod_lt _ (by decide)
  have hoff : 2 ^ (i % 64) ≠ 0 := Nat.ne_of_gt (Nat.two_pow_pos _)
  have hclear : b.bitvec.getD (i / 64) 0 &&& 2 ^ (i % 64) = 0 := by
    rw [test_eq_bit hi hw] at h0
    have hb : b.bit i = false := Except.ok.inj h0
    have := and_two_pow_ne_zero (b.bitvec.getD (i / 64) 0) (i % 64)
    rw [show (b.bitvec.getD (i / 64) 0).testBit (i % 64) = false from hb] at this
    simpa using this
  refine ⟨⟨_, _, set_concurrent_eq b i k _ hw, SetRace.sequential_allDone _ _ _⟩, ?_⟩
  intro schedule
  obtain ⟨hinv, hlen⟩ := SetRace.inv_run hoff schedule _ (SetRace.inv_init hclear k)
  refine ⟨_, _, set_concurrent_eq b i k schedule hw, ?_, ?_⟩
  · rw [hlen]; exact List.length_replicate _ _
  · intro hdone
    generalize schedule.foldl (SetRace.step (2 ^ (i % 64)))
      { word := b.bitvec.getD (i / 64) 0, past := [],
        threads := List.replicate k .start } = s at hinv hlen hdone ⊢
    have hlk : s.threads.length = k := by rw [hlen]; exact List.length_replicate _ _
    obtain ⟨-, -, h3, h4⟩ := hinv
    have hsum := allDone_length hdone
    have hbit : s.word &&& 2 ^ (i % 64) ≠ 0 := by
      intro hz
      rw [if_neg (by rw [hz]; exact fun h => h rfl)] at h4
      have h5 : 0 < s.threads.count (.done true) := by omega
      exact h3 (List.count_pos_iff.mp h5) hz
    rw [if_pos hbit] at h4
    refine ⟨?_, h4, by omega⟩
    have ht := @test_eq_bit (DynamicBitset.mk (b.bitvec.set (i / 64) s.word) b.num_bits) i hi
      (by simp only [List.length_set]; exact hw)
    rw [ht]
    simp only [bit, getD_set, hw, and_self, if_true]
    rw [← and_two_pow_ne_zero]
    simpa using hbit

/-- Witness of `concurrent_set_exactly_one_first`: three threads call `set(3)` on a bitset
of 10 bits in which bits 0 and 2 are set. -/
theorem concurrent_set_exactly_one_first_witness :
    (1 ≤ 3 ∧ (DynamicBitset.mk [5] 10).WellFormed ∧ 3 < (DynamicBitset.mk [5] 10).num_bits ∧
      (DynamicBitset.mk [5] 10).test 3 = .ok false) ∧
    ((∃ ts b', (DynamicBitset.mk [5] 10).set_concurrent 3 3 (sequentialSchedule 3) =
        .ok (ts, b') ∧ AllDone ts) ∧
    ∀ schedule, ∃ ts b', (DynamicBitset.mk [5] 10).set_concurrent 3 3 schedule =
        .ok (ts, b') ∧ ts.length = 3 ∧
      (AllDone ts → b'.test 3 = .ok true ∧ ts.count (.done false) = 1 ∧
        ts.count (.done true) = 3 - 1)) :=
  ⟨⟨by decide, by decide, by decide, rfl⟩,
    concurrent_set_exactly_one_first (DynamicBitset.mk [5] 10) 3 3 (by decide) (by decide)
      (by decide) rfl⟩

/-- An interleaving of three calls of `set(3)`: all three threads load the word 5; thread 1
exchanges it for 13 and returns `false`; the exchange of thread 0 fails and reloads the
stale value 5, fails again and reloads 13, and thread 0 returns `true`; the exchange of
thread 2 fails, reloads 13, and thread 2 returns `true`. -/
theorem set_concurrent_example :
    (DynamicBitset.mk [5] 10).set_concurrent 3 3
      [⟨0, 0, false⟩, ⟨1, 0, false⟩, ⟨2, 0, false⟩, ⟨1, 0, false⟩, ⟨0, 1, false⟩,
        ⟨0, 0, false⟩, ⟨0, 0, false⟩, ⟨2, 0, true⟩, ⟨2, 0, false⟩] =
    .ok ([.done true, .done false, .done true], DynamicBitset.mk [13] 10) := rfl

/-! ### The full-range reset -/

theorem fillZero_all (v : List Nat) :
    fillZero v 0 v.length = .ok (v.map (fun _ => 0)) := by
  simp only [fillZero, Nat.le_refl, if_true]
  congr 1
  apply list_eq_of_getD (by simp only [List.length_mapIdx, List.length_map])
  intro w
  rw [getD_mapIdx, getD_map_zero]
  split
  · rename_i h
    rw [if_pos ⟨Nat.zero_le w, h⟩]
  · rfl

/-- **C31.** For every bitset with `num_bits > 0` whose backing word count is
`ceil(num_bits / 64)`, the full-range call `reset(0, num_bits - 1)` returns and leaves
exactly the state that the whole-bitset `reset()` leaves: every backing word is 0, the
number of backing words and `size()` are unchanged. -/
theorem reset_range_full_eq_reset (b : DynamicBitset) (hwf : b.WellFormed)
    (hpos : 0 < b.num_bits) :
    b.reset_range 0 (b.num_bits - 1) = .ok b.reset ∧
    (∀ w, w ∈ b.reset.bitvec → w = 0) ∧
    b.reset.bitvec.length = b.bitvec.length ∧ b.reset.size = b.size := by
  obtain ⟨hn, hL⟩ := hwf
  have hn0 : ¬ b.num_bits = 0 := by omega
  have e1 : sub64 b.num_bits 1 = b.num_bits - 1 := sub64_eq (by omega) (by omega)
  have e2 : sub64 (add64 0 bits_uint64) 1 / bits_uint64 = 0 := by decide
  have e3 : mul64 0 bits_uint64 = 0 := by decide
  have hlen : 0 < b.bitvec.length := by omega
  have m2 : mul64 b.bitvec.length bits_uint64 = b.bitvec.length * 64 :=
    mul64_eq (by simp only [bits_uint64, U64] at *; omega)
  have h1 : ¬ (0 > b.bitvec.length * 64) := by omega
  have h2 : ¬ (b.num_bits - 1 ≥ b.bitvec.length * 64) := by omega
  refine ⟨?_, ?_, ?_, rfl⟩
  · simp only [reset_range, hn0, if_false, e1, e2, e3, m2, debugAssert, Nat.zero_le,
      Nat.le_refl, if_true, hlen, fillZero_all, h1, h2, Nat.lt_irrefl]
    rfl
  · intro w hw
    simp only [reset, List.mem_map] at hw
    obtain ⟨_, _, rfl⟩ := hw
    rfl
  · simp only [reset, List.length_map]

/-- Witness of `reset_range_full_eq_reset`: a bitset of 131 bits in three words, with
unused bits of the last word set. -/
theorem reset_range_full_eq_reset_witness :
    ((DynamicBitset.mk [5, 2 ^ 64 - 1, 2 ^ 64 - 1] 131).WellFormed ∧
      0 < (DynamicBitset.mk [5, 2 ^ 64 - 1, 2 ^ 64 - 1] 131).num_bits) ∧
    ((DynamicBitset.mk [5, 2 ^ 64 - 1, 2 ^ 64 - 1] 131).reset_range 0
        ((DynamicBitset.mk [5, 2 ^ 64 - 1, 2 ^ 64 - 1] 131).num_bits - 1) =
      .ok (DynamicBitset.mk [5, 2 ^ 64 - 1, 2 ^ 64 - 1] 131).reset ∧
    (∀ w, w ∈ (DynamicBitset.mk [5, 2 ^ 64 - 1, 2 ^ 64 - 1] 131).reset.bitvec → w = 0) ∧
    (DynamicBitset.mk [5, 2 ^ 64 - 1, 2 ^ 64 - 1] 131).reset.bitvec.length =
      (DynamicBitset.mk [5, 2 ^ 64 - 1, 2 ^ 64 - 1] 131).bitvec.length ∧
    (DynamicBitset.mk [5, 2 ^ 64 - 1, 2 ^ 64 - 1] 131).reset.size =
      (DynamicBitset.mk [5, 2 ^ 64 - 1, 2 ^ 64 - 1] 131).size) :=
  ⟨⟨by decide, by decide⟩, reset_range_full_eq_reset _ (by decide) (by decide)⟩

end DynamicBitset

end katana
